import Mathlib

/-!
Verification of the arm-rs association-rule miner.

This file gives a shallow embedding, in Lean 4, of the core of the arm-rs
program (FP-Growth frequent-itemset mining and AprioriGen-style rule
generation), together with theorems checking the natural-language
specification against that embedding.

Modelling conventions:
* Rust `Item` wraps a `u32` id; we model items as `Nat` (ids are small and
  never overflow in any reachable arithmetic).
* Rust `f64` support/confidence/lift values are modelled as `Rat`; the
  program only ever divides positive counts, and the claims under study are
  about exact threshold comparisons, not rounding.
* Rust panics (indexing a `HashMap` with a missing key, `prefx_match_len`
  on slices of different lengths, `split_out` on a non-subset) are modelled
  by `Option`, with `none` meaning the computation aborts.
* Rust `HashMap`s are modelled by association lists with last-insert-wins
  lookup, or by plain functions when only pointwise reads occur.
* `Vec::sort` / `sort_by` are stable sorts; every call site in the program
  sorts by a total order (ties are broken by distinct ids or by list
  contents), so the result is the unique sorted permutation and we model
  all of them with `List.insertionSort`.
-/

set_option maxHeartbeats 1600000
set_option maxRecDepth 4000

namespace ArmRs

/-- Sorted-vector merge, from vec_sets.rs `union` (the first counting pass
of the Rust code only preallocates capacity and is not observable). -/
def union : List ℕ → List ℕ → List ℕ
  | [], b => b
  | a, [] => a
  | x :: a, y :: b =>
    if x < y then x :: union a (y :: b)
    else if y < x then y :: union (x :: a) b
    else x :: union a b

/-- From vec_sets.rs `split_out_item`: partition `items` into the elements
different from `item` and the singleton `[item]`. -/
def splitOutItem (items : List ℕ) (item : ℕ) : List ℕ × List ℕ :=
  (items.filter (fun x => x ≠ item), [item])

/-- Modelled from the spec: vec_sets `split_out(a, b)` is missing from the
source snapshot (only its import and callers are present).  Per the spec it
returns `a \ b` for sorted vectors where `b ⊆ a`, and fails when `b` is not
a subset of `a`; failure is modelled as `none`. -/
def splitOut (a b : List ℕ) : Option (List ℕ) :=
  if b.all (fun x => x ∈ a) then some (a.filter (fun x => x ∉ b)) else none

/-- From generate_rules.rs `prefx_match_len`: index of the first mismatch
of two equal-length slices; the Rust function panics when the lengths
differ, modelled by `none`. -/
def prefxMatchLen (a b : List ℕ) : Option ℕ :=
  if a.length = b.length then some (go a b) else none
where
  go : List ℕ → List ℕ → ℕ
    | x :: a, y :: b => if x = y then go a b + 1 else 0
    | _, _ => 0

/-- From rule.rs: an association rule.  Rust equality and hashing use only
the antecedent and consequent; the statistics are derived from them, so we
can carry full structural equality. -/
structure Rule where
  antecedent : List ℕ
  consequent : List ℕ
  confidence : ℚ
  lift : ℚ
  support : ℚ
deriving DecidableEq, Repr

/-- From fptree.rs: a frequent itemset with its absolute support count. -/
structure ItemSet where
  items : List ℕ
  count : ℕ
deriving DecidableEq, Repr

/-- From fptree.rs `ItemSet::new`: stores the items sorted ascending. -/
def ItemSet.new (items : List ℕ) (count : ℕ) : ItemSet :=
  ⟨items.insertionSort (· ≤ ·), count⟩

/-- Last-insert-wins lookup in an association list, modelling collecting
the pairs into a `HashMap` and then indexing it. -/
def tableFind (table : List (List ℕ × ℚ)) (k : List ℕ) : Option ℚ :=
  (table.reverse.find? (fun p => p.1 = k)).map (·.2)

/-- From generate_rules.rs `create_support_lookup`. -/
def createSupportLookup (itemsets : List ItemSet) (datasetSize : ℕ) :
    List (List ℕ × ℚ) :=
  itemsets.map (fun s => (s.items, (s.count : ℚ) / (datasetSize : ℚ)))

/-- From generate_rules.rs `stats`: confidence and lift of a candidate
rule.  The Rust code indexes the support table directly, which panics when
the antecedent or the consequent is absent; that abort is `none` here. -/
def stats (support : ℚ) (antecedent consequent : List ℕ)
    (sup : List ℕ → Option ℚ) : Option (ℚ × ℚ) :=
  match sup antecedent with
  | none => none
  | some aSup =>
    let confidence := support / aSup
    match sup consequent with
    | none => none
    | some cSup => some (confidence, support / (aSup * cSup))

/-- Seed loop of generate_rules.rs `generate_rules_for_itemset`: walks the
items of the itemset building the initial output rules and the first
generation of single-item consequent candidates. -/
def seedPhase (itemset : List ℕ) (support : ℚ) (sup : List ℕ → Option ℚ)
    (minConfidence minLift : ℚ) : List ℕ → Option (List Rule × List (List ℕ))
  | [] => some ([], [])
  | i :: rest =>
    let ac := splitOutItem itemset i
    match stats support ac.1 ac.2 sup with
    | none => none
    | some cl =>
      match seedPhase itemset support sup minConfidence minLift rest with
      | none => none
      | some (out, cands) =>
        if cl.1 < minConfidence then some (out, cands)
        else if minLift ≤ cl.2 then
          some (⟨ac.1, ac.2, cl.1, cl.2, support⟩ :: out, ac.2 :: cands)
        else some (out, ac.2 :: cands)

/-- Inner pair loop of `generate_rules_for_itemset`: for a fixed candidate
`c1`, scans the candidates after it, stopping at the first one that does
not share an (m-1)-item sorted prefix with `c1`. -/
def innerPairs (itemset : List ℕ) (support : ℚ) (sup : List ℕ → Option ℚ)
    (minConfidence minLift : ℚ) (m : ℕ) (c1 : List ℕ) :
    List (List ℕ) → Option (List Rule × List (List ℕ))
  | [] => some ([], [])
  | c2 :: rest =>
    match prefxMatchLen c1 c2 with
    | none => none
    | some l =>
      if l ≠ m - 1 then some ([], [])
      else
        let consequent := union c1 c2
        match splitOut itemset consequent with
        | none => none
        | some antecedent =>
          match stats support antecedent consequent sup with
          | none => none
          | some cl =>
            match innerPairs itemset support sup minConfidence minLift m c1 rest with
            | none => none
            | some (out, gens) =>
              if cl.1 < minConfidence then some (out, gens)
              else if minLift ≤ cl.2 then
                some (⟨antecedent, consequent, cl.1, cl.2, support⟩ :: out,
                  consequent :: gens)
              else some (out, consequent :: gens)

/-- Outer pair loop of `generate_rules_for_itemset`: scans every ordered
pair of candidates, with the inner early exit of `innerPairs`. -/
def outerPairs (itemset : List ℕ) (support : ℚ) (sup : List ℕ → Option ℚ)
    (minConfidence minLift : ℚ) (m : ℕ) :
    List (List ℕ) → Option (List Rule × List (List ℕ))
  | [] => some ([], [])
  | c1 :: rest =>
    match innerPairs itemset support sup minConfidence minLift m c1 rest with
    | none => none
    | some (out1, gen1) =>
      match outerPairs itemset support sup minConfidence minLift m rest with
      | none => none
      | some (out2, gen2) => some (out1 ++ out2, gen1 ++ gen2)

/-- The while loop of `generate_rules_for_itemset`, merging consequent
generations until the consequent would swallow the whole itemset.  The
Rust loop needs no fuel; here the fuel argument is an upper bound on the
number of iterations (each generation strictly grows the consequent size,
so `itemset.length` iterations always suffice, and the correctness
theorems show the `none`-on-zero-fuel branch is never taken). -/
def expansionLoop (itemset : List ℕ) (support : ℚ) (sup : List ℕ → Option ℚ)
    (minConfidence minLift : ℚ) : ℕ → List (List ℕ) → Option (List Rule)
  | fuel, cands =>
    match cands with
    | [] => some []
    | c0 :: _ =>
      if c0.length + 1 < itemset.length then
        match fuel with
        | 0 => none
        | fuel + 1 =>
          match outerPairs itemset support sup minConfidence minLift c0.length cands with
          | none => none
          | some (out, nextGen) =>
            match expansionLoop itemset support sup minConfidence minLift fuel
                (nextGen.insertionSort (· ≤ ·)) with
            | none => none
            | some out2 => some (out ++ out2)
      else some []

/-- From generate_rules.rs `generate_rules_for_itemset`. -/
def generateRulesForItemset (itemset : List ℕ) (support : ℚ)
    (sup : List ℕ → Option ℚ) (minConfidence minLift : ℚ) : Option (List Rule) :=
  match seedPhase itemset support sup minConfidence minLift itemset with
  | none => none
  | some (out, cands) =>
    match expansionLoop itemset support sup minConfidence minLift
        itemset.length cands with
    | none => none
    | some out2 => some (out ++ out2)

/-- From generate_rules.rs `generate_rules`.  The parallel iterator
preserves the order of the per-itemset chunks in its collected result. -/
def generateRules (itemsets : List ItemSet) (datasetSize : ℕ)
    (minConfidence : ℚ) (minLift : Option ℚ) : Option (List (List Rule)) :=
  let sup := tableFind (createSupportLookup itemsets datasetSize)
  let ml := minLift.getD 0
  (itemsets.filter (fun i => 1 < i.items.length)).mapM
    (fun i => generateRulesForItemset i.items
      ((i.count : ℚ) / (datasetSize : ℚ)) sup minConfidence ml)

/-- From the generate_rules.rs test module `naive_add_rules_for`: assigns
each remaining item to the antecedent or to the consequent, and at each
leaf with both sides non-empty looks up the support of their union (a
direct table index, so a missing entry is a panic, modelled `none`),
computes the statistics and keeps the rule when it passes both thresholds. -/
def naiveAddRulesFor (sup : List ℕ → Option ℚ) (minConfidence : ℚ)
    (minLift : Option ℚ) : List ℕ → List ℕ → List ℕ → Option (List Rule)
  | [], antecedent, consequent =>
    if antecedent = [] ∨ consequent = [] then some []
    else
      match sup (union antecedent consequent) with
      | none => none
      | some support =>
        match stats support antecedent consequent sup with
        | none => none
        | some cl =>
          if minConfidence ≤ cl.1 ∧ minLift.getD 0 ≤ cl.2 then
            some [⟨antecedent, consequent, cl.1, cl.2, support⟩]
          else some []
  | i :: rest, antecedent, consequent =>
    match naiveAddRulesFor sup minConfidence minLift rest
        (antecedent ++ [i]) consequent with
    | none => none
    | some r1 =>
      match naiveAddRulesFor sup minConfidence minLift rest
          antecedent (consequent ++ [i]) with
      | none => none
      | some r2 => some (r1 ++ r2)

/-- From the generate_rules.rs test module `naive_generate_rules`: tries
every two-way split of every itemset with at least two items.  The Rust
function accumulates into a hash set; the rule list here represents that
set up to membership. -/
def naiveGenerateRules (itemsets : List ItemSet) (datasetSize : ℕ)
    (minConfidence : ℚ) (minLift : Option ℚ) : Option (List Rule) :=
  let sup := tableFind (createSupportLookup itemsets datasetSize)
  (((itemsets.map ItemSet.items).filter (fun its => 1 < its.length)).mapM
    (fun its => naiveAddRulesFor sup minConfidence minLift its [] [])).map
    List.flatten

/-- From fptree.rs: an FP-tree node.  The Rust struct stores `children`
as a vector of owned nodes; `id` exists only for equality and hashing. -/
structure FPNode where
  id : ℕ
  item : ℕ
  count : ℕ
  children : List FPNode

/-- From fptree.rs `FPNode::new`. -/
def FPNode.new (id item : ℕ) : FPNode := ⟨id, item, 0, []⟩

/-- From fptree.rs `FPNode::insert`: walks the transaction, following or
creating one child per item, adding `count` to every visited child, and
returns the updated node with the number of nodes created (new nodes take
ids `nextNodeId`, `nextNodeId + 1`, ...). -/
def FPNode.insert : List ℕ → FPNode → ℕ → ℕ → FPNode × ℕ
  | [], n, _, _ => (n, 0)
  | item :: rest, n, count, nextNodeId =>
    let found :=
      match n.children.findIdx? (fun c => c.item = item) with
      | some idx => (n.children, idx, 0)
      | none => (n.children ++ [FPNode.new nextNodeId item], n.children.length, 1)
    let cs := found.1
    let idx := found.2.1
    let newNodes := found.2.2
    let child := cs.getD idx (FPNode.new 0 0)
    let step := FPNode.insert rest { child with count := child.count + count }
      count (nextNodeId + newNodes)
    ({ n with children := cs.set idx step.1 }, newNodes + step.2)

/-- From fptree.rs: the FP-tree.  The per-item counter is a `HashMap`
read only pointwise, modelled as a total function defaulting to 0 (which
is exactly `get_item_count`). -/
structure FPTree where
  root : FPNode
  numTransactions : ℕ
  itemCount : ℕ → ℕ
  nodeCount : ℕ

/-- From fptree.rs `FPTree::new`. -/
def FPTree.new : FPTree := ⟨FPNode.new 0 0, 0, fun _ => 0, 1⟩

/-- From fptree.rs `FPTree::insert`: bumps the per-item counter once for
every occurrence of every item of the transaction, then inserts the
transaction below the root. -/
def FPTree.insert (t : FPTree) (transaction : List ℕ) (count : ℕ) : FPTree :=
  let step := FPNode.insert transaction t.root count t.nodeCount
  { root := step.1
    numTransactions := t.numTransactions + count
    itemCount := fun i => t.itemCount i + count * transaction.count i
    nodeCount := t.nodeCount + step.2 }

/-- An FP-tree reached from `FPTree::new` by a finite sequence of
`insert` calls, one per entry of `db`. -/
def buildTree (db : List (List ℕ × ℕ)) : FPTree :=
  db.foldl (fun t tc => t.insert tc.1 tc.2) FPTree.new

/-- Preorder list of the items of all non-root nodes, as collected by
fptree.rs `add_nodes_to_index`; `dedup` models the key set of the
resulting `HashMap`. -/
def nodeItems : FPNode → List ℕ
  | ⟨_, _, _, cs⟩ => (cs.attach.map (fun c => c.1.item :: nodeItems c.1)).flatten
termination_by n => sizeOf n
decreasing_by
  have := List.sizeOf_lt_of_mem c.2
  simp only [FPNode.mk.sizeOf_spec]
  omega

/-- Height of a node (1 for a leaf); the recursion measure of FP-Growth. -/
def heightN : FPNode → ℕ
  | ⟨_, _, _, cs⟩ => (cs.attach.map (fun c => heightN c.1)).foldr max 0 + 1
termination_by n => sizeOf n
decreasing_by
  have := List.sizeOf_lt_of_mem c.2
  simp only [FPNode.mk.sizeOf_spec]
  omega

/-- Preorder list of ids of all nodes of a tree (root included). -/
def nodeIds : FPNode → List ℕ
  | ⟨i, _, _, cs⟩ => i :: (cs.attach.map (fun c => nodeIds c.1)).flatten
termination_by n => sizeOf n
decreasing_by
  have := List.sizeOf_lt_of_mem c.2
  simp only [FPNode.mk.sizeOf_spec]
  omega

/-- From fptree.rs `add_parents_to_table`, walking a forest below a parent
node with id `nid`: for each child, assert that it is not yet a key of the
table (node equality is id equality), insert child -> parent, and recurse
into the child before moving to the next sibling.  The failed assertion is
modelled as `none`. -/
def addParentsList : List FPNode → ℕ → List (ℕ × ℕ) → Option (List (ℕ × ℕ))
  | [], _, table => some table
  | c :: rest, nid, table =>
    if c.id ∈ table.map (·.1) then none
    else
      match addParentsList c.children c.id ((c.id, nid) :: table) with
      | none => none
      | some t2 => addParentsList rest nid t2
termination_by cs _ _ => sizeOf cs
decreasing_by
  · obtain ⟨ci, cit, cc, ccs⟩ := c
    simp only [FPNode.mk.sizeOf_spec, List.cons.sizeOf_spec]
    omega
  · simp only [List.cons.sizeOf_spec]
    omega

/-- From fptree.rs `make_parent_table`. -/
def makeParentTable (t : FPTree) : Option (List (ℕ × ℕ)) :=
  addParentsList t.root.children t.root.id []

/-- The root-to-node paths of all nodes carrying `item`, each with that
node's count and excluding the node itself, in the preorder visit order of
fptree.rs `add_nodes_to_index`; `acc` is the item path from the root down
to (and including) the current node.  This models `make_item_index`
together with `path_from_root_to` over the parent table. -/
def condPaths (item : ℕ) : FPNode → List ℕ → List (List ℕ × ℕ)
  | ⟨_, _, _, cs⟩, acc =>
    (cs.attach.map (fun c =>
      (if c.1.item = item then [(acc, c.1.count)] else []) ++
        condPaths item c.1 (acc ++ [c.1.item]))).flatten
termination_by n _ => sizeOf n
decreasing_by
  have := List.sizeOf_lt_of_mem c.2
  simp only [FPNode.mk.sizeOf_spec]
  omega

/-- From fptree.rs `construct_conditional_tree`: inserts every conditional
path of `item` (with its node count) into a fresh tree. -/
def constructConditionalTree (t : FPTree) (item : ℕ) : FPTree :=
  buildTree (condPaths item t.root [])

/-- Comparator relation of fptree.rs `item_cmp` used with
`SortOrder::Increasing`: ascending count, ties broken by ascending id. -/
def incLe (counter : ℕ → ℕ) (a b : ℕ) : Prop :=
  counter a < counter b ∨ (counter a = counter b ∧ a ≤ b)

/-- Comparator relation of fptree.rs `item_cmp` used with
`SortOrder::Decreasing`: descending count, ties broken by descending id. -/
def decLe (counter : ℕ → ℕ) (a b : ℕ) : Prop :=
  counter b < counter a ∨ (counter a = counter b ∧ b ≤ a)

instance (counter : ℕ → ℕ) : DecidableRel (incLe counter) := fun _ _ => by
  unfold incLe; infer_instance

instance (counter : ℕ → ℕ) : DecidableRel (decLe counter) := fun _ _ => by
  unfold decLe; infer_instance

instance (counter : ℕ → ℕ) : IsTotal ℕ (incLe counter) :=
  ⟨fun a b => by unfold incLe; omega⟩

instance (counter : ℕ → ℕ) : IsTrans ℕ (incLe counter) :=
  ⟨fun a b c h1 h2 => by unfold incLe at h1 h2 ⊢; omega⟩

instance (counter : ℕ → ℕ) : IsTotal ℕ (decLe counter) :=
  ⟨fun a b => by unfold decLe; omega⟩

instance (counter : ℕ → ℕ) : IsTrans ℕ (decLe counter) :=
  ⟨fun a b c h1 h2 => by unfold decLe at h1 h2 ⊢; omega⟩

inductive SortOrder where
  | Increasing
  | Decreasing

/-- From fptree.rs `sort_transaction`; both comparators are total orders,
so the stable `sort_by` result is the unique sorted permutation. -/
def sortTransaction (transaction : List ℕ) (counter : ℕ → ℕ) :
    SortOrder → List ℕ
  | .Increasing => transaction.insertionSort (incLe counter)
  | .Decreasing => transaction.insertionSort (decLe counter)

/-- From fptree.rs `fp_growth`, with an explicit fuel argument (the Rust
recursion terminates because each conditional tree is strictly lower than
its parent tree; `heightN` fuel is shown sufficient below).  The item
enumeration is the key set of `make_item_index`, which the function
immediately sorts by the total order `incLe`, so the arbitrary `HashMap`
iteration order is not observable. -/
def fpGrowthF : ℕ → FPTree → ℕ → List ℕ → ℕ → List ItemSet
  | 0, _, _, _, _ => []
  | fuel + 1, tree, minCount, path, pathCount =>
    let items := sortTransaction
      ((nodeItems tree.root).dedup.filter (fun i => minCount < tree.itemCount i))
      tree.itemCount .Increasing
    (items.map (fun item =>
      let itemset := path ++ [item]
      let newPathCount := min pathCount (tree.itemCount item)
      fpGrowthF fuel (constructConditionalTree tree item) minCount itemset
          newPathCount
        ++ [ItemSet.new itemset newPathCount])).flatten

/-- From fptree.rs `fp_growth`. -/
def fpGrowth (tree : FPTree) (minCount : ℕ) (path : List ℕ)
    (pathCount : ℕ) : List ItemSet :=
  fpGrowthF (heightN tree.root) tree minCount path pathCount

/-- Number of transactions of the dataset containing the itemset: the
naive counting baseline of the specification (index.rs `Index::count`
returns 0 for the empty query, so only non-empty subsets can pass a
threshold). -/
def naiveCount (dataset : List (List ℕ)) (s : List ℕ) : ℕ :=
  (dataset.filter (fun t => s.all (· ∈ t))).length

/-- Support of an itemset in a weighted transaction multiset. -/
def dbSupport (db : List (List ℕ × ℕ)) (s : List ℕ) : ℕ :=
  (db.map (fun tc => if s.all (· ∈ tc.1) then tc.2 else 0)).sum

/-- From main.rs `count_item_frequencies`: dataset-wide per-item counts
(one increment per occurrence). -/
def datasetItemCount (dataset : List (List ℕ)) (i : ℕ) : ℕ :=
  (dataset.map (fun t => t.count i)).sum

/-- The insert sequence performed by the mining driver: every transaction
sorted by descending global frequency (ties broken by descending id) and
inserted with count 1. -/
def pipelineDb (dataset : List (List ℕ)) : List (List ℕ × ℕ) :=
  dataset.map (fun t => (sortTransaction t (datasetItemCount dataset) .Decreasing, 1))

/-- Child lookup along an item path (fptree.rs children are scanned by
`position`, i.e. first match). -/
def nodeAtPath : List ℕ → FPNode → Option FPNode
  | [], n => some n
  | i :: rest, n =>
    match n.children.find? (fun c => c.item = i) with
    | none => none
    | some c => nodeAtPath rest c

/-- The transactions of `db` whose first item is `x`, beheaded: the
sub-multiset handled by the child carrying `x`. -/
def headDb (db : List (List ℕ × ℕ)) (x : ℕ) : List (List ℕ × ℕ) :=
  db.filterMap (fun tc =>
    match tc.1 with
    | [] => none
    | h :: t => if h = x then some (t, tc.2) else none)

/-- Total count of the transactions of `db` whose first item is `x`. -/
def headCount (db : List (List ℕ × ℕ)) (x : ℕ) : ℕ :=
  ((headDb db x).map (·.2)).sum

/-- The node faithfully represents the transaction multiset `db`: its
children carry pairwise distinct items, exactly the items heading some
transaction, each child count is the total weight of the transactions it
heads, and each child subtree represents those transactions beheaded. -/
def NodeRep : FPNode → List (List ℕ × ℕ) → Prop
  | ⟨_, _, _, cs⟩, db =>
    (cs.map (·.item)).Nodup ∧
    (∀ tc ∈ db, ∀ h : ℕ, ∀ t : List ℕ, tc.1 = h :: t → h ∈ cs.map (·.item)) ∧
    (∀ c ∈ cs, ∃ tc ∈ db, ∃ t : List ℕ, tc.1 = c.item :: t) ∧
    (∀ c ∈ cs, c.count = headCount db c.item) ∧
    (∀ c ∈ cs.attach, NodeRep c.1 (headDb db c.1.item))
termination_by n _ => sizeOf n
decreasing_by
  have := List.sizeOf_lt_of_mem c.2
  simp only [FPNode.mk.sizeOf_spec]
  omega

/-- Every node of the tree (the root included) has children with pairwise
distinct items. -/
def DistinctChildren : FPNode → Prop
  | ⟨_, _, _, cs⟩ =>
    (cs.map (·.item)).Nodup ∧ ∀ c ∈ cs.attach, DistinctChildren c.1
termination_by n => sizeOf n
decreasing_by
  have := List.sizeOf_lt_of_mem c.2
  simp only [FPNode.mk.sizeOf_spec]
  omega

/-- From item_counter.rs: a dense counter vector indexed by item id. -/
structure ItemCounter where
  counter : List ℕ
deriving DecidableEq, Repr

/-- From item_counter.rs `ItemCounter::new`. -/
def ItemCounter.new : ItemCounter := ⟨[]⟩

/-- From item_counter.rs `ItemCounter::get`: 0 beyond the vector end. -/
def ItemCounter.get (c : ItemCounter) (item : ℕ) : ℕ :=
  c.counter.getD item 0

/-- From item_counter.rs `ItemCounter::set`: grows the vector with zeros
as needed, then stores the count at index `item`. -/
def ItemCounter.set (c : ItemCounter) (item count : ℕ) : ItemCounter :=
  let l :=
    if c.counter.length ≤ item then
      c.counter ++ List.replicate (item + 1 - c.counter.length) 0
    else c.counter
  ⟨l.set item count⟩

/-- Item strings are modelled as lists of characters: the program only
splits, trims and lexicographically compares them, and the kernel can
evaluate those operations on `List Char` directly.  (Rust compares
`String`s by UTF-8 bytes, which orders exactly like Unicode scalar
values, i.e. like `List Char` here.) -/
abbrev Str := List Char

/-- From itemizer.rs: the string/id bijection.  The `FnvHashMap` is an
association list whose lookup takes the most recent insertion. -/
structure Itemizer where
  nextItemId : ℕ
  itemStrToId : List (Str × ℕ)
  itemIdToStr : List Str
deriving DecidableEq, Repr

/-- Most-recent-insertion lookup for the itemizer map. -/
def assocFind (m : List (Str × ℕ)) (s : Str) : Option ℕ :=
  (m.find? (fun p => p.1 = s)).map (·.2)

/-- From itemizer.rs `Itemizer::new`. -/
def Itemizer.new : Itemizer := ⟨1, [], []⟩

/-- From itemizer.rs `Itemizer::id_of`: the existing id of the string, or
a freshly assigned one (ids start at 1), recording both directions. -/
def Itemizer.idOf (it : Itemizer) (s : Str) : ℕ × Itemizer :=
  match assocFind it.itemStrToId s with
  | some id => (id, it)
  | none =>
    (it.nextItemId,
      ⟨it.nextItemId + 1, (s, it.nextItemId) :: it.itemStrToId,
        it.itemIdToStr ++ [s]⟩)

/-- From itemizer.rs `Itemizer::str_of`. -/
def Itemizer.strOf (it : Itemizer) (id : ℕ) : Str :=
  it.itemIdToStr.getD (id - 1) []

/-- Loop body of itemizer.rs `Itemizer::reorder_sorted`: walks the sorted
string table with its indices, reading each string's old id from the map
(a missing entry would panic: `none`), storing its old count under the new
id, and rebinding the string to the new id. -/
def reorderLoop (itemCount : ItemCounter) :
    List (ℕ × Str) → List (Str × ℕ) → ItemCounter →
    Option (List (Str × ℕ) × ItemCounter)
  | [], m, sc => some (m, sc)
  | (index, s) :: rest, m, sc =>
    match assocFind m s with
    | none => none
    | some oldId =>
      reorderLoop itemCount rest ((s, index + 1) :: m)
        (sc.set (index + 1) (itemCount.get oldId))

/-- From itemizer.rs `Itemizer::reorder_sorted`: sorts the string table
lexicographically, reassigns ids 1..N in that order, and rewrites the
counter so each string keeps its old count; finally the caller's counter
takes the rebuilt one. -/
def Itemizer.reorderSorted (it : Itemizer) (itemCount : ItemCounter) :
    Option (Itemizer × ItemCounter) :=
  match reorderLoop itemCount (it.itemIdToStr.insertionSort (· ≤ ·)).enum
      it.itemStrToId ItemCounter.new with
  | none => none
  | some (m, sc) =>
    some (⟨it.nextItemId, m, it.itemIdToStr.insertionSort (· ≤ ·)⟩, sc)

/-- From transaction_reader.rs `dedupe_sorted`: collapse adjacent runs of
equal items (the vector is sorted first, so this removes duplicates). -/
def dedupeSorted : List ℕ → List ℕ
  | [] => []
  | x :: rest => x :: dedupeSorted.go x rest
where
  go (x : ℕ) : List ℕ → List ℕ
    | [] => []
    | y :: rest => if y = x then dedupeSorted.go x rest else y :: dedupeSorted.go y rest

/-- Split a character sequence at commas, like Rust `str::split(",")`:
always yields at least one (possibly empty) token. -/
def splitOnComma : Str → List Str
  | [] => [[]]
  | c :: rest =>
    if c = ',' then [] :: splitOnComma rest
    else
      match splitOnComma rest with
      | [] => [[c]]
      | t :: ts => (c :: t) :: ts

/-- Rust `str::trim`: strip leading and trailing whitespace. -/
def trimChars (s : Str) : Str :=
  ((s.dropWhile Char.isWhitespace).reverse.dropWhile Char.isWhitespace).reverse

/-- One line of transaction_reader.rs `TransactionReader::next`: split on
commas, trim each token, map every token through the itemizer, sort
ascending and drop duplicates. -/
def processLine (it : Itemizer) (line : Str) : List ℕ × Itemizer :=
  let step := (splitOnComma line).foldl
    (fun (acc : List ℕ × Itemizer) tok =>
      let r := acc.2.idOf (trimChars tok)
      (acc.1 ++ [r.1], r.2))
    ([], it)
  (dedupeSorted (step.1.insertionSort (· ≤ ·)), step.2)

/-- The whole iterator of transaction_reader.rs: one `next()` call per
line until end of input, yielding the processed line whenever it is
non-empty.  (In the Rust loop a skipped line would also leak its text
into the next `read_line` append, but the skip branch requires an empty
token vector, which `split` never produces, so the branch is dead and the
model is observationally exact.) -/
def readTransactions : List Str → Itemizer → List (List ℕ) × Itemizer
  | [], it => ([], it)
  | line :: rest, it =>
    let p := processLine it line
    let r := readTransactions rest p.2
    (if p.1.length > 0 then p.1 :: r.1 else r.1, r.2)

/-- From rule.rs `Rule::make`: builds a rule from a candidate
antecedent/consequent split, rejecting it (returning `none`) when either
side is empty, when any needed support-table entry is absent, or when a
threshold fails. -/
def Rule.make (antecedent consequent : List ℕ) (sup : List ℕ → Option ℚ)
    (minConfidence minLift : ℚ) : Option Rule :=
  if antecedent = [] ∨ consequent = [] then none
  else
    match sup (union antecedent consequent) with
    | none => none
    | some acSup =>
      match sup antecedent with
      | none => none
      | some aSup =>
        let confidence := acSup / aSup
        if confidence < minConfidence then none
        else
          match sup consequent with
          | none => none
          | some cSup =>
            let lift := acSup / (aSup * cSup)
            if lift < minLift then none
            else some ⟨antecedent.insertionSort (· ≤ ·),
              consequent.insertionSort (· ≤ ·), confidence, lift, acSup⟩

/-- The total weight of the transactions whose descent path passes through
the node at item path `q` (that is, whose item list starts with `q`). -/
def dbPrefCount (db : List (List ℕ × ℕ)) (q : List ℕ) : ℕ :=
  (db.map (fun tc => if tc.1.take q.length = q then tc.2 else 0)).sum

/-- The abstract conditional database for item `i`: for every transaction
containing `i`, the items strictly before (the first occurrence of) `i`. -/
def condDb (db : List (List ℕ × ℕ)) (i : ℕ) : List (List ℕ × ℕ) :=
  db.filterMap (fun tc =>
    if i ∈ tc.1 then some (tc.1.takeWhile (fun x => x ≠ i), tc.2) else none)

/-- The statistics the seed phase computes for the single-item consequent
`[i]` of `itemset` (defined when every lookup succeeds; the default is
never used under that hypothesis). -/
def seedConf (itemset : List ℕ) (support : ℚ) (sup : List ℕ → Option ℚ)
    (i : ℕ) : ℚ × ℚ :=
  (stats support (itemset.filter (fun x => x ≠ i)) [i] sup).getD (0, 0)

/-- The canonical antecedent of a candidate consequent: the items of the
itemset not in the consequent (the list both `split_out_item` and
`split_out` compute on the inputs rule generation feeds them). -/
def anteOf (itemset C : List ℕ) : List ℕ :=
  itemset.filter (fun x => x ∉ C)

/-- The (confidence, lift) pair rule generation computes for the
candidate consequent `C` of `itemset` (defined when every lookup
succeeds; the default is never used under that hypothesis). -/
def confOf (itemset : List ℕ) (support : ℚ) (sup : List ℕ → Option ℚ)
    (C : List ℕ) : ℚ × ℚ :=
  (stats support (anteOf itemset C) C sup).getD (0, 0)

/-- The rule emitted for the candidate consequent `C` of `itemset`. -/
def ruleOf (itemset : List ℕ) (support : ℚ) (sup : List ℕ → Option ℚ)
    (C : List ℕ) : Rule :=
  ⟨anteOf itemset C, C, (confOf itemset support sup C).1,
    (confOf itemset support sup C).2, support⟩

/-- The facts rule generation relies on about the support lookup over one
itemset's subsets: every non-empty subset is present with a positive
support, and support is antitone under inclusion — as holds for genuine
frequency tables. -/
def GoodTable (I : List ℕ) (sup : List ℕ → Option ℚ) : Prop :=
  (∀ s, s.Sublist I → s ≠ [] → (sup s).isSome = true) ∧
  (∀ s v, s.Sublist I → sup s = some v → 0 < v) ∧
  (∀ s t vs vt, s.Sublist t → t.Sublist I → s ≠ [] → sup s = some vs →
    sup t = some vt → vt ≤ vs)

/-! ### Basic facts about the tree recursions -/

theorem sizeOf_lt_of_mem_children {c : FPNode} {i it cnt : ℕ}
    {cs : List FPNode} (h : c ∈ cs) :
    sizeOf c < sizeOf (FPNode.mk i it cnt cs) := by
  have := List.sizeOf_lt_of_mem h
  simp only [FPNode.mk.sizeOf_spec]
  omega

/-- Strong induction over FP-tree nodes. -/
theorem FPNode.indOn {P : FPNode → Prop}
    (h : ∀ i it cnt cs, (∀ c ∈ cs, P c) → P ⟨i, it, cnt, cs⟩) :
    ∀ n, P n := by
  intro n
  obtain ⟨i, it, cnt, cs⟩ := n
  refine h i it cnt cs (fun c hc => ?_)
  have : sizeOf c < sizeOf (FPNode.mk i it cnt cs) :=
    sizeOf_lt_of_mem_children hc
  exact FPNode.indOn h c
termination_by n => sizeOf n

theorem nodeItems_def (n : FPNode) :
    nodeItems n = (n.children.map (fun c => c.item :: nodeItems c)).flatten := by
  obtain ⟨i, it, cnt, cs⟩ := n
  rw [nodeItems]
  rw [List.attach_map_val cs (fun c => c.item :: nodeItems c)]

theorem heightN_def (n : FPNode) :
    heightN n = (n.children.map heightN).foldr max 0 + 1 := by
  obtain ⟨i, it, cnt, cs⟩ := n
  rw [heightN]
  rw [List.attach_map_val cs heightN]

theorem nodeIds_def (n : FPNode) :
    nodeIds n = n.id :: (n.children.map nodeIds).flatten := by
  obtain ⟨i, it, cnt, cs⟩ := n
  rw [nodeIds]
  rw [List.attach_map_val cs nodeIds]

theorem condPaths_def (item : ℕ) (n : FPNode) (acc : List ℕ) :
    condPaths item n acc =
      (n.children.map (fun c =>
        (if c.item = item then [(acc, c.count)] else []) ++
          condPaths item c (acc ++ [c.item]))).flatten := by
  obtain ⟨i, it, cnt, cs⟩ := n
  rw [condPaths]
  rw [List.attach_map_val cs (fun c =>
    (if c.item = item then [(acc, c.count)] else []) ++
      condPaths item c (acc ++ [c.item]))]

theorem NodeRep_iff (n : FPNode) (db : List (List ℕ × ℕ)) :
    NodeRep n db ↔
      ((n.children.map (·.item)).Nodup ∧
      (∀ tc ∈ db, ∀ h : ℕ, ∀ t : List ℕ, tc.1 = h :: t →
        h ∈ n.children.map (·.item)) ∧
      (∀ c ∈ n.children, ∃ tc ∈ db, ∃ t : List ℕ, tc.1 = c.item :: t) ∧
      (∀ c ∈ n.children, c.count = headCount db c.item) ∧
      (∀ c ∈ n.children, NodeRep c (headDb db c.item))) := by
  obtain ⟨i, it, cnt, cs⟩ := n
  rw [NodeRep]
  simp only [List.mem_attach, true_implies, Subtype.forall]

theorem DistinctChildren_iff (n : FPNode) :
    DistinctChildren n ↔
      ((n.children.map (·.item)).Nodup ∧
        ∀ c ∈ n.children, DistinctChildren c) := by
  obtain ⟨i, it, cnt, cs⟩ := n
  rw [DistinctChildren]
  constructor
  · rintro ⟨h1, h2⟩
    exact ⟨h1, fun c hc => h2 ⟨c, hc⟩ (List.mem_attach _ _)⟩
  · rintro ⟨h1, h2⟩
    exact ⟨h1, fun c _ => h2 c.1 c.2⟩

/-! ### C3: missing support-table entries during rule construction -/

/-- C3 (amended): rule.rs `Rule::make` does reject a candidate rule
whenever any needed support-table entry (the union, the antecedent or the
consequent) is absent, returning no rule and never aborting; the direct
table indexing in generate_rules.rs `stats`, however, panics in that
situation (see the counterexample theorem). -/
theorem rule_make_missing_entry_rejects (antecedent consequent : List ℕ)
    (sup : List ℕ → Option ℚ) (minConfidence minLift : ℚ)
    (h : sup (union antecedent consequent) = none ∨
      sup antecedent = none ∨ sup consequent = none) :
    Rule.make antecedent consequent sup minConfidence minLift = none := by
  unfold Rule.make
  split
  · rfl
  · cases hac : sup (union antecedent consequent) with
    | none => rfl
    | some acSup =>
      cases ha : sup antecedent with
      | none => rfl
      | some aSup =>
        rcases h with h | h | h
        · rw [h] at hac; cases hac
        · rw [h] at ha; cases ha
        · simp only [h]
          split
          · rfl
          · rfl

/-- C3 witness: `Rule::make` at a concrete input with a missing
consequent entry. -/
theorem rule_make_missing_entry_rejects_witness :
    Rule.make [1] [2] (fun j => if j = [2] then none else some 1) 0 0 = none :=
  rule_make_missing_entry_rejects [1] [2]
    (fun j => if j = [2] then none else some 1) 0 0 (Or.inr (Or.inr (by rfl)))

/-- C3 counterexample: the production rule-generation path
(generate_rules.rs, which computes statistics by indexing the support
table directly) aborts rather than rejecting the candidate when the
antecedent `[2]` of the frequent itemset `[1, 2]` is absent from the
support table; `none` models the Rust panic. -/
theorem generate_rules_aborts_on_missing_entry :
    generateRules [ItemSet.mk [1, 2] 1] 1 0 none = none := by rfl

/-! ### Seed phase characterization (used by C6 and C1) -/

theorem seedPhase_eq (itemset : List ℕ) (support : ℚ)
    (sup : List ℕ → Option ℚ) (mc ml : ℚ) :
    ∀ rest : List ℕ,
      (∀ i ∈ rest,
        (stats support (itemset.filter (fun x => x ≠ i)) [i] sup).isSome = true) →
      seedPhase itemset support sup mc ml rest = some
        ((rest.filter (fun i => ¬ (seedConf itemset support sup i).1 < mc ∧
            ml ≤ (seedConf itemset support sup i).2)).map
          (fun i => ⟨itemset.filter (fun x => x ≠ i), [i],
            (seedConf itemset support sup i).1,
            (seedConf itemset support sup i).2, support⟩),
         (rest.filter (fun i => ¬ (seedConf itemset support sup i).1 < mc)).map
          (fun i => [i])) := by
  intro rest
  induction rest with
  | nil => intro _; rfl
  | cons i rest ih =>
    intro hdef
    have hi := hdef i (List.mem_cons_self i rest)
    obtain ⟨cl, hcl⟩ := Option.isSome_iff_exists.mp hi
    have hrest := ih (fun j hj => hdef j (List.mem_cons_of_mem i hj))
    have hsc : seedConf itemset support sup i = cl := by
      unfold seedConf; rw [hcl]; rfl
    unfold seedPhase
    simp only [splitOutItem, hcl, hrest]
    by_cases h1 : cl.1 < mc
    · simp only [List.filter_cons]
      rw [hsc]
      simp [h1]
    · by_cases h2 : ml ≤ cl.2
      · simp only [List.filter_cons]
        rw [hsc]
        simp only [h1, h2]
        simp [h1, h2]
        exact ⟨by rw [hsc], by rw [hsc]⟩
      · simp only [List.filter_cons]
        rw [hsc]
        simp only [h1, h2]
        simp [h1, h2]

/-! ### C6: retention of seed consequents -/

/-- C6: in the seed (single-item consequent) phase for an itemset, a
consequent whose rule passes the confidence test is retained as a
candidate for the next generation even when its lift is below the
threshold (only the emission of the rule itself is suppressed), while a
consequent failing the confidence test is not retained. -/
theorem seed_retention (itemset : List ℕ) (support : ℚ)
    (sup : List ℕ → Option ℚ) (mc ml : ℚ) (i : ℕ) (cf lf : ℚ)
    (hi : i ∈ itemset)
    (hall : ∀ j ∈ itemset,
      (stats support (itemset.filter (fun x => x ≠ j)) [j] sup).isSome = true)
    (hstats : stats support (itemset.filter (fun x => x ≠ i)) [i] sup =
      some (cf, lf)) :
    ∃ out cands,
      seedPhase itemset support sup mc ml itemset = some (out, cands) ∧
      (¬ cf < mc →
        ([i] ∈ cands ∧ (lf < ml → ∀ r ∈ out, r.consequent ≠ [i]))) ∧
      (cf < mc → [i] ∉ cands) := by
  have heq := seedPhase_eq itemset support sup mc ml itemset hall
  have hsc : seedConf itemset support sup i = (cf, lf) := by
    unfold seedConf; rw [hstats]; rfl
  refine ⟨_, _, heq, ?_, ?_⟩
  · intro hcf
    constructor
    · simp only [List.mem_map]
      refine ⟨i, ?_, rfl⟩
      simp only [List.mem_filter, decide_eq_true_eq]
      exact ⟨hi, by rw [hsc]; exact hcf⟩
    · intro hlift r hr hcons
      simp only [List.mem_map] at hr
      obtain ⟨j, hj, rfl⟩ := hr
      simp only [List.mem_filter, decide_eq_true_eq] at hj
      simp only [List.cons.injEq, and_true] at hcons
      rw [hcons] at hj
      rw [hsc] at hj
      exact absurd hj.2.2 (not_le.mpr hlift)
  · intro hcf hmem
    simp only [List.mem_map] at hmem
    obtain ⟨j, hj, hji⟩ := hmem
    simp only [List.mem_filter, decide_eq_true_eq] at hj
    simp only [List.cons.injEq, and_true] at hji
    rw [hji] at hj
    rw [hsc] at hj
    exact hj.2 hcf

/-- C6 witness: a concrete seed phase where the single-item consequent
`[1]` passes confidence. -/
theorem seed_retention_witness :
    ∃ out cands,
      seedPhase [1, 2] 1 (fun _ => some 1) 0 0 [1, 2] = some (out, cands) ∧
      (¬ (1 : ℚ) / 1 < 0 →
        ([1] ∈ cands ∧
          ((1 : ℚ) / (1 * 1) < 0 → ∀ r ∈ out, r.consequent ≠ [1]))) ∧
      ((1 : ℚ) / 1 < 0 → [1] ∉ cands) :=
  seed_retention [1, 2] 1 (fun _ => some 1) 0 0 1 (1 / 1) (1 / (1 * 1))
    (by decide) (by intro j _; rfl) (by rfl)

/-! ### C4: empty input lines -/

/-- C4: the transaction reader does not skip an empty line.  Splitting an
empty line on commas yields the single empty token, whose trimmed form
(the empty string) is given a fresh item id, so the reader yields the
one-item transaction `[1]` instead of yielding nothing; the skip branch
(`splits.len() > 0`) can never trigger because `split` always produces at
least one token.  This contradicts the specification, which twice states
that empty lines are skipped and which the dead skip branch was clearly
meant to implement. -/
theorem transaction_reader_empty_line_not_skipped :
    (readTransactions [[]] Itemizer.new).1 = [[1]] := by decide

/-! ### C9: Itemizer reordering -/

theorem ItemCounter.get_set_self (c : ItemCounter) (i v : ℕ) :
    (c.set i v).get i = v := by
  unfold ItemCounter.set ItemCounter.get
  split
  · rename_i hle
    rw [List.getD_eq_getElem?_getD, List.getElem?_set_self]
    · rfl
    · simp only [List.length_append, List.length_replicate]
      omega
  · rename_i hlt
    rw [List.getD_eq_getElem?_getD, List.getElem?_set_self]
    · rfl
    · omega

theorem ItemCounter.get_set_ne (c : ItemCounter) (i v j : ℕ) (h : i ≠ j) :
    (c.set i v).get j = c.get j := by
  unfold ItemCounter.set ItemCounter.get
  split
  · rename_i hle
    rw [List.getD_eq_getElem?_getD, List.getElem?_set_ne h,
      List.getElem?_append, List.getD_eq_getElem?_getD]
    split
    · rfl
    · rename_i hj
      rw [List.getElem?_replicate]
      have : ¬ j < c.counter.length := hj
      rw [List.getElem?_eq_none (by omega)]
      split
      · rfl
      · rfl
  · rw [List.getD_eq_getElem?_getD, List.getElem?_set_ne h,
      List.getD_eq_getElem?_getD]

theorem assocFind_cons_self (s : Str) (v : ℕ) (m : List (Str × ℕ)) :
    assocFind ((s, v) :: m) s = some v := by
  unfold assocFind
  rw [List.find?_cons_of_pos _ (by simp)]
  rfl

theorem assocFind_cons_ne (s : Str) (v : ℕ) (m : List (Str × ℕ)) (t : Str)
    (h : t ≠ s) : assocFind ((s, v) :: m) t = assocFind m t := by
  unfold assocFind
  rw [List.find?_cons_of_neg _ (by simpa using fun e => absurd e.symm h)]

theorem reorderLoop_spec (counter : ItemCounter) :
    ∀ (l : List (ℕ × Str)) (m : List (Str × ℕ)) (sc : ItemCounter),
      (l.map (·.2)).Nodup →
      (l.map (·.1)).Nodup →
      (∀ p ∈ l, (assocFind m p.2).isSome = true) →
      ∃ m2 sc2, reorderLoop counter l m sc = some (m2, sc2) ∧
        (∀ p ∈ l, ∀ oid, assocFind m p.2 = some oid →
          assocFind m2 p.2 = some (p.1 + 1) ∧
          sc2.get (p.1 + 1) = counter.get oid) ∧
        (∀ i, (∀ p ∈ l, p.1 + 1 ≠ i) → sc2.get i = sc.get i) ∧
        (∀ s : Str, (∀ p ∈ l, p.2 ≠ s) → assocFind m2 s = assocFind m s) := by
  intro l
  induction l with
  | nil =>
    intro m sc _ _ _
    exact ⟨m, sc, rfl, by simp, fun i _ => rfl, fun s _ => rfl⟩
  | cons hd rest ih =>
    intro m sc hns hni hfind
    obtain ⟨idx, s⟩ := hd
    obtain ⟨oid0, hoid0⟩ :=
      Option.isSome_iff_exists.mp (hfind (idx, s) (List.mem_cons_self _ _))
    simp only [List.map_cons, List.nodup_cons] at hns hni
    have hrest : ∀ p ∈ rest, (assocFind ((s, idx + 1) :: m) p.2).isSome = true := by
      intro p hp
      rw [assocFind_cons_ne _ _ _ _ (fun e =>
        hns.1 (by rw [← e]; exact List.mem_map_of_mem _ hp))]
      exact hfind p (List.mem_cons_of_mem _ hp)
    obtain ⟨m2, sc2, hloop, hmain, hframe, hmframe⟩ :=
      ih ((s, idx + 1) :: m) (sc.set (idx + 1) (counter.get oid0)) hns.2 hni.2 hrest
    refine ⟨m2, sc2, ?_, ?_, ?_, ?_⟩
    · unfold reorderLoop
      rw [hoid0]
      exact hloop
    · rintro p hp oid hoid
      rcases List.mem_cons.mp hp with rfl | hp
    -- head element
      · simp only at hoid
        rw [hoid0] at hoid
        injection hoid with hoid
        subst hoid
        constructor
        · rw [hmframe s (fun p hp e =>
            hns.1 (by rw [← e]; exact List.mem_map_of_mem _ hp)),
            assocFind_cons_self]
        · rw [hframe (idx + 1) (fun p hp e => hni.1 (by
            have hpi : p.1 = idx := by omega
            rw [← hpi]
            exact List.mem_map_of_mem _ hp)),
            ItemCounter.get_set_self]
      · have hne : p.2 ≠ s := fun e =>
          hns.1 (by rw [← e]; exact List.mem_map_of_mem _ hp)
        have := hmain p hp oid (by rw [assocFind_cons_ne _ _ _ _ hne]; exact hoid)
        exact this
    · intro i hni2
      rw [hframe i (fun p hp => hni2 p (List.mem_cons_of_mem _ hp)),
        ItemCounter.get_set_ne _ _ _ _ (hni2 (idx, s) (List.mem_cons_self _ _))]
    · intro t ht
      rw [hmframe t (fun p hp => ht p (List.mem_cons_of_mem _ hp)),
        assocFind_cons_ne _ _ _ _ (fun e =>
          ht (idx, s) (List.mem_cons_self _ _) e.symm)]

/-- C9: after `Itemizer::reorder_sorted` on an itemizer holding distinct
strings, numeric id order coincides with strict lexicographic string
order, and every string's count, read from the rewritten counter under
its new id, equals the count its old id had before the call. -/
theorem reorder_sorted_spec (it : Itemizer) (counter : ItemCounter)
    (hnodup : it.itemIdToStr.Nodup)
    (hmap : ∀ s ∈ it.itemIdToStr, (assocFind it.itemStrToId s).isSome = true) :
    ∃ it2 c2, it.reorderSorted counter = some (it2, c2) ∧
      it2.itemIdToStr.length = it.itemIdToStr.length ∧
      (∀ id1 id2 : ℕ, 1 ≤ id1 → id1 < id2 → id2 ≤ it2.itemIdToStr.length →
        it2.strOf id1 < it2.strOf id2) ∧
      (∀ s ∈ it.itemIdToStr, ∀ oldId,
        assocFind it.itemStrToId s = some oldId →
        ∃ newId, assocFind it2.itemStrToId s = some newId ∧
          it2.strOf newId = s ∧ c2.get newId = counter.get oldId) := by
  have hperm := List.perm_insertionSort (α := Str) (· ≤ ·) it.itemIdToStr
  have hsorted := List.sorted_insertionSort (α := Str) (· ≤ ·) it.itemIdToStr
  set ss := it.itemIdToStr.insertionSort (· ≤ ·) with hss
  have hsnodup : ss.Nodup := hperm.nodup_iff.mpr hnodup
  have hens : (ss.enum.map (·.2)).Nodup := by
    rw [List.enum_map_snd]; exact hsnodup
  have heni : (ss.enum.map (·.1)).Nodup := by
    rw [List.enum_map_fst]; exact List.nodup_range _
  have henf : ∀ p ∈ ss.enum, (assocFind it.itemStrToId p.2).isSome = true := by
    intro p hp
    refine hmap p.2 (hperm.mem_iff.mp ?_)
    have : p.2 ∈ ss.enum.map (·.2) := List.mem_map_of_mem _ hp
    rwa [List.enum_map_snd] at this
  obtain ⟨m2, sc2, hloop, hmain, _, _⟩ :=
    reorderLoop_spec counter ss.enum it.itemStrToId ItemCounter.new hens heni henf
  refine ⟨⟨it.nextItemId, m2, ss⟩, sc2, ?_, hperm.length_eq, ?_, ?_⟩
  · unfold Itemizer.reorderSorted
    rw [← hss, hloop]
  · intro id1 id2 h1 h12 h2
    unfold Itemizer.strOf
    dsimp only at h2 ⊢
    have hl1 : id1 - 1 < ss.length := by omega
    have hl2 : id2 - 1 < ss.length := by omega
    rw [List.getD_eq_getElem?_getD, List.getD_eq_getElem?_getD,
      List.getElem?_eq_getElem hl1, List.getElem?_eq_getElem hl2]
    simp only [Option.getD_some]
    have hle : ss[id1 - 1] ≤ ss[id2 - 1] := by
      have := hsorted.rel_get_of_lt
        (a := ⟨id1 - 1, hl1⟩) (b := ⟨id2 - 1, hl2⟩) (by simp; omega)
      simpa using this
    refine lt_of_le_of_ne hle (fun e => ?_)
    have := hsnodup.get_inj_iff (i := ⟨id1 - 1, hl1⟩) (j := ⟨id2 - 1, hl2⟩)
    simp only [List.get_eq_getElem] at this
    have := this.mp e
    simp only [Fin.mk.injEq] at this
    omega
  · intro s hs oldId holdId
    have hsS : s ∈ ss := hperm.mem_iff.mpr hs
    obtain ⟨n, hn, he⟩ := List.mem_iff_getElem.mp hsS
    have hn2 : n < ss.enum.length := by simpa using hn
    have hpe : (n, s) ∈ ss.enum := by
      have h3 := List.getElem_enum ss n hn2
      rw [he] at h3
      exact List.mem_iff_getElem.mpr ⟨n, hn2, h3⟩
    obtain ⟨hfound, hcount⟩ := hmain (n, s) hpe oldId holdId
    refine ⟨n + 1, hfound, ?_, hcount⟩
    unfold Itemizer.strOf
    dsimp only
    simp only [Nat.add_sub_cancel]
    rw [List.getD_eq_getElem?_getD, List.getElem?_eq_getElem hn,
      Option.getD_some, he]

/-- C9 witness: a two-string itemizer with counts 5 and 7. -/
theorem reorder_sorted_spec_witness :
    ∃ it2 c2,
      Itemizer.reorderSorted ⟨3, [(['b'], 1), (['a'], 2)], [['b'], ['a']]⟩
        ⟨[0, 5, 7]⟩ = some (it2, c2) ∧
      it2.itemIdToStr.length = 2 ∧
      (∀ id1 id2 : ℕ, 1 ≤ id1 → id1 < id2 → id2 ≤ it2.itemIdToStr.length →
        it2.strOf id1 < it2.strOf id2) ∧
      (∀ s ∈ [['b'], ['a']], ∀ oldId,
        assocFind [(['b'], 1), (['a'], 2)] s = some oldId →
        ∃ newId, assocFind it2.itemStrToId s = some newId ∧
          it2.strOf newId = s ∧ c2.get newId = ItemCounter.get ⟨[0, 5, 7]⟩ oldId) :=
  reorder_sorted_spec ⟨3, [(['b'], 1), (['a'], 2)], [['b'], ['a']]⟩ ⟨[0, 5, 7]⟩
    (by decide) (by decide)

/-! ### FP-tree insertion and the representation invariant -/

theorem findIdx?_spec {p : FPNode → Bool} :
    ∀ {cs : List FPNode} {idx : ℕ}, cs.findIdx? p = some idx →
      idx < cs.length ∧ p (cs.getD idx (FPNode.new 0 0)) = true := by
  intro cs
  induction cs with
  | nil => intro idx h; cases h
  | cons c cs ih =>
    intro idx h
    rw [List.findIdx?_cons] at h
    by_cases hp : p c
    · rw [if_pos hp] at h
      injection h with h
      subst h
      exact ⟨Nat.succ_pos _, hp⟩
    · rw [if_neg hp, List.findIdx?_succ] at h
      cases hj : cs.findIdx? p with
      | none => rw [hj] at h; cases h
      | some j =>
        rw [hj] at h
        injection h with h
        subst h
        obtain ⟨h1, h2⟩ := ih hj
        exact ⟨by simpa using h1, h2⟩

theorem FPNode.insert_item_id :
    ∀ (t : List ℕ) (n : FPNode) (c nid : ℕ),
      (FPNode.insert t n c nid).1.item = n.item ∧
      (FPNode.insert t n c nid).1.id = n.id ∧
      (FPNode.insert t n c nid).1.count = n.count := by
  intro t n c nid
  cases t with
  | nil => exact ⟨rfl, rfl, rfl⟩
  | cons i rest => exact ⟨rfl, rfl, rfl⟩

theorem headDb_append (db db2 : List (List ℕ × ℕ)) (x : ℕ) :
    headDb (db ++ db2) x = headDb db x ++ headDb db2 x := by
  unfold headDb
  exact List.filterMap_append _ _ _

theorem headCount_append (db db2 : List (List ℕ × ℕ)) (x : ℕ) :
    headCount (db ++ db2) x = headCount db x + headCount db2 x := by
  unfold headCount
  rw [headDb_append, List.map_append, List.sum_append]

theorem headDb_single_cons (t : List ℕ) (c : ℕ) (x : ℕ) :
    headDb [(x :: t, c)] x = [(t, c)] := by
  simp [headDb]

theorem headDb_single_cons_ne (t : List ℕ) (c : ℕ) (x h : ℕ) (hne : h ≠ x) :
    headDb [(h :: t, c)] x = [] := by
  simp [headDb, hne]

theorem headDb_single_nil (c : ℕ) (x : ℕ) : headDb [([], c)] x = [] := by
  simp [headDb]

/-- An empty transaction changes nothing a node representation observes. -/
theorem nodeRep_append_nil (c : ℕ) :
    ∀ n db, NodeRep n db → NodeRep n (db ++ [([], c)]) := by
  intro n
  induction n using FPNode.indOn with
  | _ i it cnt cs ih =>
    intro db h
    rw [NodeRep_iff] at h ⊢
    obtain ⟨h1, h2, h3, h4, h5⟩ := h
    refine ⟨h1, ?_, ?_, ?_, ?_⟩
    · intro tc htc hh tt he
      rcases List.mem_append.mp htc with htc | htc
      · exact h2 tc htc hh tt he
      · simp only [List.mem_singleton] at htc
        rw [htc] at he
        cases he
    · intro ch hch
      obtain ⟨tc, htc, tt, he⟩ := h3 ch hch
      exact ⟨tc, List.mem_append_left _ htc, tt, he⟩
    · intro ch hch
      rw [headCount_append]
      have : headCount [(([] : List ℕ), c)] ch.item = 0 := by
        unfold headCount
        rw [headDb_single_nil]
        rfl
      rw [this, Nat.add_zero]
      exact h4 ch hch
    · intro ch hch
      rw [headDb_append, headDb_single_nil, List.append_nil]
      exact h5 ch hch

/-- A node representing a multiset with no transaction through `x` has an
empty head sub-multiset for `x`. -/
theorem headDb_eq_nil (db : List (List ℕ × ℕ)) (x : ℕ)
    (h : ∀ tc ∈ db, ∀ t : List ℕ, tc.1 ≠ x :: t) : headDb db x = [] := by
  induction db with
  | nil => rfl
  | cons tc db ih =>
    obtain ⟨ts, cc⟩ := tc
    have htail : headDb db x = [] :=
      ih (fun tc2 h2 => h tc2 (List.mem_cons_of_mem _ h2))
    unfold headDb at htail ⊢
    rw [List.filterMap_cons]
    cases ts with
    | nil =>
      dsimp only
      exact htail
    | cons hh tt =>
      have hne : hh ≠ x := fun e =>
        h (hh :: tt, cc) (List.mem_cons_self _ _) tt (by rw [e])
      dsimp only
      rw [if_neg hne]
      exact htail

theorem headDb_append_cons_self (db : List (List ℕ × ℕ)) (x : ℕ)
    (t : List ℕ) (c : ℕ) :
    headDb (db ++ [(x :: t, c)]) x = headDb db x ++ [(t, c)] := by
  rw [headDb_append, headDb_single_cons]

theorem headDb_append_cons_ne (db : List (List ℕ × ℕ)) (x h : ℕ)
    (t : List ℕ) (c : ℕ) (hne : h ≠ x) :
    headDb (db ++ [(h :: t, c)]) x = headDb db x := by
  rw [headDb_append, headDb_single_cons_ne _ _ _ _ hne, List.append_nil]

theorem headCount_append_cons_self (db : List (List ℕ × ℕ)) (x : ℕ)
    (t : List ℕ) (c : ℕ) :
    headCount (db ++ [(x :: t, c)]) x = headCount db x + c := by
  unfold headCount
  rw [headDb_append_cons_self]
  simp

theorem headCount_append_cons_ne (db : List (List ℕ × ℕ)) (x h : ℕ)
    (t : List ℕ) (c : ℕ) (hne : h ≠ x) :
    headCount (db ++ [(h :: t, c)]) x = headCount db x := by
  unfold headCount
  rw [headDb_append_cons_ne _ _ _ _ _ hne]

theorem nodeRep_nil_children (i it cnt : ℕ) :
    NodeRep ⟨i, it, cnt, []⟩ [] := by
  rw [NodeRep_iff]
  refine ⟨List.nodup_nil, ?_, ?_, ?_, ?_⟩ <;> simp

theorem nodeRep_count_congr {i it cnt cnt2 : ℕ} {cs : List FPNode}
    {db : List (List ℕ × ℕ)} (h : NodeRep ⟨i, it, cnt, cs⟩ db) :
    NodeRep ⟨i, it, cnt2, cs⟩ db := by
  rw [NodeRep_iff] at h ⊢
  exact h

theorem set_append_length {α : Type} (cs : List α) (a b : α) :
    (cs ++ [a]).set cs.length b = cs ++ [b] := by
  induction cs with
  | nil => rfl
  | cons c cs ih => simpa using ih

theorem getD_append_length {α : Type} (cs : List α) (a d : α) :
    (cs ++ [a]).getD cs.length d = a := by
  induction cs with
  | nil => rfl
  | cons c cs ih => simpa using ih

/-- Unfolding of `FPNode.insert` when a child carrying the item exists. -/
theorem insert_cons_found {n : FPNode} {item : ℕ} {idx : ℕ}
    (rest : List ℕ) (count nid : ℕ)
    (hf : n.children.findIdx? (fun c => c.item = item) = some idx) :
    FPNode.insert (item :: rest) n count nid =
      ({ n with children := (n.children.set idx
          (FPNode.insert rest
            ⟨(n.children.getD idx (FPNode.new 0 0)).id,
             (n.children.getD idx (FPNode.new 0 0)).item,
             (n.children.getD idx (FPNode.new 0 0)).count + count,
             (n.children.getD idx (FPNode.new 0 0)).children⟩
            count nid).1) },
        (FPNode.insert rest
          ⟨(n.children.getD idx (FPNode.new 0 0)).id,
           (n.children.getD idx (FPNode.new 0 0)).item,
           (n.children.getD idx (FPNode.new 0 0)).count + count,
           (n.children.getD idx (FPNode.new 0 0)).children⟩
          count nid).2) := by
  conv_lhs => rw [FPNode.insert]
  simp only [hf, Nat.add_zero, Nat.zero_add]

/-- Unfolding of `FPNode.insert` when no child carries the item: a fresh
node with id `nid` is appended. -/
theorem insert_cons_new {n : FPNode} {item : ℕ}
    (rest : List ℕ) (count nid : ℕ)
    (hf : n.children.findIdx? (fun c => c.item = item) = none) :
    FPNode.insert (item :: rest) n count nid =
      ({ n with children := (n.children ++
          [(FPNode.insert rest ⟨nid, item, count, []⟩ count (nid + 1)).1]) },
        1 + (FPNode.insert rest ⟨nid, item, count, []⟩ count (nid + 1)).2) := by
  conv_lhs => rw [FPNode.insert]
  simp only [hf]
  rw [getD_append_length, set_append_length]
  simp only [FPNode.new, Nat.zero_add]

theorem set_getElem_own {α : Type} (l : List α) (i : ℕ) (v : α)
    (hi : i < l.length) (hv : v = l[i]) : l.set i v = l := by
  apply List.ext_getElem (by rw [List.length_set])
  intro j h1 h2
  by_cases hij : i = j
  · subst hij
    rw [List.getElem_set_self, hv]
  · rw [List.getElem_set_ne hij]

/-- Replacing the count of a node does not disturb representation. -/
theorem nodeRep_replace_count (c : FPNode) (db : List (List ℕ × ℕ))
    (h : NodeRep c db) (cnt2 : ℕ) :
    NodeRep ⟨c.id, c.item, cnt2, c.children⟩ db := by
  rw [NodeRep_iff] at h ⊢
  exact h

/-- Inserting a transaction preserves the representation invariant,
extending the represented multiset by that transaction. -/
theorem nodeRep_insert :
    ∀ (t : List ℕ) (n : FPNode) (count nid : ℕ) (db : List (List ℕ × ℕ)),
      NodeRep n db → NodeRep (FPNode.insert t n count nid).1 (db ++ [(t, count)]) := by
  intro t
  induction t with
  | nil => intro n count nid db h; exact nodeRep_append_nil count n db h
  | cons item rest ih =>
    intro n count nid db h
    obtain ⟨i0, it0, cnt0, cs⟩ := n
    rw [NodeRep_iff] at h
    obtain ⟨h1, h2, h3, h4, h5⟩ := h
    simp only at h1 h2 h3 h4 h5
    cases hf : (FPNode.mk i0 it0 cnt0 cs).children.findIdx?
        (fun c => c.item = item) with
    | some idx =>
      obtain ⟨hlt, hp⟩ := findIdx?_spec hf
      simp only at hlt hp
      have hgetD : cs.getD idx (FPNode.new 0 0) = cs[idx] :=
        List.getD_eq_getElem cs _ hlt
      have hitem : cs[idx].item = item := by
        rw [hgetD] at hp
        exact of_decide_eq_true hp
      rw [insert_cons_found rest count nid hf]
      rw [NodeRep_iff]
      simp only [hgetD]
      set child2 := (FPNode.insert rest
        ⟨cs[idx].id, cs[idx].item, cs[idx].count + count, cs[idx].children⟩
        count nid).1 with hc2
      have hc2props := FPNode.insert_item_id rest
        ⟨cs[idx].id, cs[idx].item, cs[idx].count + count, cs[idx].children⟩
        count nid
      have hc2item : child2.item = item := by
        rw [← hc2] at hc2props
        rw [hc2props.1, hitem]
      have hc2count : child2.count = cs[idx].count + count := by
        rw [← hc2] at hc2props
        exact hc2props.2.2
      have hmapitem : (cs.set idx child2).map (·.item) = cs.map (·.item) := by
        rw [List.map_set]
        refine set_getElem_own _ _ _ (by simpa using hlt) ?_
        rw [List.getElem_map, hc2item, hitem]
      have hother : ∀ j, (hj : j < cs.length) → j ≠ idx → cs[j].item ≠ item := by
        intro j hj hne e
        have hmlen : idx < (cs.map (·.item)).length := by simpa using hlt
        have hmlen2 : j < (cs.map (·.item)).length := by simpa using hj
        have : (cs.map (·.item))[j] = (cs.map (·.item))[idx] := by
          rw [List.getElem_map, List.getElem_map, e, hitem]
        exact hne (h1.getElem_inj_iff.mp this)
      have hsetlen : (cs.set idx child2).length = cs.length := List.length_set _ _ _
      refine ⟨?_, ?_, ?_, ?_, ?_⟩
      · rw [hmapitem]; exact h1
      · intro tc htc hh tt he
        rw [hmapitem]
        rcases List.mem_append.mp htc with htc | htc
        · exact h2 tc htc hh tt he
        · simp only [List.mem_singleton] at htc
          rw [htc] at he
          injection he with he1 he2
          rw [← he1, ← hitem]
          exact List.mem_map_of_mem _ (List.getElem_mem hlt)
      · intro c hc
        rcases List.mem_or_eq_of_mem_set hc with hc | rfl
        · obtain ⟨tc, htc, tt, he⟩ := h3 c hc
          exact ⟨tc, List.mem_append_left _ htc, tt, he⟩
        · exact ⟨(item :: rest, count), List.mem_append_right _ (by simp),
            rest, by rw [hc2item]⟩
      · intro c hc
        obtain ⟨j, hj, he⟩ := List.mem_iff_getElem.mp hc
        by_cases hji : j = idx
        · subst hji
          rw [List.getElem_set_self] at he
          subst he
          rw [hc2item, headCount_append_cons_self, hc2count]
          congr 1
          rw [← hitem]
          exact h4 cs[j] (List.getElem_mem hlt)
        · rw [List.getElem_set_ne (fun e => hji e.symm) hj] at he
          subst he
          have hj2 : j < cs.length := by
            rw [← hsetlen]; exact hj
          rw [headCount_append_cons_ne _ _ _ _ _
            (fun e => (hother j hj2 hji e.symm).elim)]
          exact h4 cs[j] (List.getElem_mem hj2)
      · intro c hc
        obtain ⟨j, hj, he⟩ := List.mem_iff_getElem.mp hc
        by_cases hji : j = idx
        · subst hji
          rw [List.getElem_set_self] at he
          subst he
          rw [hc2item, headDb_append_cons_self]
          refine ih _ count nid (headDb db item) ?_
          have := h5 cs[j] (List.getElem_mem hlt)
          rw [hitem] at this
          exact nodeRep_replace_count cs[j] (headDb db item) this _
        · rw [List.getElem_set_ne (fun e => hji e.symm) hj] at he
          subst he
          have hj2 : j < cs.length := by
            rw [← hsetlen]; exact hj
          rw [headDb_append_cons_ne _ _ _ _ _
            (fun e => (hother j hj2 hji e.symm).elim)]
          exact h5 cs[j] (List.getElem_mem hj2)
    | none =>
      have hnone : ∀ c ∈ cs, c.item ≠ item := by
        intro c hc e
        have := List.findIdx?_eq_none_iff.mp hf c hc
        simp only [decide_eq_false_iff_not] at this
        exact this e
      rw [insert_cons_new rest count nid hf]
      rw [NodeRep_iff]
      simp only
      set child2 := (FPNode.insert rest ⟨nid, item, count, []⟩ count
        (nid + 1)).1 with hc2
      have hc2props := FPNode.insert_item_id rest ⟨nid, item, count, []⟩
        count (nid + 1)
      have hc2item : child2.item = item := by rw [← hc2] at hc2props; exact hc2props.1
      have hc2count : child2.count = count := by rw [← hc2] at hc2props; exact hc2props.2.2
      have hhd : headDb db item = [] := by
        apply headDb_eq_nil
        intro tc htc tt he
        have := h2 tc htc item tt he
        obtain ⟨c, hc, he2⟩ := List.mem_map.mp this
        exact hnone c hc he2
      have hhc : headCount db item = 0 := by
        unfold headCount
        rw [hhd]
        rfl
      have hrep2 : NodeRep child2 (headDb (db ++ [(item :: rest, count)]) item) := by
        rw [headDb_append_cons_self, hhd, List.nil_append]
        have := ih ⟨nid, item, count, []⟩ count (nid + 1) []
          (nodeRep_nil_children nid item count)
        simpa using this
      refine ⟨?_, ?_, ?_, ?_, ?_⟩
      · rw [List.map_append]
        rw [List.nodup_append]
        refine ⟨h1, by simp, ?_⟩
        intro x hx
        simp only [List.map_cons, List.map_nil, List.mem_singleton, hc2item]
        obtain ⟨c, hc, he⟩ := List.mem_map.mp hx
        intro e
        rw [e] at he
        exact hnone c hc he
      · intro tc htc hh tt he
        rw [List.map_append]
        rcases List.mem_append.mp htc with htc | htc
        · exact List.mem_append_left _ (h2 tc htc hh tt he)
        · simp only [List.mem_singleton] at htc
          rw [htc] at he
          injection he with he1 he2
          apply List.mem_append_right
          simp [hc2item, he1]
      · intro c hc
        rcases List.mem_append.mp hc with hc | hc
        · obtain ⟨tc, htc, tt, he⟩ := h3 c hc
          exact ⟨tc, List.mem_append_left _ htc, tt, he⟩
        · simp only [List.mem_singleton] at hc
          subst hc
          exact ⟨(item :: rest, count), List.mem_append_right _ (by simp),
            rest, by rw [hc2item]⟩
      · intro c hc
        rcases List.mem_append.mp hc with hc | hc
        · rw [headCount_append_cons_ne _ _ _ _ _
            (fun e => (hnone c hc e.symm).elim)]
          exact h4 c hc
        · simp only [List.mem_singleton] at hc
          subst hc
          rw [hc2item, headCount_append_cons_self, hhc, Nat.zero_add, hc2count]
      · intro c hc
        rcases List.mem_append.mp hc with hc | hc
        · rw [headDb_append_cons_ne _ _ _ _ _
            (fun e => (hnone c hc e.symm).elim)]
          exact h5 c hc
        · simp only [List.mem_singleton] at hc
          subst hc
          rw [hc2item]
          exact hrep2

/-! ### From single inserts to built trees -/

theorem nodeRep_foldl :
    ∀ (db : List (List ℕ × ℕ)) (t : FPTree) (acc : List (List ℕ × ℕ)),
      NodeRep t.root acc →
      NodeRep ((db.foldl (fun t tc => t.insert tc.1 tc.2) t).root) (acc ++ db) := by
  intro db
  induction db with
  | nil => intro t acc h; simpa using h
  | cons tc db ih =>
    intro t acc h
    rw [List.foldl_cons]
    have h2 : NodeRep ((t.insert tc.1 tc.2).root) (acc ++ [tc]) := by
      unfold FPTree.insert
      exact nodeRep_insert tc.1 t.root tc.2 t.nodeCount acc h
    have := ih (t.insert tc.1 tc.2) (acc ++ [tc]) h2
    rwa [List.append_assoc, List.singleton_append] at this

theorem nodeRep_buildTree (db : List (List ℕ × ℕ)) :
    NodeRep (buildTree db).root db := by
  have := nodeRep_foldl db FPTree.new [] (nodeRep_nil_children 0 0 0)
  simpa [buildTree] using this

theorem buildTree_itemCount (db : List (List ℕ × ℕ)) (i : ℕ) :
    (buildTree db).itemCount i =
      (db.map (fun tc => tc.2 * tc.1.count i)).sum := by
  suffices h : ∀ (db : List (List ℕ × ℕ)) (t : FPTree),
      ((db.foldl (fun t tc => t.insert tc.1 tc.2) t).itemCount) i =
        t.itemCount i + (db.map (fun tc => tc.2 * tc.1.count i)).sum by
    have := h db FPTree.new
    simpa [buildTree, FPTree.new] using this
  intro db
  induction db with
  | nil => intro t; simp
  | cons tc db ih =>
    intro t
    rw [List.foldl_cons]
    rw [ih (t.insert tc.1 tc.2)]
    unfold FPTree.insert
    simp only [List.map_cons, List.sum_cons]
    ring

/-! ### C8: tree-shape invariants of insert -/

theorem nodeRep_distinct :
    ∀ (n : FPNode) (db : List (List ℕ × ℕ)), NodeRep n db →
      DistinctChildren n := by
  intro n
  induction n using FPNode.indOn with
  | _ i it cnt cs ihc =>
    intro db h
    rw [NodeRep_iff] at h
    rw [DistinctChildren_iff]
    exact ⟨h.1, fun c hc => ihc c hc _ (h.2.2.2.2 c hc)⟩

theorem headCount_eq_dbPrefCount (db : List (List ℕ × ℕ)) (i : ℕ) :
    headCount db i = dbPrefCount db [i] := by
  induction db with
  | nil => rfl
  | cons tc db ih =>
    obtain ⟨ts, c⟩ := tc
    unfold headCount headDb dbPrefCount at ih ⊢
    rw [List.filterMap_cons, List.map_cons, List.sum_cons]
    cases ts with
    | nil =>
      dsimp only
      rw [ih]
      simp
    | cons h t =>
      dsimp only
      by_cases he : h = i
      · subst he
        rw [if_pos rfl]
        simp only [List.map_cons, List.sum_cons]
        rw [if_pos (by simp)]
        rw [ih]
      · rw [if_neg he, if_neg (by simp [he])]
        rw [ih]
        simp

theorem dbPrefCount_headDb (db : List (List ℕ × ℕ)) (j : ℕ) (q : List ℕ) :
    dbPrefCount (headDb db j) q = dbPrefCount db (j :: q) := by
  induction db with
  | nil => rfl
  | cons tc db ih =>
    obtain ⟨ts, c⟩ := tc
    unfold headDb dbPrefCount at ih ⊢
    rw [List.filterMap_cons, List.map_cons, List.sum_cons]
    cases ts with
    | nil =>
      dsimp only
      rw [ih]
      simp
    | cons h t =>
      dsimp only
      by_cases he : h = j
      · subst he
        rw [if_pos rfl]
        simp only [List.map_cons, List.sum_cons, List.length_cons,
          List.take_succ_cons, List.cons.injEq, true_and]
        rw [ih]
        simp only [List.length_cons]
      · rw [if_neg he]
        rw [ih]
        simp only [List.length_cons, List.take_succ_cons]
        rw [if_neg (by simp [he])]
        simp

theorem nodeRep_count_at_path :
    ∀ (p : List ℕ) (i : ℕ) (n : FPNode) (db : List (List ℕ × ℕ)) (m : FPNode),
      NodeRep n db → nodeAtPath (p ++ [i]) n = some m →
      m.count = dbPrefCount db (p ++ [i]) := by
  intro p
  induction p with
  | nil =>
    intro i n db m h hpath
    rw [NodeRep_iff] at h
    rw [List.nil_append] at hpath ⊢
    unfold nodeAtPath at hpath
    cases hfind : n.children.find? (fun c => c.item = i) with
    | none => rw [hfind] at hpath; cases hpath
    | some c =>
      rw [hfind] at hpath
      unfold nodeAtPath at hpath
      injection hpath with hpath
      subst hpath
      have hmem := List.mem_of_find?_eq_some hfind
      have hitem := List.find?_some hfind
      simp only [decide_eq_true_eq] at hitem
      rw [h.2.2.2.1 _ hmem, hitem, headCount_eq_dbPrefCount]
  | cons j p ih =>
    intro i n db m h hpath
    rw [NodeRep_iff] at h
    rw [List.cons_append] at hpath
    unfold nodeAtPath at hpath
    cases hfind : n.children.find? (fun c => c.item = j) with
    | none => rw [hfind] at hpath; cases hpath
    | some c =>
      rw [hfind] at hpath
      have hmem := List.mem_of_find?_eq_some hfind
      have hitem := List.find?_some hfind
      simp only [decide_eq_true_eq] at hitem
      have := ih i c (headDb db c.item) m (h.2.2.2.2 c hmem) hpath
      rw [this, hitem, dbPrefCount_headDb, List.cons_append]

/-- C8: every FP-tree reachable from `FPTree::new` by a finite sequence of
`insert(transaction, count)` calls satisfies the structural invariant: no
node has two children carrying the same item, and the count of every
non-root node (the node reached from the root along a non-empty item
path) equals the total of the `count` arguments of exactly those insert
calls whose transaction starts with that item path, i.e. whose descent
passes through the node. -/
theorem fp_tree_insert_invariants (db : List (List ℕ × ℕ)) :
    DistinctChildren (buildTree db).root ∧
    ∀ (p : List ℕ) (i : ℕ) (m : FPNode),
      nodeAtPath (p ++ [i]) (buildTree db).root = some m →
      m.count = dbPrefCount db (p ++ [i]) := by
  refine ⟨nodeRep_distinct _ db (nodeRep_buildTree db), ?_⟩
  intro p i m hpath
  exact nodeRep_count_at_path p i _ db m (nodeRep_buildTree db) hpath

/-- C8 witness: the tree built from two inserts sharing the path `[1]`. -/
theorem fp_tree_insert_invariants_witness :
    DistinctChildren (buildTree [([1, 2], 2), ([1], 3)]).root ∧
    ∀ m : FPNode,
      nodeAtPath ([] ++ [1]) (buildTree [([1, 2], 2), ([1], 3)]).root = some m →
      m.count = dbPrefCount [([1, 2], 2), ([1], 3)] ([] ++ [1]) :=
  ⟨(fp_tree_insert_invariants [([1, 2], 2), ([1], 3)]).1,
    fun m h => (fp_tree_insert_invariants [([1, 2], 2), ([1], 3)]).2 [] 1 m h⟩

/-! ### C10: node ids are pairwise distinct -/

theorem nodeIds_count_irrel (i it c1 c2 : ℕ) (cs : List FPNode) :
    nodeIds ⟨i, it, c1, cs⟩ = nodeIds ⟨i, it, c2, cs⟩ := by
  rw [nodeIds_def, nodeIds_def]

theorem nodeIds_replace_count (c : FPNode) (cnt2 : ℕ) :
    nodeIds ⟨c.id, c.item, cnt2, c.children⟩ = nodeIds c := by
  obtain ⟨a, b, d, cs⟩ := c
  exact nodeIds_count_irrel _ _ _ _ _

/-- Inserting a transaction adds exactly the freshly created node ids
`nid, nid+1, ...` to the id multiset of a node. -/
theorem insert_ids_perm :
    ∀ (t : List ℕ) (n : FPNode) (count nid : ℕ),
      (nodeIds (FPNode.insert t n count nid).1).Perm
        (nodeIds n ++ List.range' nid (FPNode.insert t n count nid).2) := by
  intro t
  induction t with
  | nil => intro n count nid; simp [FPNode.insert]
  | cons item rest ih =>
    intro n count nid
    obtain ⟨i0, it0, cnt0, cs⟩ := n
    cases hf : (FPNode.mk i0 it0 cnt0 cs).children.findIdx?
        (fun c => c.item = item) with
    | some idx =>
      obtain ⟨hlt, _⟩ := findIdx?_spec hf
      simp only at hlt
      rw [insert_cons_found rest count nid hf]
      simp only
      have hgetD : cs.getD idx (FPNode.new 0 0) = cs[idx] :=
        List.getD_eq_getElem cs _ hlt
      rw [hgetD]
      set bumped : FPNode :=
        ⟨cs[idx].id, cs[idx].item, cs[idx].count + count, cs[idx].children⟩
        with hbumped
      set child2 := (FPNode.insert rest bumped count nid).1 with hc2
      set k := (FPNode.insert rest bumped count nid).2 with hk
      have hperm2 : (nodeIds child2).Perm (nodeIds cs[idx] ++ List.range' nid k) := by
        have := ih bumped count nid
        rw [← hc2, ← hk] at this
        rw [hbumped] at this
        rw [nodeIds_replace_count cs[idx] (cs[idx].count + count)] at this
        exact this
      have hdecomp : cs = cs.take idx ++ cs[idx] :: cs.drop (idx + 1) := by
        conv_lhs => rw [← List.take_append_drop idx cs]
        rw [List.drop_eq_getElem_cons hlt]
      have hsetd : cs.set idx child2 =
          cs.take idx ++ child2 :: cs.drop (idx + 1) := by
        rw [List.set_eq_take_append_cons_drop, if_pos hlt]
      rw [nodeIds_def, nodeIds_def]
      simp only
      rw [hsetd]
      conv_rhs => rw [hdecomp]
      rw [List.perm_iff_count]
      intro x
      have hc2count := hperm2.count_eq x
      simp only [List.map_append, List.map_cons, List.flatten_append,
        List.flatten_cons, List.count_append, List.count_cons] at hc2count ⊢
      omega
    | none =>
      rw [insert_cons_new rest count nid hf]
      simp only
      set child2 := (FPNode.insert rest ⟨nid, item, count, []⟩ count (nid + 1)).1
        with hc2
      set k := (FPNode.insert rest ⟨nid, item, count, []⟩ count (nid + 1)).2
        with hk
      have hperm2 : (nodeIds child2).Perm (nid :: List.range' (nid + 1) k) := by
        have := ih ⟨nid, item, count, []⟩ count (nid + 1)
        rw [← hc2, ← hk] at this
        have hnew : nodeIds ⟨nid, item, count, ([] : List FPNode)⟩ = [nid] := by
          rw [nodeIds_def]
          simp
        rw [hnew] at this
        exact this
      rw [nodeIds_def, nodeIds_def]
      simp only
      have hrange : List.range' nid (1 + k) = nid :: List.range' (nid + 1) k := by
        rw [Nat.add_comm 1 k]
        exact List.range'_succ nid k 1
      rw [hrange, List.perm_iff_count]
      intro x
      have hc2count := hperm2.count_eq x
      simp only [List.map_append, List.map_cons, List.map_nil,
        List.flatten_append, List.flatten_cons, List.flatten_nil,
        List.count_append, List.count_cons, List.count_nil] at hc2count ⊢
      omega

/-- All ids of a built tree are pairwise distinct and below the tree's
node counter. -/
theorem buildTree_ids (db : List (List ℕ × ℕ)) :
    (nodeIds (buildTree db).root).Nodup ∧
    ∀ i ∈ nodeIds (buildTree db).root, i < (buildTree db).nodeCount := by
  suffices h : ∀ (db : List (List ℕ × ℕ)) (t : FPTree),
      (nodeIds t.root).Nodup →
      (∀ i ∈ nodeIds t.root, i < t.nodeCount) →
      (nodeIds ((db.foldl (fun t tc => t.insert tc.1 tc.2) t).root)).Nodup ∧
      ∀ i ∈ nodeIds ((db.foldl (fun t tc => t.insert tc.1 tc.2) t).root),
        i < (db.foldl (fun t tc => t.insert tc.1 tc.2) t).nodeCount by
    refine h db FPTree.new ?_ ?_
    · rw [show nodeIds FPTree.new.root = [0] by rw [nodeIds_def]; simp [FPTree.new, FPNode.new]]
      simp
    · rw [show nodeIds FPTree.new.root = [0] by rw [nodeIds_def]; simp [FPTree.new, FPNode.new]]
      intro i hi
      simp only [List.mem_singleton] at hi
      subst hi
      exact Nat.one_pos
  intro db
  induction db with
  | nil => intro t h1 h2; exact ⟨h1, h2⟩
  | cons tc db ih =>
    intro t h1 h2
    rw [List.foldl_cons]
    have hperm := insert_ids_perm tc.1 t.root tc.2 t.nodeCount
    have hroot : (t.insert tc.1 tc.2).root =
      (FPNode.insert tc.1 t.root tc.2 t.nodeCount).1 := rfl
    have hnc : (t.insert tc.1 tc.2).nodeCount =
      t.nodeCount + (FPNode.insert tc.1 t.root tc.2 t.nodeCount).2 := rfl
    refine ih (t.insert tc.1 tc.2) ?_ ?_
    · rw [hroot, hperm.nodup_iff, List.nodup_append]
      refine ⟨h1, List.nodup_range' _ _, ?_⟩
      intro x hx hx2
      rw [List.mem_range'_1] at hx2
      exact absurd (h2 x hx) (by omega)
    · intro i hi
      rw [hroot] at hi
      rw [hnc]
      rcases List.mem_append.mp (hperm.mem_iff.mp hi) with h | h
      · have := h2 i h
        omega
      · rw [List.mem_range'_1] at h
        omega

theorem addParentsList_nil (nid : ℕ) (table : List (ℕ × ℕ)) :
    addParentsList [] nid table = some table := by
  rw [addParentsList]

theorem addParentsList_cons (c : FPNode) (rest : List FPNode) (nid : ℕ)
    (table : List (ℕ × ℕ)) :
    addParentsList (c :: rest) nid table =
      if c.id ∈ table.map (·.1) then none
      else
        match addParentsList c.children c.id ((c.id, nid) :: table) with
        | none => none
        | some t2 => addParentsList rest nid t2 := by
  rw [addParentsList]

/-- The depth-first parent-table construction succeeds (its assertion
holds at every visited child) whenever the forest's node ids are
pairwise distinct and disjoint from the keys already in the table. -/
theorem addParents_total :
    ∀ (cs : List FPNode) (nid : ℕ) (table : List (ℕ × ℕ)),
      ((cs.map nodeIds).flatten).Nodup →
      (∀ i ∈ (cs.map nodeIds).flatten, i ∉ table.map (·.1)) →
      ∃ t2, addParentsList cs nid table = some t2 ∧
        ∀ i, i ∈ t2.map (·.1) ↔
          i ∈ (cs.map nodeIds).flatten ∨ i ∈ table.map (·.1)
  | [], nid, table => by
    intro _ _
    refine ⟨table, addParentsList_nil nid table, ?_⟩
    simp
  | c :: rest, nid, table => by
    intro hn hd
    obtain ⟨ci, cit, cc, ccs⟩ := c
    have hids : nodeIds ⟨ci, cit, cc, ccs⟩ = ci :: (ccs.map nodeIds).flatten := by
      rw [nodeIds_def]
    simp only [List.map_cons, List.flatten_cons] at hn hd
    rw [hids] at hn hd
    rw [List.cons_append, List.nodup_cons] at hn
    obtain ⟨hci, hn⟩ := hn
    obtain ⟨hccs, hrest, hdisj⟩ := List.nodup_append.mp hn
    have hcnotin : ci ∉ table.map (fun x => x.1) := hd ci (by simp)
    have hstep : ∀ i ∈ (ccs.map nodeIds).flatten,
        i ∉ ((ci, nid) :: table).map (fun x => x.1) := by
      intro i hi
      simp only [List.map_cons, List.mem_cons]
      rintro (he | he)
      · rw [he] at hi
        exact hci (List.mem_append_left _ hi)
      · exact hd i (List.mem_cons_of_mem _ (List.mem_append_left _ hi)) he
    obtain ⟨t2, ht2, hkeys2⟩ :=
      addParents_total ccs ci ((ci, nid) :: table) hccs hstep
    have hd3 : ∀ i ∈ (rest.map nodeIds).flatten, i ∉ t2.map (fun x => x.1) := by
      intro i hi hmem
      rcases (hkeys2 i).mp hmem with h | h
      · exact hdisj h hi
      · simp only [List.map_cons, List.mem_cons] at h
        rcases h with h | h
        · rw [h] at hi
          exact hci (List.mem_append_right _ hi)
        · exact hd i (List.mem_cons_of_mem _ (List.mem_append_right _ hi)) h
    obtain ⟨t3, ht3, hkeys3⟩ := addParents_total rest nid t2 hrest hd3
    refine ⟨t3, ?_, ?_⟩
    · rw [addParentsList_cons]
      simp only
      rw [if_neg (by simpa using hcnotin)]
      rw [ht2]
      exact ht3
    · intro i
      rw [hkeys3 i, hkeys2 i]
      simp only [List.map_cons, List.mem_cons, List.mem_append,
        List.flatten_cons]
      rw [hids]
      simp only [List.mem_cons, List.mem_append]
      tauto
termination_by cs _ _ => sizeOf cs
decreasing_by
  · simp only [FPNode.mk.sizeOf_spec, List.cons.sizeOf_spec]
    omega
  · simp only [List.cons.sizeOf_spec]
    omega

/-- C10: in every FP-tree reachable from `FPTree::new` by insert calls,
all nodes carry pairwise distinct ids, and consequently the assertion in
`add_parents_to_table` (no child is already a key of the parent table)
never fails: `make_parent_table` is total on every reachable tree. -/
theorem fp_tree_node_ids_distinct (db : List (List ℕ × ℕ)) :
    (nodeIds (buildTree db).root).Nodup ∧
    (makeParentTable (buildTree db)).isSome = true := by
  obtain ⟨hnodup, _⟩ := buildTree_ids db
  refine ⟨hnodup, ?_⟩
  rw [nodeIds_def, List.nodup_cons] at hnodup
  obtain ⟨t2, ht2, _⟩ := addParents_total (buildTree db).root.children
    (buildTree db).root.id [] hnodup.2 (by simp)
  unfold makeParentTable
  rw [ht2]
  rfl

/-! ### C5: the strict minimum-count threshold -/

theorem fpGrowthF_count_gt :
    ∀ (fuel : ℕ) (tree : FPTree) (minCount : ℕ) (path : List ℕ)
      (pathCount : ℕ), minCount < pathCount →
      ∀ S ∈ fpGrowthF fuel tree minCount path pathCount, minCount < S.count := by
  intro fuel
  induction fuel with
  | zero => intro tree mc path pc _ S hS; cases hS
  | succ fuel ih =>
    intro tree mc path pc hpc S hS
    unfold fpGrowthF at hS
    obtain ⟨l, hl, hSl⟩ := List.mem_flatten.mp hS
    obtain ⟨i, hi, rfl⟩ := List.mem_map.mp hl
    have himem : i ∈ (nodeItems tree.root).dedup.filter
        (fun j => mc < tree.itemCount j) := by
      unfold sortTransaction at hi
      exact (List.perm_insertionSort _ _).mem_iff.mp hi
    have hcount : mc < tree.itemCount i := by
      have := (List.mem_filter.mp himem).2
      exact of_decide_eq_true this
    rcases List.mem_append.mp hSl with h | h
    · exact ih _ mc _ _ (by omega) S h
    · simp only [List.mem_singleton] at h
      subst h
      show mc < min pc (tree.itemCount i)
      omega

/-- C5: FP-Growth uses the strict inequality `count > min_count`: an item
whose count in the tree's item counter is exactly `min_count` is excluded
from the enumerated (filtered and sorted) item list, hence never recursed
on, and (provided the incoming path count exceeds `min_count`, as it does
at the top-level call) no itemset whose count equals `min_count` appears
in the output. -/
theorem fp_growth_strict_min_count (tree : FPTree) (minCount pathCount : ℕ)
    (path : List ℕ) (hpc : minCount < pathCount) :
    (∀ i, tree.itemCount i = minCount →
      i ∉ sortTransaction
        ((nodeItems tree.root).dedup.filter (fun j => minCount < tree.itemCount j))
        tree.itemCount .Increasing) ∧
    (∀ S ∈ fpGrowth tree minCount path pathCount, S.count ≠ minCount) := by
  constructor
  · intro i hcount hmem
    unfold sortTransaction at hmem
    have := (List.perm_insertionSort _ _).mem_iff.mp hmem
    have := (List.mem_filter.mp this).2
    rw [hcount] at this
    simp at this
  · intro S hS
    have := fpGrowthF_count_gt (heightN tree.root) tree minCount path
      pathCount hpc S hS
    omega

/-- C5 witness: the empty tree with `min_count = 0` and path count 1. -/
theorem fp_growth_strict_min_count_witness :
    (0 : ℕ) < 1 ∧
    ((∀ i, FPTree.new.itemCount i = 0 →
      i ∉ sortTransaction
        ((nodeItems FPTree.new.root).dedup.filter (fun j => 0 < FPTree.new.itemCount j))
        FPTree.new.itemCount .Increasing) ∧
    (∀ S ∈ fpGrowth FPTree.new 0 [] 1, S.count ≠ 0)) :=
  ⟨Nat.zero_lt_one, fp_growth_strict_min_count FPTree.new 0 1 [] Nat.zero_lt_one⟩

/-! ### C7: conditional trees never contain their item -/

theorem mem_headDb (db : List (List ℕ × ℕ)) (j : ℕ) (tc : List ℕ × ℕ) :
    tc ∈ headDb db j ↔ (j :: tc.1, tc.2) ∈ db := by
  unfold headDb
  rw [List.mem_filterMap]
  constructor
  · rintro ⟨orig, horig, he⟩
    obtain ⟨ts, c⟩ := orig
    cases ts with
    | nil => cases he
    | cons h t =>
      dsimp only at he
      by_cases hj : h = j
      · rw [if_pos hj] at he
        injection he with he
        rw [← he]
        dsimp only
        rw [hj] at horig
        exact horig
      · rw [if_neg hj] at he
        cases he
  · intro h
    exact ⟨(j :: tc.1, tc.2), h, by simp⟩

theorem condPaths_eq_nil :
    ∀ (n : FPNode) (db : List (List ℕ × ℕ)) (i : ℕ) (acc : List ℕ),
      NodeRep n db → (∀ tc ∈ db, i ∉ tc.1) → condPaths i n acc = [] := by
  intro n
  induction n using FPNode.indOn with
  | _ nid nit ncnt cs ihc =>
    intro db i acc h hno
    rw [NodeRep_iff] at h
    rw [condPaths_def]
    simp only
    rw [List.flatten_eq_nil_iff]
    intro l hl
    obtain ⟨c, hc, rfl⟩ := List.mem_map.mp hl
    have hcne : c.item ≠ i := by
      obtain ⟨tc, htc, t, he⟩ := h.2.2.1 c hc
      intro e
      refine hno tc htc ?_
      rw [he, e]
      exact List.mem_cons_self _ _
    rw [if_neg hcne, List.nil_append]
    refine ihc c hc (headDb db c.item) i _ (h.2.2.2.2 c hc) ?_
    intro tc htc hin
    have := (mem_headDb db c.item tc).mp htc
    exact hno _ this (List.mem_cons_of_mem _ hin)

theorem condPaths_no_item :
    ∀ (n : FPNode) (db : List (List ℕ × ℕ)) (i : ℕ) (acc : List ℕ),
      NodeRep n db → (∀ tc ∈ db, tc.1.Nodup) → i ∉ acc →
      ∀ pc ∈ condPaths i n acc, i ∉ pc.1 := by
  intro n
  induction n using FPNode.indOn with
  | _ nid nit ncnt cs ihc =>
    intro db i acc h hnd hacc pc hpc
    rw [NodeRep_iff] at h
    rw [condPaths_def] at hpc
    simp only at hpc
    obtain ⟨l, hl, hpcl⟩ := List.mem_flatten.mp hpc
    obtain ⟨c, hc, rfl⟩ := List.mem_map.mp hl
    rcases List.mem_append.mp hpcl with hdir | hrec
    · have : pc = (acc, c.count) := by
        by_cases he : c.item = i
        · rw [if_pos he] at hdir
          simpa using hdir
        · rw [if_neg he] at hdir
          cases hdir
      rw [this]
      exact hacc
    · by_cases he : c.item = i
      · have hnil : condPaths i c (acc ++ [c.item]) = [] := by
          refine condPaths_eq_nil c (headDb db c.item) i _ (h.2.2.2.2 c hc) ?_
          intro tc htc hin
          have hmem := (mem_headDb db c.item tc).mp htc
          have := hnd _ hmem
          rw [List.nodup_cons] at this
          rw [he] at this
          exact this.1 hin
        rw [hnil] at hrec
        cases hrec
      · refine ihc c hc (headDb db c.item) i (acc ++ [c.item])
          (h.2.2.2.2 c hc) ?_ ?_ pc hrec
        · intro tc htc
          have hmem := (mem_headDb db c.item tc).mp htc
          have := hnd _ hmem
          rw [List.nodup_cons] at this
          exact this.2
        · intro hmem
          rcases List.mem_append.mp hmem with hmem | hmem
          · exact hacc hmem
          · simp only [List.mem_singleton] at hmem
            exact he hmem.symm

/-- Items of a represented node are exactly the items occurring in its
transaction multiset. -/
theorem nodeItems_mem :
    ∀ (n : FPNode) (db : List (List ℕ × ℕ)), NodeRep n db →
      ∀ x, x ∈ nodeItems n ↔ ∃ tc ∈ db, x ∈ tc.1 := by
  intro n
  induction n using FPNode.indOn with
  | _ nid nit ncnt cs ihc =>
    intro db h x
    rw [NodeRep_iff] at h
    rw [nodeItems_def]
    simp only
    constructor
    · intro hx
      obtain ⟨l, hl, hxl⟩ := List.mem_flatten.mp hx
      obtain ⟨c, hc, rfl⟩ := List.mem_map.mp hl
      rcases List.mem_cons.mp hxl with rfl | hxl
      · obtain ⟨tc, htc, t, he⟩ := h.2.2.1 c hc
        exact ⟨tc, htc, by rw [he]; exact List.mem_cons_self _ _⟩
      · have := (ihc c hc (headDb db c.item) (h.2.2.2.2 c hc) x).mp hxl
        obtain ⟨tc, htc, hin⟩ := this
        have := (mem_headDb db c.item tc).mp htc
        exact ⟨_, this, List.mem_cons_of_mem _ hin⟩
    · rintro ⟨tc, htc, hin⟩
      obtain ⟨ts, cc⟩ := tc
      cases ts with
      | nil => cases hin
      | cons hh tt =>
        have hhead := h.2.1 (hh :: tt, cc) htc hh tt rfl
        obtain ⟨c, hc, hitem⟩ := List.mem_map.mp hhead
        rw [List.mem_flatten]
        refine ⟨c.item :: nodeItems c, List.mem_map_of_mem _ hc, ?_⟩
        rcases List.mem_cons.mp hin with rfl | hin
        · rw [hitem]
          exact List.mem_cons_self _ _
        · refine List.mem_cons_of_mem _ ?_
          refine (ihc c hc (headDb db c.item) (h.2.2.2.2 c hc) x).mpr ?_
          refine ⟨(tt, cc), ?_, hin⟩
          rw [mem_headDb]
          dsimp only
          rw [hitem]
          exact htc

/-- C7: the conditional tree of any item, constructed from a tree built
from duplicate-free transactions, contains no node carrying that item:
every inserted conditional path is the strict-ancestor path of a node
carrying the item, and such paths never mention the item itself. -/
theorem conditional_tree_excludes_item (db : List (List ℕ × ℕ))
    (hnd : ∀ tc ∈ db, tc.1.Nodup) (i : ℕ)
    (hi : i ∈ nodeItems (buildTree db).root) :
    i ∉ nodeItems (constructConditionalTree (buildTree db) i).root := by
  intro hmem
  have hrep := nodeRep_buildTree (condPaths i (buildTree db).root [])
  have := (nodeItems_mem _ _ hrep i).mp hmem
  obtain ⟨pc, hpc, hin⟩ := this
  exact condPaths_no_item _ db i [] (nodeRep_buildTree db) hnd
    (by simp) pc hpc hin

/-- C7 witness: the tree of the single transaction `[1, 2]`, conditioning
on item 1. -/
theorem conditional_tree_excludes_item_witness :
    (∀ tc ∈ [([1, 2], 1)], tc.1.Nodup) ∧
    (1 : ℕ) ∈ nodeItems (buildTree [([1, 2], 1)]).root ∧
    (1 : ℕ) ∉ nodeItems (constructConditionalTree (buildTree [([1, 2], 1)]) 1).root := by
  have e2 : nodeItems (⟨2, 2, 1, []⟩ : FPNode) = [] := by
    rw [nodeItems_def]
    rfl
  have e1 : nodeItems (⟨1, 1, 1, [⟨2, 2, 1, []⟩]⟩ : FPNode) = [2] := by
    rw [nodeItems_def]
    simp only [List.map_cons, List.map_nil, List.flatten_cons,
      List.flatten_nil, e2]
    rfl
  have hmem : (1 : ℕ) ∈ nodeItems (buildTree [([1, 2], 1)]).root := by
    show (1 : ℕ) ∈ nodeItems ⟨0, 0, 0, [⟨1, 1, 1, [⟨2, 2, 1, []⟩]⟩]⟩
    rw [nodeItems_def]
    simp only [List.map_cons, List.map_nil, List.flatten_cons,
      List.flatten_nil, e1]
    simp
  exact ⟨by decide, hmem,
    conditional_tree_excludes_item [([1, 2], 1)] (by decide) 1 hmem⟩

/-! ### C2: support bookkeeping for conditional databases -/

theorem dbSupport_nil (S : List ℕ) : dbSupport [] S = 0 := rfl

theorem dbSupport_cons (tc : List ℕ × ℕ) (db : List (List ℕ × ℕ))
    (S : List ℕ) :
    dbSupport (tc :: db) S =
      (if S.all (· ∈ tc.1) then tc.2 else 0) + dbSupport db S := rfl

theorem dbSupport_append (db db2 : List (List ℕ × ℕ)) (S : List ℕ) :
    dbSupport (db ++ db2) S = dbSupport db S + dbSupport db2 S := by
  unfold dbSupport
  rw [List.map_append, List.sum_append]

theorem dbSupport_flatten (L : List (List (List ℕ × ℕ))) (S : List ℕ) :
    dbSupport L.flatten S = (L.map (fun db => dbSupport db S)).sum := by
  induction L with
  | nil => rfl
  | cons db L ih =>
    rw [List.flatten_cons, dbSupport_append, ih, List.map_cons, List.sum_cons]

/-- Support is antitone in the itemset: a superset has no larger
support. -/
theorem dbSupport_antitone (db : List (List ℕ × ℕ)) (S S2 : List ℕ)
    (h : ∀ x ∈ S, x ∈ S2) : dbSupport db S2 ≤ dbSupport db S := by
  induction db with
  | nil => exact Nat.le_refl 0
  | cons tc db ih =>
    rw [dbSupport_cons, dbSupport_cons]
    have : (if S2.all (· ∈ tc.1) then tc.2 else 0) ≤
        (if S.all (· ∈ tc.1) then tc.2 else 0) := by
      by_cases h2 : S2.all (· ∈ tc.1)
      · rw [if_pos h2]
        have : S.all (· ∈ tc.1) = true := by
          rw [List.all_eq_true] at h2 ⊢
          intro x hx
          exact h2 x (h x hx)
        rw [if_pos this]
      · rw [if_neg h2]
        exact Nat.zero_le _
    omega

/-- A positive support exhibits a transaction containing the itemset with
positive weight. -/
theorem dbSupport_pos (db : List (List ℕ × ℕ)) (S : List ℕ)
    (h : 0 < dbSupport db S) :
    ∃ tc ∈ db, (∀ x ∈ S, x ∈ tc.1) ∧ 0 < tc.2 := by
  induction db with
  | nil => cases h
  | cons tc db ih =>
    rw [dbSupport_cons] at h
    by_cases hin : S.all (· ∈ tc.1)
    · rw [if_pos hin] at h
      by_cases hc : 0 < tc.2
      · refine ⟨tc, List.mem_cons_self _ _, ?_, hc⟩
        rw [List.all_eq_true] at hin
        intro x hx
        exact of_decide_eq_true (hin x hx)
      · have : dbSupport db S > 0 := by omega
        obtain ⟨tc2, htc2, hx, hc2⟩ := ih this
        exact ⟨tc2, List.mem_cons_of_mem _ htc2, hx, hc2⟩
    · rw [if_neg hin] at h
      have : 0 < dbSupport db S := by omega
      obtain ⟨tc2, htc2, hx, hc2⟩ := ih this
      exact ⟨tc2, List.mem_cons_of_mem _ htc2, hx, hc2⟩

theorem headDb_cons (ts : List ℕ) (cc : ℕ) (db : List (List ℕ × ℕ)) (x : ℕ) :
    headDb ((ts, cc) :: db) x =
      (match ts with
        | [] => []
        | h :: t => if h = x then [(t, cc)] else []) ++ headDb db x := by
  unfold headDb
  rw [List.filterMap_cons]
  cases ts with
  | nil => rfl
  | cons h t =>
    dsimp only
    by_cases he : h = x
    · rw [if_pos he, if_pos he]
      rfl
    · rw [if_neg he, if_neg he]
      rfl

theorem condDb_cons (ts : List ℕ) (cc : ℕ) (db : List (List ℕ × ℕ)) (i : ℕ) :
    condDb ((ts, cc) :: db) i =
      (if i ∈ ts then [(ts.takeWhile (fun x => x ≠ i), cc)] else []) ++
        condDb db i := by
  unfold condDb
  rw [List.filterMap_cons]
  dsimp only
  by_cases hi : i ∈ ts
  · rw [if_pos hi, if_pos hi]
    rfl
  · rw [if_neg hi, if_neg hi]
    rfl

theorem sum_map_add {α : Type} (l : List α) (f g : α → ℕ) :
    (l.map (fun x => f x + g x)).sum = (l.map f).sum + (l.map g).sum := by
  induction l with
  | nil => rfl
  | cons x l ih =>
    simp only [List.map_cons, List.sum_cons, ih]
    omega

theorem sum_map_zero {α : Type} (l : List α) (f : α → ℕ)
    (h : ∀ x ∈ l, f x = 0) : (l.map f).sum = 0 := by
  induction l with
  | nil => rfl
  | cons x l ih =>
    simp only [List.map_cons, List.sum_cons]
    rw [h x (List.mem_cons_self _ _), ih (fun y hy => h y (List.mem_cons_of_mem _ hy))]

theorem sum_map_single (its : List ℕ) (hh : ℕ) (w : ℕ)
    (hnodup : its.Nodup) (hmem : hh ∈ its) :
    (its.map (fun h => if h = hh then w else 0)).sum = w := by
  induction its with
  | nil => cases hmem
  | cons h its ih =>
    rw [List.nodup_cons] at hnodup
    simp only [List.map_cons, List.sum_cons]
    rcases List.mem_cons.mp hmem with rfl | hmem
    · rw [if_pos rfl]
      have hz : (its.map (fun x => if x = hh then w else 0)).sum = 0 := by
        apply sum_map_zero
        intro x hx
        rw [if_neg]
        intro e
        rw [e] at hx
        exact hnodup.1 hx
      omega
    · have hne : ¬ h = hh := fun e => hnodup.1 (by rw [e]; exact hmem)
      rw [if_neg hne, ih hnodup.2 hmem]
      omega

/-- For duplicate-free transactions the tree's per-item counter is the
support of the corresponding singleton itemset. -/
theorem itemCount_eq_support (db : List (List ℕ × ℕ)) (i : ℕ)
    (hnd : ∀ tc ∈ db, tc.1.Nodup) :
    (buildTree db).itemCount i = dbSupport db [i] := by
  rw [buildTree_itemCount]
  unfold dbSupport
  induction db with
  | nil => rfl
  | cons tc db ih =>
    simp only [List.map_cons, List.sum_cons]
    rw [ih (fun tc2 h2 => hnd tc2 (List.mem_cons_of_mem _ h2))]
    have hcnt : tc.1.count i = if i ∈ tc.1 then 1 else 0 := by
      by_cases hi : i ∈ tc.1
      · rw [if_pos hi]
        exact List.count_eq_one_of_mem (hnd tc (List.mem_cons_self _ _)) hi
      · rw [if_neg hi]
        exact List.count_eq_zero_of_not_mem hi
    rw [hcnt]
    by_cases hi : i ∈ tc.1
    · rw [if_pos hi, if_pos (by simpa using hi), Nat.mul_one]
    · rw [if_neg hi, if_neg (by simpa using hi), Nat.mul_zero]

theorem headCount_cons (ts : List ℕ) (cc : ℕ) (db : List (List ℕ × ℕ))
    (x : ℕ) :
    headCount ((ts, cc) :: db) x =
      (match ts with
        | [] => 0
        | h :: _ => if h = x then cc else 0) + headCount db x := by
  unfold headCount
  rw [headDb_cons]
  cases ts with
  | nil => simp
  | cons h t =>
    dsimp only
    by_cases he : h = x
    · rw [if_pos he, if_pos he]
      simp
    · rw [if_neg he, if_neg he]
      simp

/-- Transactions of a head sub-multiset of a duplicate-free multiset are
duplicate-free, and never contain the head item again. -/
theorem headDb_nodup (db : List (List ℕ × ℕ)) (x : ℕ)
    (hnd : ∀ tc ∈ db, tc.1.Nodup) :
    ∀ tc ∈ headDb db x, tc.1.Nodup ∧ x ∉ tc.1 := by
  intro tc htc
  have := (mem_headDb db x tc).mp htc
  have h2 := hnd _ this
  rw [List.nodup_cons] at h2
  exact ⟨h2.2, h2.1⟩

theorem sum_map_pick (its : List ℕ) (hh : ℕ) (f : ℕ → ℕ)
    (hnodup : its.Nodup) (hmem : hh ∈ its) :
    (its.map (fun h => if hh = h then f h else 0)).sum = f hh := by
  induction its with
  | nil => cases hmem
  | cons h its ih =>
    rw [List.nodup_cons] at hnodup
    simp only [List.map_cons, List.sum_cons]
    rcases List.mem_cons.mp hmem with rfl | hmem
    · rw [if_pos rfl]
      have hz : (its.map (fun x => if hh = x then f x else 0)).sum = 0 := by
        apply sum_map_zero
        intro x hx
        rw [if_neg]
        intro e
        rw [← e] at hx
        exact hnodup.1 hx
      omega
    · have hne : ¬ hh = h := fun e => hnodup.1 (by rw [← e]; exact hmem)
      rw [if_neg hne, ih hnodup.2 hmem]
      omega

/-- Summing a per-child quantity that only depends on whether the child
carries a fixed item, over children with pairwise distinct items. -/
theorem sum_map_children_pick (cs : List FPNode) (i : ℕ) (X : ℕ)
    (hnodup : (cs.map (·.item)).Nodup) :
    (cs.map (fun c => if c.item = i then X else 0)).sum =
      if i ∈ cs.map (·.item) then X else 0 := by
  induction cs with
  | nil => simp
  | cons c cs ih =>
    rw [List.map_cons, List.nodup_cons] at hnodup
    rw [List.map_cons, List.map_cons, List.sum_cons, ih hnodup.2]
    by_cases he : c.item = i
    · rw [if_pos he]
      have hz : i ∉ cs.map (·.item) := by
        rw [← he]
        exact hnodup.1
      rw [if_neg hz, if_pos (List.mem_cons.mpr (Or.inl he.symm))]
      omega
    · rw [if_neg he]
      by_cases hi : i ∈ cs.map (·.item)
      · rw [if_pos hi, if_pos (List.mem_cons_of_mem _ hi)]
        omega
      · have hni : i ∉ c.item :: cs.map (·.item) := by
          intro hmem
          rcases List.mem_cons.mp hmem with e | hmem
          · exact he e.symm
          · exact hi hmem
        rw [if_neg hi, if_neg hni]

/-- An item heading no transaction has head weight zero. -/
theorem headCount_eq_zero (db : List (List ℕ × ℕ)) (x : ℕ)
    (h : ∀ tc ∈ db, ∀ t : List ℕ, tc.1 ≠ x :: t) : headCount db x = 0 := by
  unfold headCount
  rw [headDb_eq_nil db x h]
  rfl

theorem condDb_append (db db2 : List (List ℕ × ℕ)) (i : ℕ) :
    condDb (db ++ db2) i = condDb db i ++ condDb db2 i := by
  unfold condDb
  exact List.filterMap_append _ _ _

theorem condDb_singleton (ts : List ℕ) (w i : ℕ) :
    condDb [(ts, w)] i =
      if i ∈ ts then [(ts.takeWhile (fun x => x ≠ i), w)] else [] := by
  rw [condDb_cons]
  exact List.append_nil _

theorem dbSupport_single (p : List ℕ) (w : ℕ) (S : List ℕ) :
    dbSupport [(p, w)] S = if S.all (· ∈ p) then w else 0 := by
  rw [dbSupport_cons, dbSupport_nil, Nat.add_zero]

theorem headDb_cons_nil (w : ℕ) (db : List (List ℕ × ℕ)) (x : ℕ) :
    headDb ((([] : List ℕ), w) :: db) x = headDb db x := by
  rw [headDb_cons]
  rfl

theorem headDb_cons_cons (h0 : ℕ) (t : List ℕ) (w : ℕ)
    (db : List (List ℕ × ℕ)) (x : ℕ) :
    headDb ((h0 :: t, w) :: db) x =
      (if h0 = x then [(t, w)] else []) ++ headDb db x := by
  rw [headDb_cons]

theorem headCount_cons_nil (w : ℕ) (db : List (List ℕ × ℕ)) (x : ℕ) :
    headCount ((([] : List ℕ), w) :: db) x = headCount db x := by
  rw [headCount_cons]
  show 0 + headCount db x = headCount db x
  exact Nat.zero_add _

theorem headCount_cons_cons (h0 : ℕ) (t : List ℕ) (w : ℕ)
    (db : List (List ℕ × ℕ)) (x : ℕ) :
    headCount ((h0 :: t, w) :: db) x =
      (if h0 = x then w else 0) + headCount db x := by
  rw [headCount_cons]

/-- Splitting the support of the accumulated conditional database of a
multiset over the (pairwise distinct) items heading its transactions:
the transactions headed by the conditioning item itself contribute the
plain accumulator, every other transaction is handled by the head
sub-multiset of its leading item. -/
theorem condDb_split :
    ∀ (db : List (List ℕ × ℕ)) (i : ℕ) (acc S its : List ℕ),
      its.Nodup →
      (∀ tc ∈ db, ∀ h : ℕ, ∀ t : List ℕ, tc.1 = h :: t → h ∈ its) →
      (∀ tc ∈ db, tc.1.Nodup) →
      dbSupport ((condDb db i).map (fun tc => (acc ++ tc.1, tc.2))) S =
        (if S.all (· ∈ acc) then headCount db i else 0) +
        (its.map (fun h =>
          dbSupport ((condDb (headDb db h) i).map
            (fun tc2 => (acc ++ [h] ++ tc2.1, tc2.2))) S)).sum := by
  intro db
  induction db with
  | nil =>
    intro i acc S its _ _ _
    have h1 : (its.map (fun h =>
        dbSupport ((condDb (headDb ([] : List (List ℕ × ℕ)) h) i).map
          (fun tc2 => (acc ++ [h] ++ tc2.1, tc2.2))) S)).sum = 0 :=
      sum_map_zero _ _ (fun h _ => rfl)
    rw [h1]
    show (0 : ℕ) = (if S.all (· ∈ acc) then 0 else 0) + 0
    rw [ite_self]
  | cons tc db ih =>
    intro i acc S its hnodup hcov hnd
    obtain ⟨ts, w⟩ := tc
    have hcov2 : ∀ tc2 ∈ db, ∀ h : ℕ, ∀ t : List ℕ, tc2.1 = h :: t → h ∈ its :=
      fun tc2 h2 => hcov tc2 (List.mem_cons_of_mem _ h2)
    have hnd2 : ∀ tc2 ∈ db, tc2.1.Nodup :=
      fun tc2 h2 => hnd tc2 (List.mem_cons_of_mem _ h2)
    have iheq := ih i acc S its hnodup hcov2 hnd2
    cases ts with
    | nil =>
      have e1 : condDb ((([] : List ℕ), w) :: db) i = condDb db i := by
        rw [condDb_cons]
        simp
      have e3 : its.map (fun h =>
            dbSupport ((condDb (headDb ((([] : List ℕ), w) :: db) h) i).map
              (fun tc2 => (acc ++ [h] ++ tc2.1, tc2.2))) S) =
          its.map (fun h =>
            dbSupport ((condDb (headDb db h) i).map
              (fun tc2 => (acc ++ [h] ++ tc2.1, tc2.2))) S) := by
        refine List.map_congr_left (fun h _ => ?_)
        rw [headDb_cons_nil]
      rw [e1, headCount_cons_nil, e3]
      exact iheq
    | cons h0 t =>
      have hh0 : h0 ∈ its := hcov (h0 :: t, w) (List.mem_cons_self _ _) h0 t rfl
      have hnd0 : (h0 :: t).Nodup := hnd (h0 :: t, w) (List.mem_cons_self _ _)
      have e3 : its.map (fun h =>
            dbSupport ((condDb (headDb ((h0 :: t, w) :: db) h) i).map
              (fun tc2 => (acc ++ [h] ++ tc2.1, tc2.2))) S) =
          its.map (fun h =>
            (if h0 = h then
              dbSupport ((condDb [(t, w)] i).map
                (fun tc2 => (acc ++ [h] ++ tc2.1, tc2.2))) S
             else 0) +
            dbSupport ((condDb (headDb db h) i).map
              (fun tc2 => (acc ++ [h] ++ tc2.1, tc2.2))) S) := by
        refine List.map_congr_left (fun h _ => ?_)
        rw [headDb_cons_cons]
        by_cases he : h0 = h
        · simp only [if_pos he]
          rw [condDb_append, List.map_append, dbSupport_append]
        · simp only [if_neg he]
          rw [List.nil_append]
          omega
      have e4 : (its.map (fun h =>
            (if h0 = h then
              dbSupport ((condDb [(t, w)] i).map
                (fun tc2 => (acc ++ [h] ++ tc2.1, tc2.2))) S
             else 0) +
            dbSupport ((condDb (headDb db h) i).map
              (fun tc2 => (acc ++ [h] ++ tc2.1, tc2.2))) S)).sum =
          (its.map (fun h =>
            if h0 = h then
              dbSupport ((condDb [(t, w)] i).map
                (fun tc2 => (acc ++ [h] ++ tc2.1, tc2.2))) S
            else 0)).sum +
          (its.map (fun h =>
            dbSupport ((condDb (headDb db h) i).map
              (fun tc2 => (acc ++ [h] ++ tc2.1, tc2.2))) S)).sum :=
        sum_map_add _ _ _
      have e5 : (its.map (fun h =>
            if h0 = h then
              dbSupport ((condDb [(t, w)] i).map
                (fun tc2 => (acc ++ [h] ++ tc2.1, tc2.2))) S
            else 0)).sum =
          dbSupport ((condDb [(t, w)] i).map
            (fun tc2 => (acc ++ [h0] ++ tc2.1, tc2.2))) S :=
        sum_map_pick its h0 _ hnodup hh0
      have e6 : dbSupport ((condDb [(h0 :: t, w)] i).map
            (fun tc2 => (acc ++ tc2.1, tc2.2))) S =
          (if S.all (· ∈ acc) then (if h0 = i then w else 0) else 0) +
          dbSupport ((condDb [(t, w)] i).map
            (fun tc2 => (acc ++ [h0] ++ tc2.1, tc2.2))) S := by
        by_cases hi0 : h0 = i
        · subst hi0
          have hit : h0 ∉ t := (List.nodup_cons.mp hnd0).1
          have ec1 : condDb [(h0 :: t, w)] h0 = [(([] : List ℕ), w)] := by
            rw [condDb_singleton, if_pos (List.mem_cons_self _ _)]
            simp [List.takeWhile_cons]
          have ec2 : condDb [(t, w)] h0 = [] := by
            rw [condDb_singleton, if_neg hit]
          rw [ec1, ec2]
          simp only [List.map_cons, List.map_nil, List.append_nil]
          rw [dbSupport_single]
          show _ = _ + dbSupport [] S
          rw [dbSupport_nil]
          simp
        · by_cases hit : i ∈ t
          · have htw : (h0 :: t).takeWhile (fun x => x ≠ i) =
                h0 :: t.takeWhile (fun x => x ≠ i) := by
              simp [List.takeWhile_cons, hi0]
            have ec1 : condDb [(h0 :: t, w)] i =
                [(h0 :: t.takeWhile (fun x => x ≠ i), w)] := by
              rw [condDb_singleton, if_pos (List.mem_cons_of_mem _ hit), htw]
            have ec2 : condDb [(t, w)] i =
                [(t.takeWhile (fun x => x ≠ i), w)] := by
              rw [condDb_singleton, if_pos hit]
            rw [ec1, ec2]
            simp only [List.map_cons, List.map_nil]
            rw [dbSupport_single, dbSupport_single, if_neg hi0, ite_self,
              List.append_assoc, List.singleton_append]
            omega
          · have hint : i ∉ h0 :: t := by
              intro hmem
              rcases List.mem_cons.mp hmem with e | hmem
              · exact hi0 e.symm
              · exact hit hmem
            have ec1 : condDb [(h0 :: t, w)] i = [] := by
              rw [condDb_singleton, if_neg hint]
            have ec2 : condDb [(t, w)] i = [] := by
              rw [condDb_singleton, if_neg hit]
            rw [ec1, ec2, if_neg hi0, ite_self]
            rfl
      rw [condDb_cons, ← condDb_singleton, List.map_append, dbSupport_append,
        iheq, headCount_cons_cons, e3, e4, e5, e6]
      by_cases hS : S.all (· ∈ acc)
      · simp only [if_pos hS]
        omega
      · simp only [if_neg hS]
        omega

/-- The conditional paths collected from a represented node carry, for
any query itemset, exactly the support of the (accumulated) abstract
conditional database of the represented transaction multiset. -/
theorem condPaths_support :
    ∀ (n : FPNode) (db : List (List ℕ × ℕ)) (i : ℕ) (acc S : List ℕ),
      NodeRep n db → (∀ tc ∈ db, tc.1.Nodup) →
      dbSupport (condPaths i n acc) S =
        dbSupport ((condDb db i).map (fun tc => (acc ++ tc.1, tc.2))) S := by
  intro n
  induction n using FPNode.indOn with
  | _ nid nit ncnt cs ihc =>
    intro db i acc S h hnd
    rw [NodeRep_iff] at h
    obtain ⟨hdis, hcov, hex, hcnt, hrep⟩ := h
    calc dbSupport (condPaths i ⟨nid, nit, ncnt, cs⟩ acc) S
        = (cs.map (fun c => dbSupport
            ((if c.item = i then [(acc, c.count)] else []) ++
              condPaths i c (acc ++ [c.item])) S)).sum := by
          rw [condPaths_def, dbSupport_flatten, List.map_map]
          rfl
      _ = (cs.map (fun c =>
            (if c.item = i then
              (if S.all (· ∈ acc) then headCount db i else 0) else 0) +
            dbSupport ((condDb (headDb db c.item) i).map
              (fun tc2 => (acc ++ [c.item] ++ tc2.1, tc2.2))) S)).sum := by
          refine congrArg List.sum (List.map_congr_left (fun c hc => ?_))
          rw [dbSupport_append]
          rw [ihc c hc (headDb db c.item) i (acc ++ [c.item]) S (hrep c hc)
            (fun tc2 htc2 => (headDb_nodup db c.item hnd tc2 htc2).1)]
          by_cases he : c.item = i
          · rw [if_pos he, if_pos he, hcnt c hc, he, dbSupport_single]
          · rw [if_neg he, if_neg he, dbSupport_nil]
      _ = (cs.map (fun c =>
            if c.item = i then
              (if S.all (· ∈ acc) then headCount db i else 0) else 0)).sum +
          (cs.map (fun c =>
            dbSupport ((condDb (headDb db c.item) i).map
              (fun tc2 => (acc ++ [c.item] ++ tc2.1, tc2.2))) S)).sum :=
          sum_map_add _ _ _
      _ = (if S.all (· ∈ acc) then headCount db i else 0) +
          ((cs.map (·.item)).map (fun h2 =>
            dbSupport ((condDb (headDb db h2) i).map
              (fun tc2 => (acc ++ [h2] ++ tc2.1, tc2.2))) S)).sum := by
          have hA : (cs.map (fun c =>
              if c.item = i then
                (if S.all (· ∈ acc) then headCount db i else 0) else 0)).sum =
              (if S.all (· ∈ acc) then headCount db i else 0) := by
            rw [sum_map_children_pick cs i _ hdis]
            by_cases hmem : i ∈ cs.map (·.item)
            · rw [if_pos hmem]
            · rw [if_neg hmem]
              have hc0 : headCount db i = 0 :=
                headCount_eq_zero db i
                  (fun tc htc t2 he => hmem (hcov tc htc i t2 he))
              rw [hc0, ite_self]
          have hB : (cs.map (·.item)).map (fun h2 =>
              dbSupport ((condDb (headDb db h2) i).map
                (fun tc2 => (acc ++ [h2] ++ tc2.1, tc2.2))) S) =
              cs.map (fun c =>
                dbSupport ((condDb (headDb db c.item) i).map
                  (fun tc2 => (acc ++ [c.item] ++ tc2.1, tc2.2))) S) := by
            rw [List.map_map]
            rfl
          rw [hA, hB]
      _ = dbSupport ((condDb db i).map (fun tc => (acc ++ tc.1, tc.2))) S :=
          (condDb_split db i acc S (cs.map (·.item)) hdis hcov hnd).symm

/-- At the root call the conditional paths have exactly the supports of
the abstract conditional database. -/
theorem condPaths_support_root (db : List (List ℕ × ℕ)) (i : ℕ) (S : List ℕ)
    (hnd : ∀ tc ∈ db, tc.1.Nodup) :
    dbSupport (condPaths i (buildTree db).root []) S =
      dbSupport (condDb db i) S := by
  rw [condPaths_support _ db i [] S (nodeRep_buildTree db) hnd]
  have : (condDb db i).map (fun tc => (([] : List ℕ) ++ tc.1, tc.2)) =
      condDb db i := by
    simp
  rw [this]

/-- In a transaction sorted by a strict order, the items strictly before
the (unique) occurrence of `i` are exactly the members below `i`. -/
theorem takeWhile_mem_iff (r : ℕ → ℕ → Prop) (htr : Transitive r)
    (hirr : ∀ x, ¬ r x x) :
    ∀ (t : List ℕ) (i : ℕ), t.Pairwise r → i ∈ t →
      ∀ x, x ∈ t.takeWhile (fun y => y ≠ i) ↔ x ∈ t ∧ r x i := by
  intro t
  induction t with
  | nil => intro i _ hmem; cases hmem
  | cons h rest ih =>
    intro i hpw hmem x
    rw [List.pairwise_cons] at hpw
    by_cases he : h = i
    · subst he
      have htw : (h :: rest).takeWhile (fun y => y ≠ h) = [] := by
        simp [List.takeWhile_cons]
      rw [htw]
      simp only [List.not_mem_nil, false_iff]
      rintro ⟨hx, hrx⟩
      rcases List.mem_cons.mp hx with rfl | hx
      · exact hirr x hrx
      · exact hirr x (htr hrx (hpw.1 x hx))
    · have hit : i ∈ rest := by
        rcases List.mem_cons.mp hmem with e | hmem2
        · exact absurd e.symm he
        · exact hmem2
      have htw : (h :: rest).takeWhile (fun y => y ≠ i) =
          h :: rest.takeWhile (fun y => y ≠ i) := by
        simp [List.takeWhile_cons, he]
      rw [htw]
      constructor
      · intro hx
        rcases List.mem_cons.mp hx with rfl | hx
        · exact ⟨List.mem_cons_self _ _, hpw.1 i hit⟩
        · obtain ⟨h1, h2⟩ := (ih i hpw.2 hit x).mp hx
          exact ⟨List.mem_cons_of_mem _ h1, h2⟩
      · rintro ⟨hx, hrx⟩
        rcases List.mem_cons.mp hx with rfl | hx
        · exact List.mem_cons_self _ _
        · exact List.mem_cons_of_mem _ ((ih i hpw.2 hit x).mpr ⟨hx, hrx⟩)

/-- For transactions sorted by a strict order and a query lying entirely
below `i`, the conditional database supports the query exactly as the
original database supports the query extended with `i`. -/
theorem condDb_support (r : ℕ → ℕ → Prop) (htr : Transitive r)
    (hirr : ∀ x, ¬ r x x) (i : ℕ) (S : List ℕ) (hS : ∀ x ∈ S, r x i) :
    ∀ db : List (List ℕ × ℕ), (∀ tc ∈ db, tc.1.Pairwise r) →
      dbSupport (condDb db i) S = dbSupport db (i :: S) := by
  intro db
  induction db with
  | nil => intro _; rfl
  | cons tc db ih =>
    intro hsort
    obtain ⟨ts, w⟩ := tc
    have hsort2 : ∀ tc2 ∈ db, tc2.1.Pairwise r :=
      fun tc2 h2 => hsort tc2 (List.mem_cons_of_mem _ h2)
    rw [condDb_cons, dbSupport_append, ih hsort2, dbSupport_cons]
    by_cases hi : i ∈ ts
    · rw [if_pos hi, dbSupport_single]
      have hts : ts.Pairwise r := hsort (ts, w) (List.mem_cons_self _ _)
      have hiff : (S.all (· ∈ ts.takeWhile (fun y => y ≠ i)) = true) ↔
          ((i :: S).all (· ∈ ts) = true) := by
        simp only [List.all_eq_true, List.all_cons, Bool.and_eq_true,
          decide_eq_true_eq]
        constructor
        · intro hall
          refine ⟨hi, fun x hx => ?_⟩
          exact ((takeWhile_mem_iff r htr hirr ts i hts hi x).mp (hall x hx)).1
        · rintro ⟨-, hall⟩
          intro x hx
          exact (takeWhile_mem_iff r htr hirr ts i hts hi x).mpr
            ⟨hall x hx, hS x hx⟩
      by_cases hall : S.all (· ∈ ts.takeWhile (fun y => y ≠ i)) = true
      · rw [if_pos hall, if_pos (hiff.mp hall)]
      · rw [if_neg hall, if_neg (fun h2 => hall (hiff.mpr h2))]
    · rw [if_neg hi]
      have hno : ¬ ((i :: S).all (· ∈ ts) = true) := by
        simp only [List.all_cons, Bool.and_eq_true, decide_eq_true_eq]
        intro hcontra
        exact hi hcontra.1
      rw [dbSupport_nil, if_neg hno]

/-- Every conditional path is, beyond the accumulator, a strict prefix of
some represented transaction up to its occurrence of the item. -/
theorem condPaths_mem_prefix :
    ∀ (n : FPNode) (db : List (List ℕ × ℕ)) (i : ℕ) (acc : List ℕ),
      NodeRep n db →
      ∀ pc ∈ condPaths i n acc, ∃ q : List ℕ, pc.1 = acc ++ q ∧
        ∃ tc ∈ db, ∃ rest : List ℕ, tc.1 = q ++ i :: rest := by
  intro n
  induction n using FPNode.indOn with
  | _ nid nit ncnt cs ihc =>
    intro db i acc h pc hpc
    rw [NodeRep_iff] at h
    rw [condPaths_def] at hpc
    obtain ⟨l, hl, hpcl⟩ := List.mem_flatten.mp hpc
    obtain ⟨c, hc, rfl⟩ := List.mem_map.mp hl
    rcases List.mem_append.mp hpcl with hdir | hrec
    · by_cases he : c.item = i
      · rw [if_pos he] at hdir
        simp only [List.mem_singleton] at hdir
        subst hdir
        refine ⟨[], by simp, ?_⟩
        obtain ⟨tc, htc, t2, het⟩ := h.2.2.1 c hc
        exact ⟨tc, htc, t2, by rw [het, he]; rfl⟩
      · rw [if_neg he] at hdir
        cases hdir
    · obtain ⟨q, hq, tc, htc, rest, hrest⟩ :=
        ihc c hc (headDb db c.item) i (acc ++ [c.item]) (h.2.2.2.2 c hc) pc hrec
      refine ⟨c.item :: q, by rw [hq, List.append_assoc]; rfl, ?_⟩
      have hmem := (mem_headDb db c.item tc).mp htc
      exact ⟨(c.item :: tc.1, tc.2), hmem, rest, by
        show c.item :: tc.1 = c.item :: q ++ i :: rest
        rw [hrest]
        rfl⟩

/-! ### C2: height bookkeeping -/

theorem heightN_pos (n : FPNode) : 1 ≤ heightN n := by
  rw [heightN_def]
  omega

theorem le_foldr_max : ∀ (l : List ℕ) (x : ℕ), x ∈ l → x ≤ l.foldr max 0 := by
  intro l
  induction l with
  | nil => intro x hx; cases hx
  | cons a l ih =>
    intro x hx
    rw [List.foldr_cons]
    rcases List.mem_cons.mp hx with rfl | hx
    · exact Nat.le_max_left _ _
    · exact Nat.le_trans (ih x hx) (Nat.le_max_right _ _)

theorem foldr_max_le : ∀ (l : List ℕ) (B : ℕ), (∀ x ∈ l, x ≤ B) →
    l.foldr max 0 ≤ B := by
  intro l
  induction l with
  | nil => intro B _; exact Nat.zero_le _
  | cons a l ih =>
    intro B h
    rw [List.foldr_cons]
    exact Nat.max_le.mpr ⟨h a (List.mem_cons_self _ _),
      ih B (fun x hx => h x (List.mem_cons_of_mem _ hx))⟩

theorem heightN_child_lt (n : FPNode) (c : FPNode) (hc : c ∈ n.children) :
    heightN c < heightN n := by
  rw [heightN_def n]
  have := le_foldr_max (n.children.map heightN) (heightN c)
    (List.mem_map_of_mem _ hc)
  omega

theorem heightN_count_irrel (i it c1 c2 : ℕ) (cs : List FPNode) :
    heightN ⟨i, it, c1, cs⟩ = heightN ⟨i, it, c2, cs⟩ := by
  rw [heightN_def, heightN_def]

theorem heightN_leaf (i it c : ℕ) : heightN ⟨i, it, c, []⟩ = 1 := by
  rw [heightN_def]
  rfl

/-- Bumping a node's count does not change its height. -/
theorem heightN_bump (y : FPNode) (k : ℕ) :
    heightN ⟨y.id, y.item, y.count + k, y.children⟩ = heightN y := by
  rw [heightN_def, heightN_def]

/-- A node is no taller than any bound strictly dominating all its
children. -/
theorem heightN_node_le (i it c : ℕ) (cs : List FPNode) (B : ℕ)
    (hB : 1 ≤ B) (h : ∀ y ∈ cs, heightN y + 1 ≤ B) :
    heightN ⟨i, it, c, cs⟩ ≤ B := by
  rw [heightN_def]
  show (cs.map heightN).foldr max 0 + 1 ≤ B
  have h1 := foldr_max_le (cs.map heightN) (B - 1)
    (fun x hx => by
      obtain ⟨y, hy, rfl⟩ := List.mem_map.mp hx
      have := h y hy
      omega)
  omega

/-- Inserting a transaction cannot push the node height beyond the
transaction's length (plus the node itself). -/
theorem heightN_insert :
    ∀ (t : List ℕ) (n : FPNode) (cnt nid : ℕ),
      heightN (FPNode.insert t n cnt nid).1 ≤
        max (heightN n) (t.length + 1) := by
  intro t
  induction t with
  | nil =>
    intro n cnt nid
    exact Nat.le_max_left _ _
  | cons item rest ih =>
    intro n cnt nid
    have hM1 : 1 ≤ max (heightN n) ((item :: rest).length + 1) :=
      Nat.le_trans (heightN_pos n) (Nat.le_max_left _ _)
    cases hf : n.children.findIdx? (fun c => c.item = item) with
    | some idx =>
      rw [insert_cons_found rest cnt nid hf]
      have hidx := findIdx?_spec hf
      have hchild : n.children.getD idx (FPNode.new 0 0) ∈ n.children := by
        rw [List.getD_eq_getElem?_getD, List.getElem?_eq_getElem hidx.1]
        exact List.getElem_mem _
      show heightN ⟨n.id, n.item, n.count, n.children.set idx
          (FPNode.insert rest
            ⟨(n.children.getD idx (FPNode.new 0 0)).id,
             (n.children.getD idx (FPNode.new 0 0)).item,
             (n.children.getD idx (FPNode.new 0 0)).count + cnt,
             (n.children.getD idx (FPNode.new 0 0)).children⟩
            cnt nid).1⟩ ≤ _
      refine heightN_node_le _ _ _ _ _ hM1 (fun y hy => ?_)
      rcases List.mem_or_eq_of_mem_set hy with hy | rfl
      · have := heightN_child_lt n y hy
        exact Nat.le_trans (by omega) (Nat.le_max_left _ _)
      · have hih := ih ⟨(n.children.getD idx (FPNode.new 0 0)).id,
           (n.children.getD idx (FPNode.new 0 0)).item,
           (n.children.getD idx (FPNode.new 0 0)).count + cnt,
           (n.children.getD idx (FPNode.new 0 0)).children⟩ cnt nid
        rw [heightN_bump] at hih
        have hcl := heightN_child_lt n _ hchild
        calc heightN (FPNode.insert rest
              ⟨(n.children.getD idx (FPNode.new 0 0)).id,
               (n.children.getD idx (FPNode.new 0 0)).item,
               (n.children.getD idx (FPNode.new 0 0)).count + cnt,
               (n.children.getD idx (FPNode.new 0 0)).children⟩
              cnt nid).1 + 1
            ≤ max (heightN (n.children.getD idx (FPNode.new 0 0)))
                (rest.length + 1) + 1 := by omega
          _ = max (heightN (n.children.getD idx (FPNode.new 0 0)) + 1)
                (rest.length + 2) := (Nat.succ_max_succ _ _).symm
          _ ≤ max (heightN n) ((item :: rest).length + 1) :=
              max_le_max (by omega) (by simp)
    | none =>
      rw [insert_cons_new rest cnt nid hf]
      show heightN ⟨n.id, n.item, n.count, n.children ++
          [(FPNode.insert rest ⟨nid, item, cnt, []⟩ cnt (nid + 1)).1]⟩ ≤ _
      refine heightN_node_le _ _ _ _ _ hM1 (fun y hy => ?_)
      rcases List.mem_append.mp hy with hy | hy
      · have := heightN_child_lt n y hy
        exact Nat.le_trans (by omega) (Nat.le_max_left _ _)
      · simp only [List.mem_singleton] at hy
        subst hy
        have hih := ih ⟨nid, item, cnt, []⟩ cnt (nid + 1)
        rw [heightN_leaf] at hih
        have h2 : heightN (FPNode.insert rest ⟨nid, item, cnt, []⟩
            cnt (nid + 1)).1 ≤ rest.length + 1 := by
          have hmax : max 1 (rest.length + 1) = rest.length + 1 :=
            Nat.max_eq_right (by omega)
          rw [hmax] at hih
          exact hih
        refine Nat.le_trans ?_ (Nat.le_max_right _ _)
        simp only [List.length_cons]
        omega

theorem heightN_foldl_le :
    ∀ (db : List (List ℕ × ℕ)) (t : FPTree) (B : ℕ),
      heightN t.root ≤ B → (∀ tc ∈ db, tc.1.length + 1 ≤ B) →
      heightN ((db.foldl (fun t tc => t.insert tc.1 tc.2) t).root) ≤ B := by
  intro db
  induction db with
  | nil => intro t B h _; exact h
  | cons tc db ih =>
    intro t B h hlen
    rw [List.foldl_cons]
    refine ih (t.insert tc.1 tc.2) B ?_
      (fun tc2 h2 => hlen tc2 (List.mem_cons_of_mem _ h2))
    have hins := heightN_insert tc.1 t.root tc.2 t.nodeCount
    have hl := hlen tc (List.mem_cons_self _ _)
    show heightN (FPNode.insert tc.1 t.root tc.2 t.nodeCount).1 ≤ B
    exact Nat.le_trans hins (Nat.max_le.mpr ⟨h, hl⟩)

theorem buildTree_height (db : List (List ℕ × ℕ)) (B : ℕ)
    (hB : 1 ≤ B) (hlen : ∀ tc ∈ db, tc.1.length + 1 ≤ B) :
    heightN (buildTree db).root ≤ B := by
  refine heightN_foldl_le db FPTree.new B ?_ hlen
  show heightN (FPNode.new 0 0) ≤ B
  have : heightN (FPNode.new 0 0) = 1 := heightN_leaf 0 0 0
  omega

/-- A conditional path lives strictly inside the subtree: its length
beyond the accumulator leaves room for the item node and the root. -/
theorem condPaths_length :
    ∀ (n : FPNode) (i : ℕ) (acc : List ℕ), ∀ pc ∈ condPaths i n acc,
      ∃ q : List ℕ, pc.1 = acc ++ q ∧ q.length + 2 ≤ heightN n := by
  intro n
  induction n using FPNode.indOn with
  | _ nid nit ncnt cs ihc =>
    intro i acc pc hpc
    rw [condPaths_def] at hpc
    obtain ⟨l, hl, hpcl⟩ := List.mem_flatten.mp hpc
    obtain ⟨c, hc, rfl⟩ := List.mem_map.mp hl
    have hclt : heightN c < heightN ⟨nid, nit, ncnt, cs⟩ :=
      heightN_child_lt _ c hc
    rcases List.mem_append.mp hpcl with hdir | hrec
    · by_cases he : c.item = i
      · rw [if_pos he] at hdir
        simp only [List.mem_singleton] at hdir
        subst hdir
        refine ⟨[], by simp, ?_⟩
        have := heightN_pos c
        simp only [List.length_nil]
        omega
      · rw [if_neg he] at hdir
        cases hdir
    · obtain ⟨q, hq, hlen⟩ := ihc c hc i (acc ++ [c.item]) pc hrec
      refine ⟨c.item :: q, by rw [hq, List.append_assoc]; rfl, ?_⟩
      simp only [List.length_cons]
      omega

theorem heightN_two_of_item (n : FPNode) (i : ℕ) (hi : i ∈ nodeItems n) :
    2 ≤ heightN n := by
  rw [nodeItems_def] at hi
  obtain ⟨l, hl, hil⟩ := List.mem_flatten.mp hi
  obtain ⟨c, hc, rfl⟩ := List.mem_map.mp hl
  have h1 := heightN_child_lt n c hc
  have h2 := heightN_pos c
  omega

theorem mem_condDb (db : List (List ℕ × ℕ)) (i : ℕ) (d : List ℕ × ℕ) :
    d ∈ condDb db i ↔
      ∃ tc ∈ db, i ∈ tc.1 ∧ d = (tc.1.takeWhile (fun x => x ≠ i), tc.2) := by
  unfold condDb
  rw [List.mem_filterMap]
  constructor
  · rintro ⟨tc, htc, he⟩
    by_cases hi : i ∈ tc.1
    · rw [if_pos hi] at he
      injection he with he
      exact ⟨tc, htc, hi, he.symm⟩
    · rw [if_neg hi] at he
      cases he
  · rintro ⟨tc, htc, hi, rfl⟩
    exact ⟨tc, htc, by rw [if_pos hi]⟩

/-- Core characterization of `fp_growth` over a tree built from a
transaction multiset whose transactions are each sorted by a strict
order `r`: the returned itemsets are exactly the non-empty chains
(listed in reverse `r`-order, i.e. the fp-growth enumeration order)
whose support strictly exceeds `min_count`, each recorded with the
minimum of the incoming path count and its own support. -/
theorem fpGrowthF_buildTree (r : ℕ → ℕ → Prop) (htr : Transitive r)
    (hirr : ∀ x, ¬ r x x) :
    ∀ (fuel : ℕ) (db : List (List ℕ × ℕ)) (mc pc : ℕ) (path : List ℕ),
      heightN (buildTree db).root ≤ fuel →
      (∀ tc ∈ db, tc.1.Pairwise r) →
      mc < pc →
      ∀ S, S ∈ fpGrowthF fuel (buildTree db) mc path pc ↔
        ∃ C, C ≠ [] ∧ C.Pairwise (fun a b => r b a) ∧
          mc < dbSupport db C ∧
          S = ItemSet.new (path ++ C) (min pc (dbSupport db C)) := by
  intro fuel
  induction fuel with
  | zero =>
    intro db mc pc path hh _ _ S
    have := heightN_pos (buildTree db).root
    exact absurd hh (by omega)
  | succ fuel ih =>
    intro db mc pc path hh hsort hmcpc S
    have hnd : ∀ tc ∈ db, tc.1.Nodup := by
      intro tc htc
      refine List.Pairwise.imp ?_ (hsort tc htc)
      intro a b hr he
      subst he
      exact hirr a hr
    have hci : ∀ j : ℕ, (buildTree db).itemCount j = dbSupport db [j] :=
      fun j => itemCount_eq_support db j hnd
    have hcond : ∀ i : ℕ, i ∈ nodeItems (buildTree db).root →
        heightN (buildTree (condPaths i (buildTree db).root [])).root ≤ fuel ∧
        (∀ tc ∈ condPaths i (buildTree db).root [], tc.1.Pairwise r) := by
      intro i hitems
      have h2 := heightN_two_of_item _ i hitems
      have hfuel1 : 1 ≤ fuel := by omega
      constructor
      · refine buildTree_height _ fuel hfuel1 (fun pc2 hpc2 => ?_)
        obtain ⟨q, hq, hlen⟩ :=
          condPaths_length (buildTree db).root i [] pc2 hpc2
        have : pc2.1.length = q.length := by rw [hq]; rfl
        omega
      · intro tc2 htc2
        obtain ⟨q, hq, tc, htc, rest, hrest⟩ :=
          condPaths_mem_prefix (buildTree db).root db i []
            (nodeRep_buildTree db) tc2 htc2
        have hq2 : tc2.1 = q := by rw [hq]; rfl
        rw [hq2]
        have hp := hsort tc htc
        rw [hrest] at hp
        exact List.Pairwise.sublist (List.sublist_append_left q (i :: rest)) hp
    constructor
    · intro hS
      unfold fpGrowthF at hS
      obtain ⟨l, hl, hSl⟩ := List.mem_flatten.mp hS
      obtain ⟨i, hi, rfl⟩ := List.mem_map.mp hl
      have hifilter : i ∈ (nodeItems (buildTree db).root).dedup.filter
          (fun j => mc < (buildTree db).itemCount j) := by
        unfold sortTransaction at hi
        exact (List.perm_insertionSort _ _).mem_iff.mp hi
      have hmc_i : mc < (buildTree db).itemCount i :=
        of_decide_eq_true (List.mem_filter.mp hifilter).2
      have hitems : i ∈ nodeItems (buildTree db).root :=
        List.mem_dedup.mp (List.mem_filter.mp hifilter).1
      obtain ⟨hha, hhb⟩ := hcond i hitems
      rcases List.mem_append.mp hSl with hrec | hbase
      · unfold constructConditionalTree at hrec
        obtain ⟨C', hC'ne, hC'chain, hC'supp, hSeq⟩ :=
          (ih (condPaths i (buildTree db).root []) mc
            (min pc ((buildTree db).itemCount i)) (path ++ [i]) hha hhb
            (Nat.lt_min.mpr ⟨hmcpc, hmc_i⟩) S).mp hrec
        have hsupp2 : dbSupport (condPaths i (buildTree db).root []) C' =
            dbSupport (condDb db i) C' := condPaths_support_root db i C' hnd
        have hxC' : ∀ x ∈ C', r x i := by
          intro x hx
          have hpos : 0 < dbSupport (condDb db i) C' := by omega
          obtain ⟨d, hd, hdall, hdw⟩ := dbSupport_pos _ _ hpos
          obtain ⟨tc, htc, hitc, rfl⟩ := (mem_condDb db i d).mp hd
          exact ((takeWhile_mem_iff r htr hirr tc.1 i (hsort tc htc) hitc
            x).mp (hdall x hx)).2
        have hsupC : dbSupport db (i :: C') = dbSupport (condDb db i) C' :=
          (condDb_support r htr hirr i C' hxC' db hsort).symm
        have hle : dbSupport db (i :: C') ≤ dbSupport db [i] := by
          refine dbSupport_antitone db [i] (i :: C') (fun x hx => ?_)
          rcases List.mem_singleton.mp hx with rfl
          exact List.mem_cons_self _ _
        have e1 := hci i
        refine ⟨i :: C', List.cons_ne_nil _ _, ?_, by omega, ?_⟩
        · rw [List.pairwise_cons]
          exact ⟨fun b hb => hxC' b hb, hC'chain⟩
        · rw [hSeq]
          have hlist : (path ++ [i]) ++ C' = path ++ i :: C' := by
            rw [List.append_assoc]
            rfl
          have hcnt : min (min pc ((buildTree db).itemCount i))
              (dbSupport (condPaths i (buildTree db).root []) C') =
              min pc (dbSupport db (i :: C')) := by
            omega
          rw [hlist, hcnt]
      · simp only [List.mem_singleton] at hbase
        subst hbase
        refine ⟨[i], List.cons_ne_nil _ _, List.pairwise_singleton _ _,
          ?_, ?_⟩
        · rw [← hci i]
          exact hmc_i
        · rw [hci i]
    · rintro ⟨C, hCne, hCchain, hCsupp, rfl⟩
      cases C with
      | nil => exact absurd rfl hCne
      | cons i C' =>
        rw [List.pairwise_cons] at hCchain
        obtain ⟨hxC', hchain'⟩ := hCchain
        have hle : dbSupport db (i :: C') ≤ dbSupport db [i] := by
          refine dbSupport_antitone db [i] (i :: C') (fun x hx => ?_)
          rcases List.mem_singleton.mp hx with rfl
          exact List.mem_cons_self _ _
        have e1 := hci i
        have hmc_i : mc < (buildTree db).itemCount i := by
          omega
        have hpos : 0 < dbSupport db (i :: C') := by omega
        obtain ⟨tc, htc, hall, hw⟩ := dbSupport_pos db (i :: C') hpos
        have hitems : i ∈ nodeItems (buildTree db).root :=
          (nodeItems_mem _ db (nodeRep_buildTree db) i).mpr
            ⟨tc, htc, hall i (List.mem_cons_self _ _)⟩
        obtain ⟨hha, hhb⟩ := hcond i hitems
        have hi : i ∈ sortTransaction
            ((nodeItems (buildTree db).root).dedup.filter
              (fun j => mc < (buildTree db).itemCount j))
            ((buildTree db).itemCount) .Increasing := by
          unfold sortTransaction
          refine (List.perm_insertionSort _ _).mem_iff.mpr ?_
          refine List.mem_filter.mpr ⟨List.mem_dedup.mpr hitems, ?_⟩
          exact decide_eq_true hmc_i
        refine List.mem_flatten.mpr ⟨_, List.mem_map_of_mem _ hi, ?_⟩
        cases C' with
        | nil =>
          refine List.mem_append.mpr (Or.inr (List.mem_singleton.mpr ?_))
          rw [hci i]
        | cons j C'' =>
          refine List.mem_append.mpr (Or.inl ?_)
          have hxC2 : ∀ x ∈ j :: C'', r x i := hxC'
          have hsupp2 : dbSupport (condPaths i (buildTree db).root [])
              (j :: C'') = dbSupport (condDb db i) (j :: C'') :=
            condPaths_support_root db i _ hnd
          have hsupC : dbSupport db (i :: j :: C'') =
              dbSupport (condDb db i) (j :: C'') :=
            (condDb_support r htr hirr i (j :: C'') hxC2 db hsort).symm
          show _ ∈ fpGrowthF fuel
            (buildTree (condPaths i (buildTree db).root [])) mc
            (path ++ [i]) (min pc ((buildTree db).itemCount i))
          refine (ih (condPaths i (buildTree db).root []) mc
            (min pc ((buildTree db).itemCount i)) (path ++ [i]) hha hhb
            (Nat.lt_min.mpr ⟨hmcpc, hmc_i⟩) _).mpr ?_
          refine ⟨j :: C'', List.cons_ne_nil _ _, hchain', by omega, ?_⟩
          have hlist : (path ++ [i]) ++ j :: C'' = path ++ i :: j :: C'' := by
            rw [List.append_assoc]
            rfl
          have hcnt : min (min pc ((buildTree db).itemCount i))
              (dbSupport (condPaths i (buildTree db).root []) (j :: C'')) =
              min pc (dbSupport db (i :: j :: C'')) := by
            omega
          rw [hlist, hcnt]

/-! ### C2: the driver pipeline -/

theorem all_mem_congr (s s2 t : List ℕ) (h : ∀ x, x ∈ s ↔ x ∈ s2) :
    s.all (· ∈ t) = s2.all (· ∈ t) := by
  by_cases hp : s.all (· ∈ t) = true
  · rw [hp]
    symm
    rw [List.all_eq_true] at hp ⊢
    intro x hx
    exact hp x ((h x).mpr hx)
  · have hp2 : ¬ s2.all (· ∈ t) = true := by
      intro hq
      refine hp ?_
      rw [List.all_eq_true] at hq ⊢
      intro x hx
      exact hq x ((h x).mp hx)
    rw [Bool.not_eq_true] at hp hp2
    rw [hp, hp2]

/-- The naive transaction count only sees the query's members. -/
theorem naiveCount_congr (dataset : List (List ℕ)) (s s2 : List ℕ)
    (h : ∀ x, x ∈ s ↔ x ∈ s2) :
    naiveCount dataset s = naiveCount dataset s2 := by
  unfold naiveCount
  congr 1
  refine List.filter_congr (fun t _ => ?_)
  exact all_mem_congr s s2 t h

theorem naiveCount_le_length (dataset : List (List ℕ)) (s : List ℕ) :
    naiveCount dataset s ≤ dataset.length := by
  unfold naiveCount
  exact List.length_filter_le _ _

/-- Sorting each transaction and giving it weight one turns naive
transaction counting into multiset support. -/
theorem dbSupport_sortedMap (counter : ℕ → ℕ) :
    ∀ (dataset : List (List ℕ)) (s : List ℕ),
      dbSupport (dataset.map
        (fun t => (sortTransaction t counter .Decreasing, 1))) s =
      naiveCount dataset s := by
  intro dataset
  induction dataset with
  | nil => intro s; rfl
  | cons t ds ih =>
    intro s
    rw [List.map_cons, dbSupport_cons]
    unfold naiveCount
    rw [List.filter_cons]
    have hmemiff : ∀ x, x ∈ sortTransaction t counter .Decreasing ↔ x ∈ t :=
      fun x => (List.perm_insertionSort _ t).mem_iff
    have hcond : (s.all (· ∈ sortTransaction t counter .Decreasing)) =
        (s.all (· ∈ t)) := all_mem_congr s s _ (fun _ => Iff.rfl) ▸ by
      by_cases hp : s.all (· ∈ t) = true
      · rw [hp, List.all_eq_true]
        rw [List.all_eq_true] at hp
        intro x hx
        have := hp x hx
        rw [decide_eq_true_eq] at this ⊢
        exact (hmemiff x).mpr this
      · have hp2 : ¬ s.all (· ∈ sortTransaction t counter .Decreasing)
            = true := by
          intro hq
          refine hp ?_
          rw [List.all_eq_true] at hq ⊢
          intro x hx
          have := hq x hx
          rw [decide_eq_true_eq] at this ⊢
          exact (hmemiff x).mp this
        rw [Bool.not_eq_true] at hp hp2
        rw [hp, hp2]
    have ihs := ih s
    unfold naiveCount at ihs
    by_cases hp : s.all (· ∈ t) = true
    · have hq : s.all (· ∈ (sortTransaction t counter .Decreasing, 1).1)
          = true := by
        show s.all (· ∈ sortTransaction t counter .Decreasing) = true
        rw [hcond]
        exact hp
      rw [if_pos hq, if_pos hp, List.length_cons, ihs]
      omega
    · have hq : ¬ s.all (· ∈ (sortTransaction t counter .Decreasing, 1).1)
          = true := by
        show ¬ s.all (· ∈ sortTransaction t counter .Decreasing) = true
        rw [hcond]
        exact hp
      rw [if_neg hq, if_neg hp, ihs]
      omega

/-- The insert list built by the mining driver supports every query by
its naive dataset count. -/
theorem dbSupport_pipelineDb (dataset : List (List ℕ)) (s : List ℕ) :
    dbSupport (pipelineDb dataset) s = naiveCount dataset s :=
  dbSupport_sortedMap (datasetItemCount dataset) dataset s

/-- Each transaction the driver inserts is strictly decreasing in the
frequency-then-id order. -/
theorem pipelineDb_sorted (dataset : List (List ℕ))
    (hnd : ∀ t ∈ dataset, t.Nodup) :
    ∀ tc ∈ pipelineDb dataset, tc.1.Pairwise (fun a b =>
      datasetItemCount dataset b < datasetItemCount dataset a ∨
      (datasetItemCount dataset a = datasetItemCount dataset b ∧ b < a)) := by
  intro tc htc
  obtain ⟨t, ht, rfl⟩ := List.mem_map.mp htc
  show (sortTransaction t (datasetItemCount dataset) .Decreasing).Pairwise _
  have hsorted : (sortTransaction t (datasetItemCount dataset)
      .Decreasing).Pairwise (decLe (datasetItemCount dataset)) :=
    List.sorted_insertionSort _ t
  have hnodup : (sortTransaction t (datasetItemCount dataset)
      .Decreasing).Nodup := by
    unfold sortTransaction
    exact ((List.perm_insertionSort _ t).nodup_iff).mpr (hnd t ht)
  refine List.Pairwise.imp ?_ (List.Pairwise.and hsorted hnodup)
  intro a b hab
  obtain ⟨h1, h2⟩ := hab
  unfold decLe at h1
  omega

/-- C2: mining the FP-tree that the driver builds from a dataset of
duplicate-free transactions returns exactly the non-empty itemsets whose
naive transaction count strictly exceeds `min_count`; each is listed
with its items strictly ascending (sorted, duplicate-free) and its
`count` field equal to its dataset-wide support count (the incoming
path count `pc` is `u32::MAX` at the top-level call, modelled by any
bound of at least the dataset size). -/
theorem fp_growth_naive_counting (dataset : List (List ℕ)) (mc pc : ℕ)
    (hnd : ∀ t ∈ dataset, t.Nodup) (hmcpc : mc < pc)
    (hlen : dataset.length ≤ pc) :
    ∀ S : ItemSet,
      S ∈ fpGrowth (buildTree (pipelineDb dataset)) mc [] pc ↔
        ∃ s : List ℕ, s ≠ [] ∧ s.Pairwise (· < ·) ∧
          mc < naiveCount dataset s ∧
          S = ⟨s, naiveCount dataset s⟩ := by
  have htr : Transitive (fun a b : ℕ =>
      datasetItemCount dataset b < datasetItemCount dataset a ∨
      (datasetItemCount dataset a = datasetItemCount dataset b ∧ b < a)) := by
    intro a b c h1 h2
    omega
  have hirr : ∀ x : ℕ, ¬ (datasetItemCount dataset x < datasetItemCount dataset x ∨
      (datasetItemCount dataset x = datasetItemCount dataset x ∧ x < x)) := by
    intro x h
    omega
  have hchar := fpGrowthF_buildTree _ htr hirr
    (heightN (buildTree (pipelineDb dataset)).root) (pipelineDb dataset)
    mc pc [] (Nat.le_refl _) (pipelineDb_sorted dataset hnd) hmcpc
  intro S
  constructor
  · intro hS
    obtain ⟨C, hCne, hCchain, hCsupp, hSeq⟩ := (hchar S).mp hS
    have hCnodup : C.Nodup := by
      refine List.Pairwise.imp ?_ hCchain
      intro a b hab he
      subst he
      exact hirr a hab
    refine ⟨C.insertionSort (· ≤ ·), ?_, ?_, ?_, ?_⟩
    · intro he
      have := List.Perm.length_eq (List.perm_insertionSort (· ≤ ·) C)
      rw [he] at this
      exact hCne (List.eq_nil_of_length_eq_zero this.symm)
    · have hle : (C.insertionSort (· ≤ ·)).Pairwise (· ≤ ·) :=
        List.sorted_insertionSort _ C
      have hne : (C.insertionSort (· ≤ ·)).Nodup :=
        ((List.perm_insertionSort _ C).nodup_iff).mpr hCnodup
      refine List.Pairwise.imp ?_ (List.Pairwise.and hle hne)
      intro a b hab
      exact Nat.lt_of_le_of_ne hab.1 hab.2
    · have hnaive : naiveCount dataset (C.insertionSort (· ≤ ·)) =
          naiveCount dataset C :=
        naiveCount_congr dataset _ _
          (fun x => (List.perm_insertionSort _ C).mem_iff)
      rw [hnaive, ← dbSupport_pipelineDb]
      exact hCsupp
    · have hnaive : naiveCount dataset (C.insertionSort (· ≤ ·)) =
          naiveCount dataset C :=
        naiveCount_congr dataset _ _
          (fun x => (List.perm_insertionSort _ C).mem_iff)
      have hsup := dbSupport_pipelineDb dataset C
      have hub := naiveCount_le_length dataset C
      have hcount : min pc (dbSupport (pipelineDb dataset) C) =
          naiveCount dataset (C.insertionSort (· ≤ ·)) := by
        omega
      rw [hSeq, hcount]
      rfl
  · rintro ⟨s, hsne, hslt, hsmc, rfl⟩
    have hsnodup : s.Nodup := by
      refine List.Pairwise.imp ?_ hslt
      intro a b hab
      omega
    have hCperm : List.Perm
        (s.insertionSort (incLe (datasetItemCount dataset))) s :=
      List.perm_insertionSort _ s
    have hCsorted : (s.insertionSort (incLe (datasetItemCount dataset))).Pairwise
        (incLe (datasetItemCount dataset)) := List.sorted_insertionSort _ s
    have hCnodup : (s.insertionSort (incLe (datasetItemCount dataset))).Nodup :=
      hCperm.nodup_iff.mpr hsnodup
    have hCchain : (s.insertionSort (incLe (datasetItemCount dataset))).Pairwise
        (fun a b =>
          datasetItemCount dataset a < datasetItemCount dataset b ∨
          (datasetItemCount dataset b = datasetItemCount dataset a ∧ a < b))
        := by
      refine List.Pairwise.imp ?_ (List.Pairwise.and hCsorted hCnodup)
      intro a b hab
      obtain ⟨h1, h2⟩ := hab
      unfold incLe at h1
      omega
    have hsup : dbSupport (pipelineDb dataset)
        (s.insertionSort (incLe (datasetItemCount dataset))) =
        naiveCount dataset s := by
      rw [dbSupport_pipelineDb]
      exact naiveCount_congr dataset _ s (fun x => hCperm.mem_iff)
    refine (hchar _).mpr
      ⟨s.insertionSort (incLe (datasetItemCount dataset)), ?_, ?_, ?_, ?_⟩
    · intro he
      have hl2 := hCperm.length_eq
      rw [he] at hl2
      exact hsne (List.eq_nil_of_length_eq_zero hl2.symm)
    · exact hCchain
    · rw [hsup]
      exact hsmc
    · have hub := naiveCount_le_length dataset s
      have hcount : min pc (dbSupport (pipelineDb dataset)
          (s.insertionSort (incLe (datasetItemCount dataset)))) =
          naiveCount dataset s := by
        omega
      rw [List.nil_append, hcount]
      have hit : (s.insertionSort
          (incLe (datasetItemCount dataset))).insertionSort
          (fun a b => a ≤ b) = s := by
        have hs1 : List.Sorted (fun a b : ℕ => a ≤ b)
            ((s.insertionSort
              (incLe (datasetItemCount dataset))).insertionSort
              (fun a b => a ≤ b)) := List.sorted_insertionSort _ _
        have hs2 : List.Sorted (fun a b : ℕ => a ≤ b) s :=
          List.Pairwise.imp (fun h => Nat.le_of_lt h) hslt
        exact List.eq_of_perm_of_sorted
          ((List.perm_insertionSort _ _).trans hCperm) hs1 hs2
      show (⟨s, naiveCount dataset s⟩ : ItemSet) =
        (⟨(s.insertionSort
            (incLe (datasetItemCount dataset))).insertionSort
          (fun a b => a ≤ b), naiveCount dataset s⟩ : ItemSet)
      rw [hit]

/-- C2 witness: the two-transaction dataset `[[1, 2], [1]]` with
`min_count = 0` and path count 2. -/
theorem fp_growth_naive_counting_witness :
    (∀ t ∈ ([[1, 2], [1]] : List (List ℕ)), t.Nodup) ∧ (0 : ℕ) < 2 ∧
    ([[1, 2], [1]] : List (List ℕ)).length ≤ 2 ∧
    (∀ S : ItemSet,
      S ∈ fpGrowth (buildTree (pipelineDb [[1, 2], [1]])) 0 [] 2 ↔
        ∃ s : List ℕ, s ≠ [] ∧ s.Pairwise (· < ·) ∧
          0 < naiveCount [[1, 2], [1]] s ∧
          S = ⟨s, naiveCount [[1, 2], [1]] s⟩) :=
  ⟨by decide, by decide, by decide,
    fp_growth_naive_counting [[1, 2], [1]] 0 2 (by decide) (by decide)
      (by decide)⟩

/-! ### C1: ordered-list toolkit -/

/-- A strictly sorted list of members of a strictly sorted list is a
sublist of it. -/
theorem sublist_of_sorted_subset :
    ∀ (I D : List ℕ), I.Pairwise (· < ·) → D.Pairwise (· < ·) →
      (∀ x ∈ D, x ∈ I) → D.Sublist I := by
  intro I
  induction I with
  | nil =>
    intro D _ _ hmem
    cases D with
    | nil => exact List.Sublist.refl _
    | cons d D => cases hmem d (List.mem_cons_self _ _)
  | cons a I ih =>
    intro D hI hD hmem
    rw [List.pairwise_cons] at hI
    cases D with
    | nil => exact List.nil_sublist _
    | cons d D =>
      rw [List.pairwise_cons] at hD
      by_cases hda : d = a
      · subst hda
        refine List.Sublist.cons₂ d (ih D hI.2 hD.2 ?_)
        intro x hx
        have hmx := hmem x (List.mem_cons_of_mem _ hx)
        rcases List.mem_cons.mp hmx with rfl | hmx
        · exact absurd (hD.1 x hx) (lt_irrefl x)
        · exact hmx
      · have hdI : d ∈ I := by
          rcases List.mem_cons.mp (hmem d (List.mem_cons_self _ _)) with e | h
          · exact absurd e hda
          · exact h
        have had : a < d := hI.1 d hdI
        refine List.Sublist.cons a (ih (d :: D) hI.2 (List.pairwise_cons.mpr hD) ?_)
        intro x hx
        rcases List.mem_cons.mp hx with rfl | hx2
        · exact hdI
        · have hdx : d < x := hD.1 x hx2
          rcases List.mem_cons.mp (hmem x hx) with rfl | hmx
          · exact absurd (lt_trans had hdx) (lt_irrefl x)
          · exact hmx

/-- A duplicate-free proper subset leaves some element out. -/
theorem filter_not_mem_ne_nil (I C : List ℕ) (hI : I.Nodup)
    (hlen : C.length < I.length) :
    I.filter (fun x => x ∉ C) ≠ [] := by
  intro he
  rw [List.filter_eq_nil_iff] at he
  have hsub : I ⊆ C := by
    intro x hx
    have := he x hx
    simp only [decide_eq_true_eq, not_not] at this
    exact this
  have := (hI.subperm hsub).length_le
  omega

theorem cons_lt_cons_iff (a : ℕ) (l l' : List ℕ) :
    (a :: l) < (a :: l') ↔ l < l' := by
  constructor
  · intro h
    exact (List.Lex.cons_iff).mp h
  · exact fun h => List.Lex.cons h

theorem head_le_of_cons_le (a b : ℕ) (l l' : List ℕ)
    (h : (a :: l) ≤ (b :: l')) : a ≤ b := by
  by_contra hba
  rw [not_le] at hba
  exact absurd (List.Lex.rel hba : (b :: l') < (a :: l)) (not_lt.mpr h)

theorem cons_le_cons_iff (a : ℕ) (l l' : List ℕ) :
    (a :: l) ≤ (a :: l') ↔ l ≤ l' := by
  rw [← not_lt, ← not_lt, not_iff_not]
  exact cons_lt_cons_iff a l' l

/-- Lexicographic interval: an equal-length list between two lists that
share all but their last element also shares that prefix. -/
theorem lex_interval :
    ∀ (p : List ℕ) (x y : ℕ) (v : List ℕ),
      p ++ [x] ≤ v → v ≤ p ++ [y] → v.length = p.length + 1 →
      ∃ z, v = p ++ [z] := by
  intro p
  induction p with
  | nil =>
    intro x y v _ _ hlen
    cases v with
    | nil => cases hlen
    | cons z v2 =>
      cases v2 with
      | nil => exact ⟨z, rfl⟩
      | cons w v3 => simp at hlen
  | cons a p ih =>
    intro x y v h1 h2 hlen
    cases v with
    | nil => cases hlen
    | cons b v2 =>
      have hab : a ≤ b := head_le_of_cons_le a b (p ++ [x]) v2 h1
      have hba : b ≤ a := head_le_of_cons_le b a v2 (p ++ [y]) h2
      have : b = a := le_antisymm hba hab
      subst this
      rw [List.cons_append] at h1 h2
      rw [cons_le_cons_iff] at h1 h2
      simp only [List.length_cons] at hlen
      obtain ⟨z, hz⟩ := ih x y v2 h1 h2 (by omega)
      exact ⟨z, by rw [hz]; rfl⟩

theorem append_singleton_lt_iff (p : List ℕ) (x y : ℕ) :
    p ++ [x] < p ++ [y] ↔ x < y := by
  constructor
  · intro h
    induction p with
    | nil =>
      exact (List.Lex.singleton_iff x y).mp h
    | cons a p ih =>
      exact ih ((cons_lt_cons_iff a _ _).mp h)
  · intro h
    exact List.Lex.append_left _ ((List.Lex.singleton_iff x y).mpr h) p

theorem exists_append_two :
    ∀ (C : List ℕ), 2 ≤ C.length → ∃ p x y, C = p ++ [x, y] := by
  intro C
  induction C with
  | nil => intro h; cases h
  | cons a C ih =>
    intro h
    cases C with
    | nil => simp at h
    | cons b C2 =>
      cases C2 with
      | nil => exact ⟨[], a, b, rfl⟩
      | cons c C3 =>
        obtain ⟨p, x, y, hp⟩ := ih (by simp)
        exact ⟨a :: p, x, y, by rw [List.cons_append, ← hp]⟩

theorem prefxMatchLen_go_append (p : List ℕ) (x y : ℕ) (hxy : x ≠ y) :
    prefxMatchLen.go (p ++ [x]) (p ++ [y]) = p.length := by
  induction p with
  | nil =>
    show prefxMatchLen.go [x] [y] = 0
    unfold prefxMatchLen.go
    rw [if_neg hxy]
  | cons a p ih =>
    show prefxMatchLen.go (a :: (p ++ [x])) (a :: (p ++ [y])) = p.length + 1
    unfold prefxMatchLen.go
    rw [if_pos rfl, ih]

theorem prefxMatchLen_append (p : List ℕ) (x y : ℕ) (hxy : x ≠ y) :
    prefxMatchLen (p ++ [x]) (p ++ [y]) = some p.length := by
  unfold prefxMatchLen
  rw [if_pos (by simp), prefxMatchLen_go_append p x y hxy]

/-- A full-but-one prefix match decomposes both lists over a shared
prefix with distinct last elements. -/
theorem prefxMatchLen_go_decomp :
    ∀ (c1 c2 : List ℕ), c1.length = c2.length →
      prefxMatchLen.go c1 c2 + 1 = c1.length →
      ∃ p x y, c1 = p ++ [x] ∧ c2 = p ++ [y] ∧ x ≠ y := by
  intro c1
  induction c1 with
  | nil => intro c2 _ h; cases h
  | cons a c1 ih =>
    intro c2 hlen hgo
    cases c2 with
    | nil => cases hlen
    | cons b c2 =>
      simp only [List.length_cons, Nat.add_right_cancel_iff] at hlen
      by_cases hab : a = b
      · subst hab
        have hgo2 : prefxMatchLen.go c1 c2 + 1 = c1.length := by
          unfold prefxMatchLen.go at hgo
          rw [if_pos rfl] at hgo
          simp only [List.length_cons] at hgo
          omega
        obtain ⟨p, x, y, h1, h2, hxy⟩ := ih c2 hlen hgo2
        exact ⟨a :: p, x, y, by rw [h1]; rfl, by rw [h2]; rfl, hxy⟩
      · unfold prefxMatchLen.go at hgo
        rw [if_neg hab] at hgo
        simp only [List.length_cons] at hgo
        have : c1.length = 0 := by omega
        have hc1 : c1 = [] := List.eq_nil_of_length_eq_zero this
        have hc2 : c2 = [] := List.eq_nil_of_length_eq_zero (by omega)
        subst hc1
        subst hc2
        exact ⟨[], a, b, rfl, rfl, hab⟩

/-- Merging two sorted sets that share all but their last element. -/
theorem union_shared (p : List ℕ) (x y : ℕ) (hxy : x < y) :
    union (p ++ [x]) (p ++ [y]) = p ++ [x, y] := by
  induction p with
  | nil =>
    show union [x] [y] = [x, y]
    simp only [union]
    rw [if_pos hxy]
  | cons a p ih =>
    show union (a :: (p ++ [x])) (a :: (p ++ [y])) = a :: (p ++ [x, y])
    simp only [union]
    rw [if_neg (lt_irrefl a), if_neg (lt_irrefl a), ih]

/-! ### C1: rule statistics -/

theorem stats_some (support : ℚ) (A C : List ℕ) (sup : List ℕ → Option ℚ)
    (va vc : ℚ) (ha : sup A = some va) (hc : sup C = some vc) :
    stats support A C sup = some (support / va, support / (va * vc)) := by
  unfold stats
  rw [ha, hc]

theorem anteOf_sublist (I C : List ℕ) : (anteOf I C).Sublist I :=
  List.filter_sublist I

theorem anteOf_ne_nil (I C : List ℕ) (hI : I.Nodup)
    (hlen : C.length < I.length) : anteOf I C ≠ [] :=
  filter_not_mem_ne_nil I C hI hlen

theorem anteOf_anti (I C C2 : List ℕ) (hsub : C2.Sublist C) :
    (anteOf I C).Sublist (anteOf I C2) := by
  refine List.monotone_filter_right I (fun a ha => ?_)
  simp only [decide_eq_true_eq] at ha ⊢
  intro hmem
  exact ha (hsub.subset hmem)

/-- Totality of `stats` on a proper non-empty consequent of a sorted
itemset, and the value it computes. -/
theorem stats_total (I : List ℕ) (support : ℚ) (sup : List ℕ → Option ℚ)
    (hg : GoodTable I sup) (hI : I.Pairwise (· < ·)) (C : List ℕ)
    (hC : C.Sublist I) (hne : C ≠ []) (hlen : C.length < I.length) :
    ∃ va vc : ℚ, sup (anteOf I C) = some va ∧ sup C = some vc ∧
      stats support (anteOf I C) C sup =
        some (support / va, support / (va * vc)) ∧
      confOf I support sup C = (support / va, support / (va * vc)) ∧
      0 < va ∧ 0 < vc := by
  have hInd : I.Nodup := by
    refine List.Pairwise.imp ?_ hI
    intro a b h
    omega
  have hA := hg.1 (anteOf I C) (anteOf_sublist I C) (anteOf_ne_nil I C hInd hlen)
  have hCs := hg.1 C hC hne
  obtain ⟨va, hva⟩ := Option.isSome_iff_exists.mp hA
  obtain ⟨vc, hvc⟩ := Option.isSome_iff_exists.mp hCs
  have hst := stats_some support (anteOf I C) C sup va vc hva hvc
  refine ⟨va, vc, hva, hvc, hst, ?_, ?_, ?_⟩
  · unfold confOf
    rw [hst]
    rfl
  · exact hg.2.1 (anteOf I C) va (anteOf_sublist I C) hva
  · exact hg.2.1 C vc hC hvc

/-- Confidence is antitone in the consequent: enlarging the consequent
(shrinking the antecedent) cannot raise the confidence. -/
theorem confOf_anti (I : List ℕ) (support : ℚ) (sup : List ℕ → Option ℚ)
    (hg : GoodTable I sup) (hI : I.Pairwise (· < ·)) (hsup : 0 ≤ support)
    (C C2 : List ℕ) (hsub : C2.Sublist C) (hne2 : C2 ≠ [])
    (hC : C.Sublist I) (hlen : C.length < I.length) :
    (confOf I support sup C).1 ≤ (confOf I support sup C2).1 := by
  have hne : C ≠ [] := by
    intro he
    subst he
    exact hne2 (List.sublist_nil.mp hsub)
  have hlen2 : C2.length < I.length :=
    lt_of_le_of_lt hsub.length_le hlen
  obtain ⟨va, vc, hva, hvc, _, hconf, hvapos, _⟩ :=
    stats_total I support sup hg hI C hC hne hlen
  obtain ⟨va2, vc2, hva2, hvc2, _, hconf2, hva2pos, _⟩ :=
    stats_total I support sup hg hI C2 (hsub.trans hC) hne2 hlen2
  rw [hconf, hconf2]
  have hle : va2 ≤ va :=
    hg.2.2 (anteOf I C) (anteOf I C2) va va2 (anteOf_anti I C C2 hsub)
      (anteOf_sublist I C2)
      (anteOf_ne_nil I C (by
        refine List.Pairwise.imp ?_ hI
        intro a b h
        omega) hlen)
      hva hva2
  exact div_le_div_of_nonneg_left hsup hva2pos hle

/-- Decomposition of the merge of two prefix-sharing candidates. -/
theorem union_share_decomp (c1 c2 : List ℕ) (h1 : c1 ≠ []) (h2 : c2 ≠ [])
    (hshare : c2.dropLast = c1.dropLast) (hlt : c1 < c2) :
    union c1 c2 = c1.dropLast ++ [c1.getLast h1, c2.getLast h2] ∧
    (union c1 c2).dropLast = c1 := by
  have hc1d : c1 = c1.dropLast ++ [c1.getLast h1] :=
    (List.dropLast_append_getLast h1).symm
  have hc2d : c2 = c2.dropLast ++ [c2.getLast h2] :=
    (List.dropLast_append_getLast h2).symm
  have hxy : c1.getLast h1 < c2.getLast h2 := by
    refine (append_singleton_lt_iff c1.dropLast _ _).mp ?_
    have h := hlt
    rw [hc1d, hc2d, hshare] at h
    exact h
  have hu : union c1 c2 =
      c1.dropLast ++ [c1.getLast h1, c2.getLast h2] := by
    conv_lhs => rw [hc1d, hc2d, hshare]
    exact union_shared _ _ _ hxy
  refine ⟨hu, ?_⟩
  rw [hu]
  have : c1.dropLast ++ [c1.getLast h1, c2.getLast h2] =
      (c1.dropLast ++ [c1.getLast h1]) ++ [c2.getLast h2] := by
    rw [List.append_assoc]
    rfl
  rw [this, List.dropLast_concat, ← hc1d]

/-- The merge determines its second argument among the prefix-sharing
candidates above `c1`. -/
theorem union_share_inj (c1 c2 c3 : List ℕ) (h1 : c1 ≠ []) (h2 : c2 ≠ [])
    (h3 : c3 ≠ []) (hs2 : c2.dropLast = c1.dropLast)
    (hs3 : c3.dropLast = c1.dropLast) (hlt2 : c1 < c2) (hlt3 : c1 < c3)
    (he : union c1 c2 = union c1 c3) : c2 = c3 := by
  have hd2 := union_share_decomp c1 c2 h1 h2 hs2 hlt2
  have hd3 := union_share_decomp c1 c3 h1 h3 hs3 hlt3
  rw [hd2.1, hd3.1] at he
  have he2 := List.append_cancel_left he
  simp only [List.cons.injEq, and_true] at he2
  have hlast : c2.getLast h2 = c3.getLast h3 := he2.2
  have hc2d : c2 = c2.dropLast ++ [c2.getLast h2] :=
    (List.dropLast_append_getLast h2).symm
  have hc3d : c3 = c3.dropLast ++ [c3.getLast h3] :=
    (List.dropLast_append_getLast h3).symm
  rw [hc2d, hc3d, hs2, hs3, hlast]

/-- Characterization of the inner candidate-pair loop: it emits exactly
the merges of `c1` with the later candidates sharing its size-(m-1)
prefix, despite stopping at the first non-sharing candidate. -/
theorem innerPairs_eq (I : List ℕ) (support : ℚ) (sup : List ℕ → Option ℚ)
    (mc ml : ℚ) (m : ℕ) (hg : GoodTable I sup) (hI : I.Pairwise (· < ·))
    (hm : 1 ≤ m) (hmk : m + 1 < I.length) :
    ∀ (rest : List (List ℕ)) (c1 : List ℕ),
      c1.Sublist I → c1.length = m →
      (∀ c ∈ rest, c.Sublist I ∧ c.length = m) →
      (∀ c ∈ rest, c1 < c) →
      rest.Pairwise (· < ·) →
      ∃ out1 gen1,
        innerPairs I support sup mc ml m c1 rest = some (out1, gen1) ∧
        (∀ D, D ∈ gen1 ↔ ∃ c2 ∈ rest, c2.dropLast = c1.dropLast ∧
          D = union c1 c2 ∧
          ¬ (confOf I support sup (union c1 c2)).1 < mc) ∧
        (∀ r, r ∈ out1 ↔ ∃ c2 ∈ rest, c2.dropLast = c1.dropLast ∧
          ¬ (confOf I support sup (union c1 c2)).1 < mc ∧
          ml ≤ (confOf I support sup (union c1 c2)).2 ∧
          r = ruleOf I support sup (union c1 c2)) ∧
        gen1.Nodup ∧ (∀ D ∈ gen1, D.dropLast = c1) := by
  intro rest
  induction rest with
  | nil =>
    intro c1 _ _ _ _ _
    refine ⟨[], [], rfl, ?_, ?_, List.nodup_nil, ?_⟩
    · intro D
      simp
    · intro r
      simp
    · intro D hD
      cases hD
  | cons c2 rest ih =>
    intro c1 hc1I hc1len hsub hlt hpw
    have hc2 := hsub c2 (List.mem_cons_self _ _)
    have hlt2 := hlt c2 (List.mem_cons_self _ _)
    rw [List.pairwise_cons] at hpw
    have hc1ne : c1 ≠ [] := by
      intro he
      rw [he] at hc1len
      simp at hc1len
      omega
    have hc2ne : c2 ≠ [] := by
      intro he
      rw [he] at hc2
      simp at hc2
      omega
    have hc1d : c1 = c1.dropLast ++ [c1.getLast hc1ne] :=
      (List.dropLast_append_getLast hc1ne).symm
    have hc2d : c2 = c2.dropLast ++ [c2.getLast hc2ne] :=
      (List.dropLast_append_getLast hc2ne).symm
    have hpm : prefxMatchLen c1 c2 = some (prefxMatchLen.go c1 c2) := by
      unfold prefxMatchLen
      rw [if_pos (by rw [hc1len, hc2.2])]
    have hdl : c1.dropLast.length = m - 1 := by
      rw [hc1d] at hc1len
      simp only [List.length_append, List.length_singleton] at hc1len
      omega
    by_cases hshare : c2.dropLast = c1.dropLast
    · -- the head candidate shares the prefix: a merge is tested
      have hxy : c1.getLast hc1ne ≠ c2.getLast hc2ne := by
        intro he
        have : c1 = c2 := by
          rw [hc1d, hc2d, hshare, he]
        rw [this] at hlt2
        exact lt_irrefl _ hlt2
      have hgo : prefxMatchLen c1 c2 = some (c1.dropLast.length) := by
        conv_lhs => rw [hc1d, hc2d, hshare]
        exact prefxMatchLen_append _ _ _ hxy
      have hxlty : c1.getLast hc1ne < c2.getLast hc2ne := by
        refine (append_singleton_lt_iff c1.dropLast _ _).mp ?_
        have h2 := hlt2
        rw [hc1d, hc2d, hshare] at h2
        exact h2
      have hunion : union c1 c2 =
          c1.dropLast ++ [c1.getLast hc1ne, c2.getLast hc2ne] := by
        conv_lhs => rw [hc1d, hc2d, hshare]
        exact union_shared _ _ _ hxlty
      -- the merged consequent is a proper sorted subset of the itemset
      have hc1pw : c1.Pairwise (· < ·) := List.Pairwise.sublist hc1I hI
      have hc2pw : c2.Pairwise (· < ·) := List.Pairwise.sublist hc2.1 hI
      have hDpw : (union c1 c2).Pairwise (· < ·) := by
        rw [hunion]
        rw [List.pairwise_append]
        refine ⟨?_, ?_, ?_⟩
        · have := hc1pw
          rw [hc1d, List.pairwise_append] at this
          exact this.1
        · refine List.pairwise_cons.mpr ⟨?_, List.pairwise_singleton _ _⟩
          intro b hb
          rw [List.mem_singleton] at hb
          subst hb
          exact hxlty
        · intro a ha b hb
          rcases List.mem_cons.mp hb with rfl | hb
          · have := hc1pw
            rw [hc1d, List.pairwise_append] at this
            exact this.2.2 a ha _ (List.mem_singleton.mpr rfl)
          · simp only [List.mem_singleton] at hb
            subst hb
            have := hc2pw
            rw [hc2d, List.pairwise_append, hshare] at this
            exact this.2.2 a ha _ (List.mem_singleton.mpr rfl)
      have hDmem : ∀ x ∈ union c1 c2, x ∈ I := by
        intro x hx
        rw [hunion] at hx
        rcases List.mem_append.mp hx with hx | hx
        · exact hc1I.subset ((List.dropLast_sublist c1).subset hx)
        · rcases List.mem_cons.mp hx with rfl | hx
          · exact hc1I.subset (List.getLast_mem hc1ne)
          · simp only [List.mem_singleton] at hx
            subst hx
            exact hc2.1.subset (List.getLast_mem hc2ne)
      have hDsub : (union c1 c2).Sublist I :=
        sublist_of_sorted_subset I _ hI hDpw hDmem
      have hDlen : (union c1 c2).length = m + 1 := by
        rw [hunion]
        simp only [List.length_append, List.length_cons, List.length_nil]
        omega
      have hDne : union c1 c2 ≠ [] := by
        intro he
        rw [he] at hDlen
        simp at hDlen
      have hsplit : splitOut I (union c1 c2) = some (anteOf I (union c1 c2)) := by
        unfold splitOut anteOf
        rw [if_pos ?_]
        rw [List.all_eq_true]
        intro x hx
        rw [decide_eq_true_eq]
        exact hDmem x hx
      obtain ⟨va, vc, hva, hvc, hstats, hconf, hvap, hvcp⟩ :=
        stats_total I support sup hg hI (union c1 c2) hDsub hDne (by omega)
      obtain ⟨out2, gen2, hrec, hgen2, hout2, hnd2, hdrop2⟩ := ih c1 hc1I hc1len
        (fun c hc => hsub c (List.mem_cons_of_mem _ hc))
        (fun c hc => hlt c (List.mem_cons_of_mem _ hc)) hpw.2
      have heval : innerPairs I support sup mc ml m c1 (c2 :: rest) =
          (if (support / va) < mc then some (out2, gen2)
           else if ml ≤ support / (va * vc) then
             some (ruleOf I support sup (union c1 c2) :: out2,
               union c1 c2 :: gen2)
           else some (out2, union c1 c2 :: gen2)) := by
        unfold innerPairs
        simp only [hgo]
        rw [if_neg (by
          simp only [ne_eq, not_not]
          exact hdl)]
        simp only [hsplit, hstats, hrec]
        have hrule : ruleOf I support sup (union c1 c2) =
            ⟨anteOf I (union c1 c2), union c1 c2, support / va,
              support / (va * vc), support⟩ := by
          unfold ruleOf
          rw [hconf]
        rw [hrule]
      have hcl1 : (confOf I support sup (union c1 c2)).1 = support / va := by
        rw [hconf]
      have hcl2 : (confOf I support sup (union c1 c2)).2 =
          support / (va * vc) := by
        rw [hconf]
      have hnotmem : union c1 c2 ∉ gen2 := by
        intro hmem
        obtain ⟨c3, hc3, hs3, he3, -⟩ := (hgen2 _).mp hmem
        have hc3f := hsub c3 (List.mem_cons_of_mem _ hc3)
        have hc3ne : c3 ≠ [] := by
          intro he
          rw [he] at hc3f
          simp at hc3f
          omega
        have he23 := union_share_inj c1 c2 c3 hc1ne hc2ne hc3ne hshare hs3
          hlt2 (hlt c3 (List.mem_cons_of_mem _ hc3)) he3
        have h23 := hpw.1 c3 hc3
        rw [he23] at h23
        exact lt_irrefl c3 h23
      have hdropnew : (union c1 c2).dropLast = c1 :=
        (union_share_decomp c1 c2 hc1ne hc2ne hshare hlt2).2
      by_cases hc : support / va < mc
      · rw [if_pos hc] at heval
        refine ⟨out2, gen2, heval, ?_, ?_, hnd2, hdrop2⟩
        · intro D
          rw [hgen2 D]
          constructor
          · rintro ⟨c3, hc3, h1, h2, h3⟩
            exact ⟨c3, List.mem_cons_of_mem _ hc3, h1, h2, h3⟩
          · rintro ⟨c3, hc3, h1, h2, h3⟩
            rcases List.mem_cons.mp hc3 with rfl | hc3
            · rw [hcl1] at h3
              exact absurd hc h3
            · exact ⟨c3, hc3, h1, h2, h3⟩
        · intro r
          rw [hout2 r]
          constructor
          · rintro ⟨c3, hc3, h1, h2, h3, h4⟩
            exact ⟨c3, List.mem_cons_of_mem _ hc3, h1, h2, h3, h4⟩
          · rintro ⟨c3, hc3, h1, h2, h3, h4⟩
            rcases List.mem_cons.mp hc3 with rfl | hc3
            · rw [hcl1] at h2
              exact absurd hc h2
            · exact ⟨c3, hc3, h1, h2, h3, h4⟩
      · rw [if_neg hc] at heval
        by_cases hl : ml ≤ support / (va * vc)
        · rw [if_pos hl] at heval
          refine ⟨_, _, heval, ?_, ?_, List.nodup_cons.mpr ⟨hnotmem, hnd2⟩, ?_⟩
          · intro D
            constructor
            · intro hD
              rcases List.mem_cons.mp hD with rfl | hD
              · exact ⟨c2, List.mem_cons_self _ _, hshare, rfl,
                  by rw [hcl1]; exact hc⟩
              · obtain ⟨c3, hc3, h1, h2, h3⟩ := (hgen2 D).mp hD
                exact ⟨c3, List.mem_cons_of_mem _ hc3, h1, h2, h3⟩
            · rintro ⟨c3, hc3, h1, h2, h3⟩
              rcases List.mem_cons.mp hc3 with rfl | hc3
              · rw [h2]
                exact List.mem_cons_self _ _
              · exact List.mem_cons_of_mem _
                  ((hgen2 D).mpr ⟨c3, hc3, h1, h2, h3⟩)
          · intro r
            constructor
            · intro hr
              rcases List.mem_cons.mp hr with rfl | hr
              · exact ⟨c2, List.mem_cons_self _ _, hshare,
                  by rw [hcl1]; exact hc, by rw [hcl2]; exact hl, rfl⟩
              · obtain ⟨c3, hc3, h1, h2, h3, h4⟩ := (hout2 r).mp hr
                exact ⟨c3, List.mem_cons_of_mem _ hc3, h1, h2, h3, h4⟩
            · rintro ⟨c3, hc3, h1, h2, h3, h4⟩
              rcases List.mem_cons.mp hc3 with rfl | hc3
              · rw [h4]
                exact List.mem_cons_self _ _
              · exact List.mem_cons_of_mem _
                  ((hout2 r).mpr ⟨c3, hc3, h1, h2, h3, h4⟩)
          · intro D hD
            rcases List.mem_cons.mp hD with rfl | hD
            · exact hdropnew
            · exact hdrop2 D hD
        · rw [if_neg hl] at heval
          refine ⟨_, _, heval, ?_, ?_, List.nodup_cons.mpr ⟨hnotmem, hnd2⟩, ?_⟩
          · intro D
            constructor
            · intro hD
              rcases List.mem_cons.mp hD with rfl | hD
              · exact ⟨c2, List.mem_cons_self _ _, hshare, rfl,
                  by rw [hcl1]; exact hc⟩
              · obtain ⟨c3, hc3, h1, h2, h3⟩ := (hgen2 D).mp hD
                exact ⟨c3, List.mem_cons_of_mem _ hc3, h1, h2, h3⟩
            · rintro ⟨c3, hc3, h1, h2, h3⟩
              rcases List.mem_cons.mp hc3 with rfl | hc3
              · rw [h2]
                exact List.mem_cons_self _ _
              · exact List.mem_cons_of_mem _
                  ((hgen2 D).mpr ⟨c3, hc3, h1, h2, h3⟩)
          · intro r
            rw [hout2 r]
            constructor
            · rintro ⟨c3, hc3, h1, h2, h3, h4⟩
              exact ⟨c3, List.mem_cons_of_mem _ hc3, h1, h2, h3, h4⟩
            · rintro ⟨c3, hc3, h1, h2, h3, h4⟩
              rcases List.mem_cons.mp hc3 with rfl | hc3
              · rw [hcl2] at h3
                exact absurd h3 hl
              · exact ⟨c3, hc3, h1, h2, h3, h4⟩
          · intro D hD
            rcases List.mem_cons.mp hD with rfl | hD
            · exact hdropnew
            · exact hdrop2 D hD
    · -- the head candidate does not share the prefix: the scan stops,
      -- and no later candidate can share it either
      have hnoshare : ∀ c3 ∈ c2 :: rest, ¬ c3.dropLast = c1.dropLast := by
        intro c3 hc3 hs3
        rcases List.mem_cons.mp hc3 with rfl | hc3
        · exact hshare hs3
        · have hc3f := hsub c3 (List.mem_cons_of_mem _ hc3)
          have hc3ne : c3 ≠ [] := by
            intro he
            rw [he] at hc3f
            simp at hc3f
            omega
          have hc3d : c3 = c3.dropLast ++ [c3.getLast hc3ne] :=
            (List.dropLast_append_getLast hc3ne).symm
          have hle1 : c1.dropLast ++ [c1.getLast hc1ne] ≤ c2 := by
            rw [← hc1d]
            exact hlt2.le
          have hle2 : c2 ≤ c1.dropLast ++ [c3.getLast hc3ne] := by
            have h := (hpw.1 c3 hc3).le
            rw [hc3d, hs3] at h
            exact h
          have hlen2 : c2.length = c1.dropLast.length + 1 := by
            rw [hc2.2, hdl]
            omega
          obtain ⟨z, hz⟩ := lex_interval _ _ _ c2 hle1 hle2 hlen2
          exact hshare (by rw [hz, List.dropLast_concat])
      have hl2 : prefxMatchLen.go c1 c2 ≠ m - 1 := by
        intro he
        have hd := prefxMatchLen_go_decomp c1 c2 (by rw [hc1len, hc2.2])
          (by rw [he, hc1len]; omega)
        obtain ⟨p, x, y, h1, h2, _⟩ := hd
        refine hshare ?_
        rw [h1, h2, List.dropLast_concat, List.dropLast_concat]
      have heval : innerPairs I support sup mc ml m c1 (c2 :: rest) =
          some ([], []) := by
        unfold innerPairs
        simp only [hpm]
        rw [if_pos hl2]
      refine ⟨[], [], heval, ?_, ?_, List.nodup_nil, ?_⟩
      · intro D
        simp only [List.not_mem_nil, false_iff]
        rintro ⟨c3, hc3, h1, _, _⟩
        exact hnoshare c3 hc3 h1
      · intro r
        simp only [List.not_mem_nil, false_iff]
        rintro ⟨c3, hc3, h1, _, _, _⟩
        exact hnoshare c3 hc3 h1
      · intro D hD
        cases hD

/-- Characterization of the outer candidate-pair loop. -/
theorem outerPairs_eq (I : List ℕ) (support : ℚ) (sup : List ℕ → Option ℚ)
    (mc ml : ℚ) (m : ℕ) (hg : GoodTable I sup) (hI : I.Pairwise (· < ·))
    (hm : 1 ≤ m) (hmk : m + 1 < I.length) :
    ∀ (cands : List (List ℕ)),
      (∀ c ∈ cands, c.Sublist I ∧ c.length = m) →
      cands.Pairwise (· < ·) →
      ∃ out gen,
        outerPairs I support sup mc ml m cands = some (out, gen) ∧
        (∀ D, D ∈ gen ↔ ∃ c1 ∈ cands, ∃ c2 ∈ cands, c1 < c2 ∧
          c2.dropLast = c1.dropLast ∧ D = union c1 c2 ∧
          ¬ (confOf I support sup (union c1 c2)).1 < mc) ∧
        (∀ r, r ∈ out ↔ ∃ c1 ∈ cands, ∃ c2 ∈ cands, c1 < c2 ∧
          c2.dropLast = c1.dropLast ∧
          ¬ (confOf I support sup (union c1 c2)).1 < mc ∧
          ml ≤ (confOf I support sup (union c1 c2)).2 ∧
          r = ruleOf I support sup (union c1 c2)) ∧
        gen.Nodup ∧ (∀ D ∈ gen, D.dropLast ∈ cands) := by
  intro cands
  induction cands with
  | nil =>
    intro _ _
    refine ⟨[], [], rfl, ?_, ?_, List.nodup_nil, ?_⟩
    · intro D
      simp
    · intro r
      simp
    · intro D hD
      cases hD
  | cons c1 rest ih =>
    intro hsub hpw
    rw [List.pairwise_cons] at hpw
    obtain ⟨out1, gen1, hinner, hgen1, hout1, hnd1, hdrop1⟩ :=
      innerPairs_eq I support sup mc ml m hg hI hm hmk rest c1
        (hsub c1 (List.mem_cons_self _ _)).1
        (hsub c1 (List.mem_cons_self _ _)).2
        (fun c hc => hsub c (List.mem_cons_of_mem _ hc))
        (fun c hc => hpw.1 c hc) hpw.2
    obtain ⟨out2, gen2, houter, hgen2, hout2, hnd2, hdrop2⟩ :=
      ih (fun c hc => hsub c (List.mem_cons_of_mem _ hc)) hpw.2
    have heval : outerPairs I support sup mc ml m (c1 :: rest) =
        some (out1 ++ out2, gen1 ++ gen2) := by
      unfold outerPairs
      simp only [hinner, houter]
    refine ⟨_, _, heval, ?_, ?_, ?_, ?_⟩
    · intro D
      constructor
      · intro hD
        rcases List.mem_append.mp hD with hD | hD
        · obtain ⟨c2, hc2, h1, h2, h3⟩ := (hgen1 D).mp hD
          exact ⟨c1, List.mem_cons_self _ _, c2, List.mem_cons_of_mem _ hc2,
            hpw.1 c2 hc2, h1, h2, h3⟩
        · obtain ⟨c1', hc1', c2', hc2', h0, h1, h2, h3⟩ := (hgen2 D).mp hD
          exact ⟨c1', List.mem_cons_of_mem _ hc1',
            c2', List.mem_cons_of_mem _ hc2', h0, h1, h2, h3⟩
      · rintro ⟨c1', hc1', c2', hc2', h0, h1, h2, h3⟩
        rcases List.mem_cons.mp hc1' with rfl | hc1'
        · have hc2r : c2' ∈ rest := by
            rcases List.mem_cons.mp hc2' with rfl | h
            · exact absurd h0 (lt_irrefl _)
            · exact h
          exact List.mem_append_left _ ((hgen1 D).mpr ⟨c2', hc2r, h1, h2, h3⟩)
        · have hc2r : c2' ∈ rest := by
            rcases List.mem_cons.mp hc2' with h | h
            · have hlt := hpw.1 c1' hc1'
              rw [h] at h0
              exact absurd (lt_trans hlt h0) (lt_irrefl c1)
            · exact h
          exact List.mem_append_right _
            ((hgen2 D).mpr ⟨c1', hc1', c2', hc2r, h0, h1, h2, h3⟩)
    · intro r
      constructor
      · intro hr
        rcases List.mem_append.mp hr with hr | hr
        · obtain ⟨c2, hc2, h1, h2, h3, h4⟩ := (hout1 r).mp hr
          exact ⟨c1, List.mem_cons_self _ _, c2, List.mem_cons_of_mem _ hc2,
            hpw.1 c2 hc2, h1, h2, h3, h4⟩
        · obtain ⟨c1', hc1', c2', hc2', h0, h1, h2, h3, h4⟩ := (hout2 r).mp hr
          exact ⟨c1', List.mem_cons_of_mem _ hc1',
            c2', List.mem_cons_of_mem _ hc2', h0, h1, h2, h3, h4⟩
      · rintro ⟨c1', hc1', c2', hc2', h0, h1, h2, h3, h4⟩
        rcases List.mem_cons.mp hc1' with rfl | hc1'
        · have hc2r : c2' ∈ rest := by
            rcases List.mem_cons.mp hc2' with rfl | h
            · exact absurd h0 (lt_irrefl _)
            · exact h
          exact List.mem_append_left _
            ((hout1 r).mpr ⟨c2', hc2r, h1, h2, h3, h4⟩)
        · have hc2r : c2' ∈ rest := by
            rcases List.mem_cons.mp hc2' with h | h
            · have hlt := hpw.1 c1' hc1'
              rw [h] at h0
              exact absurd (lt_trans hlt h0) (lt_irrefl c1)
            · exact h
          exact List.mem_append_right _
            ((hout2 r).mpr ⟨c1', hc1', c2', hc2r, h0, h1, h2, h3, h4⟩)
    · rw [List.nodup_append]
      refine ⟨hnd1, hnd2, ?_⟩
      intro D hD1 hD2
      have h1 := hdrop1 D hD1
      have h2 := hdrop2 D hD2
      rw [h1] at h2
      exact absurd (hpw.1 c1 h2) (lt_irrefl c1)
    · intro D hD
      rcases List.mem_append.mp hD with hD | hD
      · rw [hdrop1 D hD]
        exact List.mem_cons_self _ _
      · exact List.mem_cons_of_mem _ (hdrop2 D hD)

/-- The merge of two prefix-sharing candidates drawn from a sorted
itemset is again a sorted proper subset, one item larger. -/
theorem union_share_props (I : List ℕ) (hI : I.Pairwise (· < ·))
    (c1 c2 : List ℕ) (h1 : c1.Sublist I) (h2 : c2.Sublist I)
    (hne1 : c1 ≠ []) (hne2 : c2 ≠ []) (hlt : c1 < c2)
    (hshare : c2.dropLast = c1.dropLast) :
    (union c1 c2).Sublist I ∧ (union c1 c2).length = c1.length + 1 := by
  have hc1d : c1 = c1.dropLast ++ [c1.getLast hne1] :=
    (List.dropLast_append_getLast hne1).symm
  have hc2d : c2 = c2.dropLast ++ [c2.getLast hne2] :=
    (List.dropLast_append_getLast hne2).symm
  have hd := union_share_decomp c1 c2 hne1 hne2 hshare hlt
  have hxy : c1.getLast hne1 < c2.getLast hne2 := by
    refine (append_singleton_lt_iff c1.dropLast _ _).mp ?_
    have h := hlt
    rw [hc1d, hc2d, hshare] at h
    exact h
  have hc1pw : c1.Pairwise (· < ·) := List.Pairwise.sublist h1 hI
  have hc2pw : c2.Pairwise (· < ·) := List.Pairwise.sublist h2 hI
  have hDpw : (union c1 c2).Pairwise (· < ·) := by
    rw [hd.1, List.pairwise_append]
    refine ⟨?_, ?_, ?_⟩
    · have := hc1pw
      rw [hc1d, List.pairwise_append] at this
      exact this.1
    · refine List.pairwise_cons.mpr ⟨?_, List.pairwise_singleton _ _⟩
      intro b hb
      rw [List.mem_singleton] at hb
      subst hb
      exact hxy
    · intro a ha b hb
      rcases List.mem_cons.mp hb with rfl | hb
      · have := hc1pw
        rw [hc1d, List.pairwise_append] at this
        exact this.2.2 a ha _ (List.mem_singleton.mpr rfl)
      · simp only [List.mem_singleton] at hb
        subst hb
        have := hc2pw
        rw [hc2d, List.pairwise_append, hshare] at this
        exact this.2.2 a ha _ (List.mem_singleton.mpr rfl)
  have hDmem : ∀ x ∈ union c1 c2, x ∈ I := by
    intro x hx
    rw [hd.1] at hx
    rcases List.mem_append.mp hx with hx | hx
    · exact h1.subset ((List.dropLast_sublist c1).subset hx)
    · rcases List.mem_cons.mp hx with rfl | hx
      · exact h1.subset (List.getLast_mem hne1)
      · simp only [List.mem_singleton] at hx
        subst hx
        exact h2.subset (List.getLast_mem hne2)
  refine ⟨sublist_of_sorted_subset I _ hI hDpw hDmem, ?_⟩
  have hlen1 : c1.length = c1.dropLast.length + 1 := by
    conv_lhs => rw [hc1d]
    simp
  rw [hd.1]
  simp only [List.length_append, List.length_cons, List.length_nil]
  omega

/-- The pair-merge generation produces exactly the next level's
candidates: the sorted subsets one item larger that pass the confidence
test. -/
theorem nextGen_char (I : List ℕ) (support : ℚ) (sup : List ℕ → Option ℚ)
    (mc : ℚ) (m : ℕ) (hg : GoodTable I sup) (hI : I.Pairwise (· < ·))
    (hsup : 0 ≤ support) (hm : 1 ≤ m) (hmk : m + 1 < I.length)
    (cands : List (List ℕ))
    (hmem : ∀ C, C ∈ cands ↔ C.Sublist I ∧ C.length = m ∧
      ¬ (confOf I support sup C).1 < mc)
    (gen : List (List ℕ))
    (hgen : ∀ D, D ∈ gen ↔ ∃ c1 ∈ cands, ∃ c2 ∈ cands, c1 < c2 ∧
      c2.dropLast = c1.dropLast ∧ D = union c1 c2 ∧
      ¬ (confOf I support sup (union c1 c2)).1 < mc) :
    ∀ D, D ∈ gen ↔ D.Sublist I ∧ D.length = m + 1 ∧
      ¬ (confOf I support sup D).1 < mc := by
  intro D
  rw [hgen D]
  constructor
  · rintro ⟨c1, hc1, c2, hc2, hlt, hshare, rfl, hconf⟩
    obtain ⟨h1s, h1l, -⟩ := (hmem c1).mp hc1
    obtain ⟨h2s, h2l, -⟩ := (hmem c2).mp hc2
    have hne1 : c1 ≠ [] := by
      intro he
      rw [he] at h1l
      simp at h1l
      omega
    have hne2 : c2 ≠ [] := by
      intro he
      rw [he] at h2l
      simp at h2l
      omega
    obtain ⟨hDs, hDl⟩ :=
      union_share_props I hI c1 c2 h1s h2s hne1 hne2 hlt hshare
    exact ⟨hDs, by omega, hconf⟩
  · rintro ⟨hDs, hDl, hconf⟩
    obtain ⟨p, x, y, rfl⟩ := exists_append_two D (by omega)
    have hDpw : (p ++ [x, y]).Pairwise (· < ·) := List.Pairwise.sublist hDs hI
    have hxy : x < y := by
      rw [List.pairwise_append] at hDpw
      have := hDpw.2.1
      rw [List.pairwise_cons] at this
      exact this.1 y (List.mem_singleton.mpr rfl)
    have hc1D : (p ++ [x]).Sublist (p ++ [x, y]) :=
      List.Sublist.append_left (List.Sublist.cons₂ x (List.nil_sublist [y])) p
    have hc2D : (p ++ [y]).Sublist (p ++ [x, y]) :=
      List.Sublist.append_left (List.Sublist.cons x (List.Sublist.refl [y])) p
    have hplen : p.length + 2 = m + 1 := by
      have := hDl
      simp only [List.length_append, List.length_cons, List.length_nil] at this
      omega
    have hlen1 : (p ++ [x]).length = m := by
      simp only [List.length_append, List.length_cons, List.length_nil]
      omega
    have hlen2 : (p ++ [y]).length = m := by
      simp only [List.length_append, List.length_cons, List.length_nil]
      omega
    have hne1 : p ++ [x] ≠ [] := by
      intro he
      rw [he] at hlen1
      simp at hlen1
      omega
    have hne2 : p ++ [y] ≠ [] := by
      intro he
      rw [he] at hlen2
      simp at hlen2
      omega
    have hDlen : (p ++ [x, y]).length < I.length := by
      simp only [List.length_append, List.length_cons, List.length_nil]
      omega
    have hconf1 : ¬ (confOf I support sup (p ++ [x])).1 < mc := by
      rw [not_lt] at hconf ⊢
      refine le_trans hconf ?_
      exact confOf_anti I support sup hg hI hsup (p ++ [x, y]) (p ++ [x])
        hc1D hne1 hDs hDlen
    have hconf2 : ¬ (confOf I support sup (p ++ [y])).1 < mc := by
      rw [not_lt] at hconf ⊢
      refine le_trans hconf ?_
      exact confOf_anti I support sup hg hI hsup (p ++ [x, y]) (p ++ [y])
        hc2D hne2 hDs hDlen
    have hu : union (p ++ [x]) (p ++ [y]) = p ++ [x, y] :=
      union_shared p x y hxy
    refine ⟨p ++ [x], (hmem _).mpr ⟨hc1D.trans hDs, hlen1, hconf1⟩,
      p ++ [y], (hmem _).mpr ⟨hc2D.trans hDs, hlen2, hconf2⟩,
      (append_singleton_lt_iff p x y).mpr hxy,
      by rw [List.dropLast_concat, List.dropLast_concat], hu.symm, ?_⟩
    rw [hu]
    exact hconf

/-- Unfolding: the expansion loop on an empty candidate list yields no rules. -/
theorem expansionLoop_nil (I : List ℕ) (support : ℚ) (sup : List ℕ → Option ℚ)
    (mc ml : ℚ) (fuel : ℕ) :
    expansionLoop I support sup mc ml fuel [] = some [] := by
  unfold expansionLoop
  rfl

/-- Unfolding: the loop stops once candidates are one short of the itemset. -/
theorem expansionLoop_stop (I : List ℕ) (support : ℚ) (sup : List ℕ → Option ℚ)
    (mc ml : ℚ) (fuel : ℕ) (c0 : List ℕ) (cs : List (List ℕ))
    (hstop : ¬ c0.length + 1 < I.length) :
    expansionLoop I support sup mc ml fuel (c0 :: cs) = some [] := by
  conv_lhs => unfold expansionLoop
  show (if c0.length + 1 < I.length then _ else some []) = some []
  rw [if_neg hstop]

/-- Unfolding: with no fuel left a live candidate list gives up. -/
theorem expansionLoop_zero (I : List ℕ) (support : ℚ) (sup : List ℕ → Option ℚ)
    (mc ml : ℚ) (c0 : List ℕ) (cs : List (List ℕ))
    (hlive : c0.length + 1 < I.length) :
    expansionLoop I support sup mc ml 0 (c0 :: cs) = none := by
  conv_lhs => unfold expansionLoop
  show (if c0.length + 1 < I.length then _ else some []) = none
  rw [if_pos hlive]

/-- Unfolding: one live iteration of the expansion loop. -/
theorem expansionLoop_succ (I : List ℕ) (support : ℚ) (sup : List ℕ → Option ℚ)
    (mc ml : ℚ) (fuel : ℕ) (c0 : List ℕ) (cs : List (List ℕ))
    (hlive : c0.length + 1 < I.length) :
    expansionLoop I support sup mc ml (fuel + 1) (c0 :: cs) =
      (match outerPairs I support sup mc ml c0.length (c0 :: cs) with
        | none => none
        | some (out, nextGen) =>
          match expansionLoop I support sup mc ml fuel
              (nextGen.insertionSort (· ≤ ·)) with
          | none => none
          | some out2 => some (out ++ out2)) := by
  conv_lhs => unfold expansionLoop
  show (if c0.length + 1 < I.length then _ else some []) = _
  rw [if_pos hlive]

/-- Characterization of the while loop of `generate_rules_for_itemset`:
starting from the complete, sorted level-`m` candidate list, it emits
exactly the rules for the proper sorted consequents of size at least
`m + 1` that pass the confidence test and the lift test. -/
theorem expansionLoop_eq (I : List ℕ) (support : ℚ) (sup : List ℕ → Option ℚ)
    (mc ml : ℚ) (hg : GoodTable I sup) (hI : I.Pairwise (· < ·))
    (hsup : 0 ≤ support) :
    ∀ (fuel m : ℕ) (cands : List (List ℕ)),
      1 ≤ m → I.length ≤ m + fuel →
      cands.Pairwise (· < ·) →
      (∀ C, C ∈ cands ↔ C.Sublist I ∧ C.length = m ∧
        ¬ (confOf I support sup C).1 < mc) →
      ∃ out, expansionLoop I support sup mc ml fuel cands = some out ∧
        ∀ r, r ∈ out ↔ ∃ C, C.Sublist I ∧ m + 1 ≤ C.length ∧
          C.length + 1 ≤ I.length ∧ ¬ (confOf I support sup C).1 < mc ∧
          ml ≤ (confOf I support sup C).2 ∧ r = ruleOf I support sup C := by
  intro fuel
  induction fuel with
  | zero =>
    intro m cands hm hfuel hpw hmem
    cases cands with
    | nil =>
      refine ⟨[], rfl, ?_⟩
      intro r
      simp only [List.not_mem_nil, false_iff]
      rintro ⟨C, hCs, hCl, hCk, hconf, -, -⟩
      have htake : C.take m ∈ ([] : List (List ℕ)) := by
        refine (hmem (C.take m)).mpr ⟨(List.take_sublist m C).trans hCs, ?_, ?_⟩
        · rw [List.length_take]
          omega
        · rw [not_lt] at hconf ⊢
          refine le_trans hconf ?_
          refine confOf_anti I support sup hg hI hsup C (C.take m)
            (List.take_sublist m C) ?_ hCs (by omega)
          intro he
          have := congrArg List.length he
          rw [List.length_take, List.length_nil] at this
          omega
      cases htake
    | cons c0 cs =>
      have hc0 := (hmem c0).mp (List.mem_cons_self _ _)
      by_cases hlive : c0.length + 1 < I.length
      · rw [hc0.2.1] at hlive
        omega
      · refine ⟨[], expansionLoop_stop I support sup mc ml 0 c0 cs hlive, ?_⟩
        intro r
        simp only [List.not_mem_nil, false_iff]
        rintro ⟨C, hCs, hCl, hCk, -, -, -⟩
        rw [hc0.2.1] at hlive
        omega
  | succ f ih =>
    intro m cands hm hfuel hpw hmem
    cases cands with
    | nil =>
      refine ⟨[], rfl, ?_⟩
      intro r
      simp only [List.not_mem_nil, false_iff]
      rintro ⟨C, hCs, hCl, hCk, hconf, -, -⟩
      have htake : C.take m ∈ ([] : List (List ℕ)) := by
        refine (hmem (C.take m)).mpr ⟨(List.take_sublist m C).trans hCs, ?_, ?_⟩
        · rw [List.length_take]
          omega
        · rw [not_lt] at hconf ⊢
          refine le_trans hconf ?_
          refine confOf_anti I support sup hg hI hsup C (C.take m)
            (List.take_sublist m C) ?_ hCs (by omega)
          intro he
          have := congrArg List.length he
          rw [List.length_take, List.length_nil] at this
          omega
      cases htake
    | cons c0 cs =>
      have hc0 := (hmem c0).mp (List.mem_cons_self _ _)
      by_cases hlive : c0.length + 1 < I.length
      · have hmk : m + 1 < I.length := by
          rw [hc0.2.1] at hlive
          exact hlive
        obtain ⟨out, gen, houtereval, hgenc, houtc, hndgen, -⟩ :=
          outerPairs_eq I support sup mc ml m hg hI hm hmk (c0 :: cs)
            (fun c hc => ⟨((hmem c).mp hc).1, ((hmem c).mp hc).2.1⟩) hpw
        have hgenD := nextGen_char I support sup mc m hg hI hsup hm hmk
          (c0 :: cs) hmem gen hgenc
        have hpw2 : (gen.insertionSort (· ≤ ·)).Pairwise (· < ·) := by
          have hle : (gen.insertionSort (· ≤ ·)).Pairwise (· ≤ ·) :=
            List.sorted_insertionSort _ gen
          have hnd : (gen.insertionSort (· ≤ ·)).Nodup :=
            ((List.perm_insertionSort _ gen).nodup_iff).mpr hndgen
          refine List.Pairwise.imp ?_ (List.Pairwise.and hle hnd)
          intro a b hab
          exact lt_of_le_of_ne hab.1 hab.2
        have hmem2 : ∀ C, C ∈ gen.insertionSort (· ≤ ·) ↔
            C.Sublist I ∧ C.length = m + 1 ∧
            ¬ (confOf I support sup C).1 < mc := by
          intro C
          rw [(List.perm_insertionSort _ gen).mem_iff]
          exact hgenD C
        obtain ⟨out2, hrecEval, hchar2⟩ := ih (m + 1)
          (gen.insertionSort (· ≤ ·)) (by omega) (by omega) hpw2 hmem2
        have houtD : ∀ r, r ∈ out ↔ ∃ D, D.Sublist I ∧ D.length = m + 1 ∧
            ¬ (confOf I support sup D).1 < mc ∧
            ml ≤ (confOf I support sup D).2 ∧
            r = ruleOf I support sup D := by
          intro r
          rw [houtc r]
          constructor
          · rintro ⟨c1, hc1, c2, hc2, hlt, hshare, hconf, hlift, hrule⟩
            have hDgen : union c1 c2 ∈ gen :=
              (hgenc _).mpr ⟨c1, hc1, c2, hc2, hlt, hshare, rfl, hconf⟩
            obtain ⟨hDs, hDl, hDc⟩ := (hgenD _).mp hDgen
            exact ⟨union c1 c2, hDs, hDl, hDc, hlift, hrule⟩
          · rintro ⟨D, hDs, hDl, hDc, hlift, hrule⟩
            have hDgen : D ∈ gen := (hgenD D).mpr ⟨hDs, hDl, hDc⟩
            obtain ⟨c1, hc1, c2, hc2, hlt, hshare, hDe, hconf⟩ :=
              (hgenc D).mp hDgen
            refine ⟨c1, hc1, c2, hc2, hlt, hshare, hconf, ?_, ?_⟩
            · rw [← hDe]
              exact hlift
            · rw [← hDe]
              exact hrule
        refine ⟨out ++ out2, ?_, ?_⟩
        · rw [expansionLoop_succ I support sup mc ml f c0 cs hlive, hc0.2.1]
          simp only [houtereval, hrecEval]
        · intro r
          rw [List.mem_append, houtD r, hchar2 r]
          constructor
          · rintro (⟨D, hDs, hDl, hDc, hlift, hrule⟩ |
              ⟨C, hCs, hCl, hCk, hCc, hClift, hrule⟩)
            · exact ⟨D, hDs, by omega, by omega, hDc, hlift, hrule⟩
            · exact ⟨C, hCs, by omega, hCk, hCc, hClift, hrule⟩
          · rintro ⟨C, hCs, hCl, hCk, hCc, hClift, hrule⟩
            by_cases hCl2 : C.length = m + 1
            · exact Or.inl ⟨C, hCs, hCl2, hCc, hClift, hrule⟩
            · exact Or.inr ⟨C, hCs, by omega, hCk, hCc, hClift, hrule⟩
      · refine ⟨[], expansionLoop_stop I support sup mc ml (f + 1) c0 cs hlive,
          ?_⟩
        intro r
        simp only [List.not_mem_nil, false_iff]
        rintro ⟨C, hCs, hCl, hCk, -, -, -⟩
        rw [hc0.2.1] at hlive
        omega

/-- On a single-item consequent, the antecedent both split functions
compute is the same filter. -/
theorem anteOf_singleton (I : List ℕ) (i : ℕ) :
    anteOf I [i] = I.filter (fun x => x ≠ i) := by
  unfold anteOf
  refine List.filter_congr ?_
  intro x _
  simp

/-- The seed statistics are the generic candidate statistics of the
singleton consequent. -/
theorem seedConf_eq_confOf (I : List ℕ) (support : ℚ)
    (sup : List ℕ → Option ℚ) (i : ℕ) :
    seedConf I support sup i = confOf I support sup [i] := by
  unfold seedConf confOf
  rw [anteOf_singleton]

/-- Over a good support table, every seed-phase lookup succeeds. -/
theorem seed_stats_total (I : List ℕ) (support : ℚ)
    (sup : List ℕ → Option ℚ) (hg : GoodTable I sup)
    (hI : I.Pairwise (· < ·)) (hlen : 1 < I.length) :
    ∀ i ∈ I, (stats support (I.filter (fun x => x ≠ i)) [i] sup).isSome
      = true := by
  intro i hi
  have hC : [i].Sublist I := List.singleton_sublist.mpr hi
  obtain ⟨va, vc, -, -, hstats, -, -, -⟩ :=
    stats_total I support sup hg hI [i] hC (by simp)
      (by simp only [List.length_singleton]; omega)
  rw [anteOf_singleton] at hstats
  rw [hstats]
  rfl

/-- Merging with the right-hand list empty is the identity. -/
theorem union_nil_right (a : List ℕ) : union a [] = a := by
  cases a <;> simp only [union]

/-- Merging with the left-hand list empty is the identity. -/
theorem union_nil_left (b : List ℕ) : union [] b = b := by
  simp only [union]

/-- One merge step when the left head is smaller. -/
theorem union_lt (x y : ℕ) (a b : List ℕ) (h : x < y) :
    union (x :: a) (y :: b) = x :: union a (y :: b) := by
  simp only [union]
  rw [if_pos h]

/-- One merge step when the right head is smaller. -/
theorem union_gt (x y : ℕ) (a b : List ℕ) (h : y < x) :
    union (x :: a) (y :: b) = y :: union (x :: a) b := by
  simp only [union]
  rw [if_neg (by omega), if_pos h]

/-- Merging a sorted subsequence with its complement in a strictly sorted
list recovers the list. -/
theorem union_filter_not_mem (I : List ℕ) (hI : I.Pairwise (· < ·)) :
    ∀ s, s.Sublist I → union s (I.filter (fun x => x ∉ s)) = I := by
  induction I with
  | nil =>
    intro s hs
    rw [List.sublist_nil.mp hs, List.filter_nil, union_nil_right]
  | cons i I ih =>
    rw [List.pairwise_cons] at hI
    have hiI : i ∉ I := fun hm => lt_irrefl i (hI.1 i hm)
    intro s hs
    cases hs with
    | cons _ hs =>
      have his : i ∉ s := fun hm => hiI (hs.subset hm)
      rw [List.filter_cons_of_pos (by simpa using his)]
      cases s with
      | nil =>
        rw [union_nil_left]
        congr 1
        refine List.filter_eq_self.mpr ?_
        intro x _
        simp
      | cons x s' =>
        have hix : i < x := hI.1 x (hs.subset (List.mem_cons_self _ _))
        rw [union_gt x i s' _ hix, ih hI.2 (x :: s') hs]
    | cons₂ _ hs =>
      rename_i s'
      rw [List.filter_cons_of_neg (by simp)]
      have hfc : I.filter (fun x => x ∉ i :: s') =
          I.filter (fun x => x ∉ s') := by
        refine List.filter_congr ?_
        intro x hx
        have hxi : x ≠ i := fun he => hiI (he ▸ hx)
        simp [hxi]
      rw [hfc]
      have hIH := ih hI.2 s' hs
      generalize hF : I.filter (fun y => y ∉ s') = F
      rw [hF] at hIH
      cases F with
      | nil =>
        rw [union_nil_right] at hIH ⊢
        rw [hIH]
      | cons y F' =>
        have hyI : y ∈ I := by
          have hy : y ∈ I.filter (fun y => y ∉ s') := by
            rw [hF]
            exact List.mem_cons_self _ _
          exact (List.mem_filter.mp hy).1
        have hiy : i < y := hI.1 y hyI
        rw [union_lt i y s' F' hiy, hIH]

/-- Filtering a strictly deduplicated list down to the members of one of
its subsequences recovers the subsequence. -/
theorem filter_mem_sublist (I s : List ℕ) (h : s.Sublist I)
    (hnd : I.Nodup) : I.filter (fun x => x ∈ s) = s := by
  induction h with
  | slnil => rfl
  | cons a h ih =>
    rw [List.nodup_cons] at hnd
    have has : a ∉ _ := fun hm => hnd.1 (h.subset hm)
    rw [List.filter_cons_of_neg (by simpa using has)]
    exact ih hnd.2
  | cons₂ a h ih =>
    rw [List.nodup_cons] at hnd
    rw [List.filter_cons_of_pos (by simp)]
    congr 1
    rename_i l₁ l₂
    have hc : l₂.filter (fun x => x ∈ a :: l₁) =
        l₂.filter (fun x => x ∈ l₁) := by
      refine List.filter_congr ?_
      intro x hx
      have hxa : x ≠ a := fun he => hnd.1 (he ▸ hx)
      simp [hxa]
    rw [hc]
    exact ih hnd.2

/-- Double complement: filtering out the complement of `s` keeps exactly
the members of `s`. -/
theorem filter_not_filter_not (I s : List ℕ) :
    I.filter (fun x => x ∉ I.filter (fun y => y ∉ s)) =
      I.filter (fun x => x ∈ s) := by
  refine List.filter_congr ?_
  intro x hx
  simp [List.mem_filter, hx]

/-- Filtering out the complement of a subsequence recovers it. -/
theorem filter_not_anteOf (I s : List ℕ) (hs : s.Sublist I)
    (hnd : I.Nodup) :
    I.filter (fun x => x ∉ I.filter (fun y => y ∉ s)) = s := by
  rw [filter_not_filter_not]
  exact filter_mem_sublist I s hs hnd

/-- Characterization of the recursion of `naive_add_rules_for`: over a
good support table it never hits a missing entry, and it emits exactly
the rules of the two-way splits that extend the already decided split of
the processed prefix `pre`. -/
theorem naiveAddRulesFor_eq (I : List ℕ) (sup : List ℕ → Option ℚ)
    (mc : ℚ) (ml : Option ℚ) (supI : ℚ) (hg : GoodTable I sup)
    (hI : I.Pairwise (· < ·)) (hsupI : sup I = some supI) :
    ∀ (rest pre a : List ℕ), I = pre ++ rest → a.Sublist pre →
      ∃ out, naiveAddRulesFor sup mc ml rest a
          (pre.filter (fun x => x ∉ a)) = some out ∧
        ∀ r, r ∈ out ↔ ∃ s, s.Sublist rest ∧ a ++ s ≠ [] ∧
          I.filter (fun x => x ∉ a ++ s) ≠ [] ∧
          mc ≤ (confOf I supI sup (I.filter (fun x => x ∉ a ++ s))).1 ∧
          ml.getD 0 ≤ (confOf I supI sup (I.filter (fun x => x ∉ a ++ s))).2 ∧
          r = ruleOf I supI sup (I.filter (fun x => x ∉ a ++ s)) := by
  have hnd : I.Nodup := by
    refine List.Pairwise.imp ?_ hI
    intro a b h
    omega
  intro rest
  induction rest with
  | nil =>
    intro pre a hpre ha
    rw [List.append_nil] at hpre
    subst hpre
    by_cases h0 : a = [] ∨ I.filter (fun x => x ∉ a) = []
    · refine ⟨[], ?_, ?_⟩
      · simp only [naiveAddRulesFor]
        rw [if_pos h0]
      · intro r
        simp only [List.not_mem_nil, false_iff]
        rintro ⟨s, hs, hne, hfne, -, -, -⟩
        rw [List.sublist_nil.mp hs, List.append_nil] at hne hfne
        rcases h0 with h0 | h0
        · exact hne h0
        · exact hfne h0
    · push_neg at h0
      obtain ⟨hane, hcne⟩ := h0
      have hCsub : (I.filter (fun x => x ∉ a)).Sublist I := List.filter_sublist I
      have hClen : (I.filter (fun x => x ∉ a)).length < I.length := by
        rcases a with _ | ⟨x, a'⟩
        · exact absurd rfl hane
        · have hxI : x ∈ I := ha.subset (List.mem_cons_self _ _)
          have hxC : x ∉ I.filter (fun y => y ∉ x :: a') := by
            intro hm
            have hm2 := (List.mem_filter.mp hm).2
            simp at hm2
          have hle := hCsub.length_le
          rcases lt_or_eq_of_le hle with h | h
          · exact h
          · exfalso
            have hCI := hCsub.eq_of_length h
            rw [hCI] at hxC
            exact hxC hxI
      have hanteC : anteOf I (I.filter (fun x => x ∉ a)) = a := by
        unfold anteOf
        exact filter_not_anteOf I a ha hnd
      obtain ⟨va, vc, hva, hvc, hstats, hconf, hpva, hpvc⟩ :=
        stats_total I supI sup hg hI (I.filter (fun x => x ∉ a)) hCsub hcne hClen
      rw [hanteC] at hstats
      have hunion : union a (I.filter (fun x => x ∉ a)) = I :=
        union_filter_not_mem I hI a ha
      by_cases hpass : mc ≤ supI / va ∧ ml.getD 0 ≤ supI / (va * vc)
      · refine ⟨[⟨a, I.filter (fun x => x ∉ a), supI / va,
          supI / (va * vc), supI⟩], ?_, ?_⟩
        · simp only [naiveAddRulesFor]
          rw [if_neg (by push_neg; exact ⟨hane, hcne⟩), hunion]
          simp only [hsupI, hstats]
          rw [if_pos hpass]
        · intro r
          simp only [List.mem_singleton, List.sublist_nil, List.append_nil]
          constructor
          · intro hr
            refine ⟨[], rfl, ?_⟩
            rw [List.append_nil]
            refine ⟨hane, hcne, ?_, ?_, ?_⟩
            · rw [hconf]
              exact hpass.1
            · rw [hconf]
              exact hpass.2
            · rw [hr]
              unfold ruleOf
              rw [hanteC, hconf]
          · rintro ⟨s, rfl, hcond⟩
            rw [List.append_nil] at hcond
            obtain ⟨-, -, -, -, h3⟩ := hcond
            rw [h3]
            unfold ruleOf
            rw [hanteC, hconf]
      · refine ⟨[], ?_, ?_⟩
        · simp only [naiveAddRulesFor]
          rw [if_neg (by push_neg; exact ⟨hane, hcne⟩), hunion]
          simp only [hsupI, hstats]
          rw [if_neg hpass]
        · intro r
          simp only [List.not_mem_nil, false_iff]
          rintro ⟨s, hs, hne, hfne, h1, h2, -⟩
          rw [List.sublist_nil.mp hs, List.append_nil] at h1 h2
          rw [hconf] at h1 h2
          exact hpass ⟨h1, h2⟩
  | cons i rest ihr =>
    intro pre a hpre ha
    have hiPre : i ∉ pre := by
      have hnd2 : (pre ++ i :: rest).Nodup := by
        rw [← hpre]
        exact hnd
      have h3 := (List.nodup_append.mp hnd2).2.2
      exact fun hm => h3 hm (List.mem_cons_self _ _)
    have hia : i ∉ a := fun hm => hiPre (ha.subset hm)
    have hpre1 : I = (pre ++ [i]) ++ rest := by
      rw [hpre, List.append_assoc]
      rfl
    have ha1 : (a ++ [i]).Sublist (pre ++ [i]) :=
      ha.append (List.Sublist.refl [i])
    have ha2 : a.Sublist (pre ++ [i]) :=
      ha.trans (List.sublist_append_left pre [i])
    obtain ⟨out1, he1, hch1⟩ := ihr (pre ++ [i]) (a ++ [i]) hpre1 ha1
    obtain ⟨out2, he2, hch2⟩ := ihr (pre ++ [i]) a hpre1 ha2
    have hc1 : (pre ++ [i]).filter (fun x => x ∉ a ++ [i]) =
        pre.filter (fun x => x ∉ a) := by
      rw [List.filter_append]
      have h2 : [i].filter (fun x => x ∉ a ++ [i]) = [] := by
        simp
      rw [h2, List.append_nil]
      refine List.filter_congr ?_
      intro x hx
      have hxi : x ≠ i := fun he => hiPre (he ▸ hx)
      simp [hxi]
    have hc2 : (pre ++ [i]).filter (fun x => x ∉ a) =
        pre.filter (fun x => x ∉ a) ++ [i] := by
      rw [List.filter_append]
      congr 1
      simp [hia]
    rw [hc1] at he1
    rw [hc2] at he2
    refine ⟨out1 ++ out2, ?_, ?_⟩
    · simp only [naiveAddRulesFor]
      simp only [he1, he2]
    · intro r
      rw [List.mem_append]
      constructor
      · rintro (hr | hr)
        · obtain ⟨s', hs', hne, hfne, h1, h2, h3⟩ := (hch1 r).mp hr
          refine ⟨i :: s', List.Sublist.cons₂ i hs', ?_, ?_, ?_, ?_, ?_⟩ <;>
            · rw [List.append_cons a i s']
              assumption
        · obtain ⟨s', hs', hne, hfne, h1, h2, h3⟩ := (hch2 r).mp hr
          exact ⟨s', hs'.cons i, hne, hfne, h1, h2, h3⟩
      · rintro ⟨s, hs, hne, hfne, h1, h2, h3⟩
        cases hs with
        | cons _ hs' =>
          exact Or.inr ((hch2 r).mpr ⟨s, hs', hne, hfne, h1, h2, h3⟩)
        | cons₂ _ hs' =>
          rename_i s'
          refine Or.inl ((hch1 r).mpr ⟨s', hs', ?_, ?_, ?_, ?_, ?_⟩) <;>
            · rw [← List.append_cons a i s']
              assumption

/-- `naive_add_rules_for` started on a whole sorted itemset emits exactly
the rules of the proper non-empty consequents that pass both thresholds. -/
theorem naiveRulesForItemset_eq (I : List ℕ) (sup : List ℕ → Option ℚ)
    (mc : ℚ) (ml : Option ℚ) (supI : ℚ) (hg : GoodTable I sup)
    (hI : I.Pairwise (· < ·)) (hsupI : sup I = some supI) :
    ∃ out, naiveAddRulesFor sup mc ml I [] [] = some out ∧
      ∀ r, r ∈ out ↔ ∃ C, C.Sublist I ∧ C ≠ [] ∧ C ≠ I ∧
        ¬ (confOf I supI sup C).1 < mc ∧
        ml.getD 0 ≤ (confOf I supI sup C).2 ∧
        r = ruleOf I supI sup C := by
  have hnd : I.Nodup := by
    refine List.Pairwise.imp ?_ hI
    intro a b h
    omega
  obtain ⟨out, he, hch⟩ := naiveAddRulesFor_eq I sup mc ml supI hg hI hsupI
    I [] [] rfl (List.nil_sublist [])
  rw [List.filter_nil] at he
  refine ⟨out, he, ?_⟩
  intro r
  rw [hch r]
  simp only [List.nil_append]
  constructor
  · rintro ⟨s, hs, hne, hfne, h1, h2, h3⟩
    refine ⟨I.filter (fun x => x ∉ s), List.filter_sublist I, hfne, ?_,
      not_lt.mpr h1, h2, h3⟩
    intro hCI
    rcases s with _ | ⟨x, s'⟩
    · exact hne rfl
    · have hxI : x ∈ I := hs.subset (List.mem_cons_self _ _)
      rw [← hCI] at hxI
      have hx2 := (List.mem_filter.mp hxI).2
      simp at hx2
  · rintro ⟨C, hC, hCne, hCnI, h1, h2, h3⟩
    have hClen : C.length < I.length := by
      rcases lt_or_eq_of_le hC.length_le with h | h
      · exact h
      · exact absurd (hC.eq_of_length h) hCnI
    have hback : I.filter (fun x => x ∉ anteOf I C) = C := by
      simp only [anteOf]
      exact filter_not_anteOf I C hC hnd
    refine ⟨anteOf I C, anteOf_sublist I C, anteOf_ne_nil I C hnd hClen,
      ?_, ?_, ?_, ?_⟩
    · rw [hback]
      exact hCne
    · rw [hback]
      exact not_lt.mp h1
    · rw [hback]
      exact h2
    · rw [hback]
      exact h3

/-- `generate_rules_for_itemset` over a good support table succeeds and
emits exactly the rules of the proper non-empty consequents that pass
the confidence and lift thresholds. -/
theorem generateRulesForItemset_eq (I : List ℕ) (support : ℚ)
    (sup : List ℕ → Option ℚ) (mc ml : ℚ) (hg : GoodTable I sup)
    (hI : I.Pairwise (· < ·)) (hsup : 0 ≤ support) (hlen : 1 < I.length) :
    ∃ out, generateRulesForItemset I support sup mc ml = some out ∧
      ∀ r, r ∈ out ↔ ∃ C, C.Sublist I ∧ C ≠ [] ∧ C ≠ I ∧
        ¬ (confOf I support sup C).1 < mc ∧
        ml ≤ (confOf I support sup C).2 ∧
        r = ruleOf I support sup C := by
  have hseed := seedPhase_eq I support sup mc ml I
    (seed_stats_total I support sup hg hI hlen)
  have hmem1 : ∀ C, C ∈ (I.filter
      (fun i => ¬ (seedConf I support sup i).1 < mc)).map (fun i => [i]) ↔
      C.Sublist I ∧ C.length = 1 ∧ ¬ (confOf I support sup C).1 < mc := by
    intro C
    simp only [List.mem_map, List.mem_filter]
    constructor
    · rintro ⟨i, ⟨hiI, hcond⟩, rfl⟩
      refine ⟨List.singleton_sublist.mpr hiI, rfl, ?_⟩
      rw [← seedConf_eq_confOf]
      simpa using hcond
    · rintro ⟨hCs, hCl, hconf⟩
      rcases C with _ | ⟨i, C'⟩
      · simp at hCl
      · rcases C' with _ | ⟨j, C''⟩
        · refine ⟨i, ⟨List.singleton_sublist.mp hCs, ?_⟩, rfl⟩
          rw [seedConf_eq_confOf]
          simpa using hconf
        · simp at hCl
  have hpw1 : ((I.filter
      (fun i => ¬ (seedConf I support sup i).1 < mc)).map
      (fun i => [i])).Pairwise (· < ·) := by
    rw [List.pairwise_map]
    refine List.Pairwise.imp ?_ (List.Pairwise.filter _ hI)
    intro a b hab
    exact List.Lex.rel hab
  obtain ⟨out2, he2, hch2⟩ := expansionLoop_eq I support sup mc ml hg hI hsup
    I.length 1 _ (le_refl 1) (by omega) hpw1 hmem1
  refine ⟨((I.filter (fun i => ¬ (seedConf I support sup i).1 < mc ∧
      ml ≤ (seedConf I support sup i).2)).map
      (fun i => ⟨I.filter (fun x => x ≠ i), [i],
        (seedConf I support sup i).1, (seedConf I support sup i).2,
        support⟩)) ++ out2, ?_, ?_⟩
  · unfold generateRulesForItemset
    simp only [hseed, he2]
  · intro r
    rw [List.mem_append, hch2 r]
    constructor
    · rintro (hr | ⟨C, hCs, hCl, hCk, hCc, hClift, hr⟩)
      · simp only [List.mem_map, List.mem_filter] at hr
        obtain ⟨i, ⟨hiI, hcond⟩, rfl⟩ := hr
        simp only [decide_eq_true_eq] at hcond
        obtain ⟨h1, h2⟩ := hcond
        refine ⟨[i], List.singleton_sublist.mpr hiI, by simp, ?_, ?_, ?_, ?_⟩
        · intro he
          have hle := congrArg List.length he
          simp only [List.length_singleton] at hle
          omega
        · rw [← seedConf_eq_confOf]
          exact h1
        · rw [← seedConf_eq_confOf]
          exact h2
        · unfold ruleOf
          rw [anteOf_singleton, ← seedConf_eq_confOf]
      · refine ⟨C, hCs, ?_, ?_, hCc, hClift, hr⟩
        · intro he
          subst he
          simp at hCl
        · intro he
          have hle := congrArg List.length he
          omega
    · rintro ⟨C, hCs, hCne, hCnI, hCc, hClift, hr⟩
      have hClen : C.length < I.length := by
        rcases lt_or_eq_of_le hCs.length_le with h | h
        · exact h
        · exact absurd (hCs.eq_of_length h) hCnI
      have hCpos : 0 < C.length := List.length_pos.mpr hCne
      by_cases h1 : C.length = 1
      · left
        rcases C with _ | ⟨i, C'⟩
        · exact absurd rfl hCne
        rcases C' with _ | ⟨j, C''⟩
        · simp only [List.mem_map, List.mem_filter]
          refine ⟨i, ⟨List.singleton_sublist.mp hCs, ?_⟩, ?_⟩
          · rw [seedConf_eq_confOf]
            simp only [decide_eq_true_eq]
            exact ⟨hCc, hClift⟩
          · rw [hr]
            unfold ruleOf
            rw [anteOf_singleton, ← seedConf_eq_confOf]
        · simp at h1
      · right
        exact ⟨C, hCs, by omega, by omega, hCc, hClift, hr⟩

/-- Pushing a map through `mapM`. -/
theorem mapM_map_comp {α β : Type} (g : α → β) (f : β → Option (List Rule)) :
    ∀ l : List α, (l.map g).mapM f = l.mapM (fun x => f (g x)) := by
  intro l
  induction l with
  | nil => rfl
  | cons x l ih => rw [List.map_cons, List.mapM_cons, List.mapM_cons, ih]

/-- `mapM` over a family of per-element characterized chunk producers
succeeds and its chunks contain exactly the characterized members. -/
theorem mapM_char {α : Type} (f : α → Option (List Rule))
    (P : α → Rule → Prop) :
    ∀ l : List α,
      (∀ x ∈ l, ∃ out, f x = some out ∧ ∀ r, r ∈ out ↔ P x r) →
      ∃ outs, l.mapM f = some outs ∧
        ∀ r : Rule, (∃ rs ∈ outs, r ∈ rs) ↔ ∃ x ∈ l, P x r := by
  intro l
  induction l with
  | nil =>
    intro _
    refine ⟨[], rfl, ?_⟩
    simp
  | cons x l ih =>
    intro h
    obtain ⟨out, hfx, hout⟩ := h x (List.mem_cons_self _ _)
    obtain ⟨outs, hrec, houts⟩ := ih (fun y hy => h y (List.mem_cons_of_mem x hy))
    refine ⟨out :: outs, ?_, ?_⟩
    · rw [List.mapM_cons, hfx, hrec]
      rfl
    · intro r
      constructor
      · rintro ⟨rs, hrs, hr⟩
        rcases List.mem_cons.mp hrs with rfl | hrs'
        · exact ⟨x, List.mem_cons_self _ _, (hout r).mp hr⟩
        · obtain ⟨y, hy, hP⟩ := (houts r).mp ⟨rs, hrs', hr⟩
          exact ⟨y, List.mem_cons_of_mem x hy, hP⟩
      · rintro ⟨y, hy, hP⟩
        rcases List.mem_cons.mp hy with rfl | hy'
        · exact ⟨out, List.mem_cons_self _ _, (hout r).mpr hP⟩
        · obtain ⟨rs, hrs, hr⟩ := (houts r).mpr ⟨y, hy', hP⟩
          exact ⟨rs, List.mem_cons_of_mem out hrs, hr⟩

/-- C1: on genuine frequent-itemset inputs — strictly sorted item lists
and a support table that is defined, positive and antitone on each
itemset's subsets and assigns each itemset its own relative support —
the level-wise consequent expansion of `generate_rules` produces exactly
the same rule set as the naive generator that tries every two-way split
of every itemset with at least two items. -/
theorem generate_rules_naive_equivalence (itemsets : List ItemSet)
    (datasetSize : ℕ) (mc : ℚ) (ml : Option ℚ)
    (hsorted : ∀ i ∈ itemsets, i.items.Pairwise (· < ·))
    (hgood : ∀ i ∈ itemsets, 1 < i.items.length →
      GoodTable i.items (tableFind (createSupportLookup itemsets datasetSize)))
    (hself : ∀ i ∈ itemsets, 1 < i.items.length →
      tableFind (createSupportLookup itemsets datasetSize) i.items =
        some ((i.count : ℚ) / (datasetSize : ℚ))) :
    ∃ outs rset,
      generateRules itemsets datasetSize mc ml = some outs ∧
      naiveGenerateRules itemsets datasetSize mc ml = some rset ∧
      ∀ r : Rule, (∃ rs ∈ outs, r ∈ rs) ↔ r ∈ rset := by
  obtain ⟨outs, he1, hch1⟩ := mapM_char
    (fun i => generateRulesForItemset i.items
      ((i.count : ℚ) / (datasetSize : ℚ))
      (tableFind (createSupportLookup itemsets datasetSize)) mc (ml.getD 0))
    (fun i r => ∃ C, C.Sublist i.items ∧ C ≠ [] ∧ C ≠ i.items ∧
      ¬ (confOf i.items ((i.count : ℚ) / (datasetSize : ℚ))
          (tableFind (createSupportLookup itemsets datasetSize)) C).1 < mc ∧
      ml.getD 0 ≤ (confOf i.items ((i.count : ℚ) / (datasetSize : ℚ))
          (tableFind (createSupportLookup itemsets datasetSize)) C).2 ∧
      r = ruleOf i.items ((i.count : ℚ) / (datasetSize : ℚ))
          (tableFind (createSupportLookup itemsets datasetSize)) C)
    (itemsets.filter (fun i => 1 < i.items.length))
    (by
      intro i hi
      rw [List.mem_filter] at hi
      obtain ⟨hiI, hilen⟩ := hi
      have hlen : 1 < i.items.length := by simpa using hilen
      exact generateRulesForItemset_eq i.items
        ((i.count : ℚ) / (datasetSize : ℚ))
        (tableFind (createSupportLookup itemsets datasetSize)) mc (ml.getD 0)
        (hgood i hiI hlen) (hsorted i hiI)
        (div_nonneg (Nat.cast_nonneg _) (Nat.cast_nonneg _)) hlen)
  obtain ⟨outs2, he2, hch2⟩ := mapM_char
    (fun i => naiveAddRulesFor
      (tableFind (createSupportLookup itemsets datasetSize)) mc ml
      i.items [] [])
    (fun i r => ∃ C, C.Sublist i.items ∧ C ≠ [] ∧ C ≠ i.items ∧
      ¬ (confOf i.items ((i.count : ℚ) / (datasetSize : ℚ))
          (tableFind (createSupportLookup itemsets datasetSize)) C).1 < mc ∧
      ml.getD 0 ≤ (confOf i.items ((i.count : ℚ) / (datasetSize : ℚ))
          (tableFind (createSupportLookup itemsets datasetSize)) C).2 ∧
      r = ruleOf i.items ((i.count : ℚ) / (datasetSize : ℚ))
          (tableFind (createSupportLookup itemsets datasetSize)) C)
    (itemsets.filter (fun i => 1 < i.items.length))
    (by
      intro i hi
      rw [List.mem_filter] at hi
      obtain ⟨hiI, hilen⟩ := hi
      have hlen : 1 < i.items.length := by simpa using hilen
      exact naiveRulesForItemset_eq i.items
        (tableFind (createSupportLookup itemsets datasetSize)) mc ml
        ((i.count : ℚ) / (datasetSize : ℚ))
        (hgood i hiI hlen) (hsorted i hiI) (hself i hiI hlen))
  refine ⟨outs, outs2.flatten, ?_, ?_, ?_⟩
  · unfold generateRules
    exact he1
  · show (((itemsets.map ItemSet.items).filter
        (fun its => 1 < its.length)).mapM
      (fun its => naiveAddRulesFor
        (tableFind (createSupportLookup itemsets datasetSize)) mc ml
        its [] [])).map List.flatten = some outs2.flatten
    rw [List.filter_map, mapM_map_comp]
    simp only [Function.comp_def]
    rw [he2]
    rfl
  · intro r
    rw [hch1 r, List.mem_flatten]
    exact (hch2 r).symm

/-- Witness for C1 at a concrete input: the frequent itemsets of the
one-transaction dataset `[[1, 2]]`, whose support table is a genuine
frequency table, and whose two-item itemset `[1, 2]` drives both
generators through the seed phase, the pair merge and the two-way
splits. -/
theorem generate_rules_naive_equivalence_witness :
    ∃ outs rset,
      generateRules [ItemSet.mk [1] 1, ItemSet.mk [2] 1, ItemSet.mk [1, 2] 1]
        1 0 none = some outs ∧
      naiveGenerateRules
        [ItemSet.mk [1] 1, ItemSet.mk [2] 1, ItemSet.mk [1, 2] 1]
        1 0 none = some rset ∧
      ∀ r : Rule, (∃ rs ∈ outs, r ∈ rs) ↔ r ∈ rset :=
  generate_rules_naive_equivalence
    [ItemSet.mk [1] 1, ItemSet.mk [2] 1, ItemSet.mk [1, 2] 1] 1 0 none
    (by decide)
    (by
      intro i hi hlen
      fin_cases hi
      · simp at hlen
      · simp at hlen
      · show GoodTable [1, 2]
          (tableFind (createSupportLookup
            [ItemSet.mk [1] 1, ItemSet.mk [2] 1, ItemSet.mk [1, 2] 1] 1))
        refine ⟨?_, ?_, ?_⟩
        · intro s hs hne
          rw [← List.mem_sublists] at hs
          fin_cases hs
          · exact absurd rfl hne
          · rfl
          · rfl
          · rfl
        · intro s v hs hv
          rw [← List.mem_sublists] at hs
          fin_cases hs
          · simp [tableFind, createSupportLookup] at hv
          all_goals
            simp [tableFind, createSupportLookup] at hv
            rw [← hv]
            norm_num
        · intro s t vs vt hst htI hsne hvs hvt
          have hsI : s.Sublist [1, 2] := hst.trans htI
          rw [← List.mem_sublists] at hsI htI
          fin_cases htI <;> fin_cases hsI <;>
            first
              | exact absurd rfl hsne
              | (simp [tableFind, createSupportLookup] at hvt; done)
              | (simp [tableFind, createSupportLookup] at hvs hvt
                 rw [← hvs, ← hvt]))
    (by
      intro i hi hlen
      fin_cases hi
      · simp at hlen
      · simp at hlen
      · rfl)

end ArmRs
